import Mathlib

/-!
Verification of the forward-scheduling engine `scheduleProject`
(src/services/schedulerService.ts).

Shallow embedding conventions:
* Calendar dates (date-only strings "YYYY-MM-DD" in the source) are modelled
  as day numbers of type `Int`.  For well-formed date strings the source's
  `addDays` is day-number addition and `maxDate` is `max`, and `Date`
  comparison is integer comparison (the source parses date-only strings as
  UTC midnight, so no DST/timezone effects arise).
* `new Date().toISOString().split('T')[0]` (the current date read by the
  engine when seeding user availability) is passed as an explicit `today`
  parameter.
* JavaScript `Map`s are modelled as association lists (`Assoc`): `get`,
  `set`, `has` with first-match semantics; `set` replaces in place.
* Optional fields (`dependencies?`, `assignedTo?`, `requiredSpecialty?`) are
  `Option`s; the source's truthiness tests on them correspond to `Option`
  matching (ids and specialty labels are assumed to be nonempty strings).
* `Array.prototype.sort` with a numeric comparator is stable (ES2019); both
  queue sorting and candidate sorting are modelled by stable insertion sorts.
* The `while` loop is modelled with explicit fuel; `2 * |tasks| + 1` bounds
  the number of iterations (each task id is enqueued at most once more than
  it occurs among the inputs), so the fuel never runs out.
-/

namespace Scheduler

/-- Priorities, from the `Priority` enum ('Crítica' | 'Alta' | 'Media' | 'Baja'). -/
inductive Priority where
  | critica
  | alta
  | media
  | baja
deriving DecidableEq, Repr

/-- The `priorityWeight` table: `{ 'Crítica': 4, 'Alta': 3, 'Media': 2, 'Baja': 1 }`. -/
def priorityWeight : Priority → Int
  | .critica => 4
  | .alta => 3
  | .media => 2
  | .baja => 1

/-- Scheduling-relevant fields of a `Task` (src/types.ts, as used by the engine). -/
structure Task where
  id : String
  projectId : String
  name : String
  startDate : Int
  duration : Int
  dependencies : Option (List String)
  assignedTo : Option String
  requiredSpecialty : Option String
  priority : Priority
deriving DecidableEq, Repr

/-- Scheduling-relevant fields of a `User`. -/
structure User where
  id : String
  specialties : List String
  role : String
deriving DecidableEq, Repr

/-- Scheduling-relevant fields of a `Project`. -/
structure Project where
  id : String
  startDate : Int
deriving DecidableEq, Repr

/-- A JavaScript `Map` keyed by strings: an association list. -/
abbrev Assoc (β : Type) : Type := List (String × β)

/-- `Map.get` (first binding wins; the engine never creates duplicate keys). -/
def mget {β : Type} (m : Assoc β) (k : String) : Option β :=
  (List.find? (fun p => p.1 = k) m).map (fun p => p.2)

/-- `Map.set`: replace the binding in place, or append a fresh one. -/
def mset {β : Type} (m : Assoc β) (k : String) (v : β) : Assoc β :=
  match m with
  | [] => [(k, v)]
  | (k', v') :: rest => if k' = k then (k, v) :: rest else (k', v') :: mset rest k v

/-- `Map.has`. -/
def mhas {β : Type} (m : Assoc β) (k : String) : Bool :=
  (mget m k).isSome

/-- The dependency list of a task (`t.dependencies` with JS truthiness: an
absent list behaves as no dependencies). -/
def depsOf (t : Task) : List String :=
  t.dependencies.getD []

/-- The id list of a task list. -/
def taskIds (ts : List Task) : List String :=
  ts.map (fun t => t.id)

/-- First pass of graph construction (lines 43-47): clone every task into
`taskMap`, seed `incomingDegree` with 0 and `outgoingEdges` with `[]`. -/
def buildMaps (projectTasks : List Task) : Assoc Task × Assoc Int × Assoc (List String) :=
  projectTasks.foldl
    (fun acc t => (mset acc.1 t.id t, mset acc.2.1 t.id 0, mset acc.2.2 t.id []))
    ([], [], [])

/-- Second pass (lines 49-58): for every dependency that is present in the
task set, add an outgoing edge and bump the dependent's in-degree. -/
def addEdges (tm : Assoc Task) (st : Assoc Int × Assoc (List String))
    (projectTasks : List Task) : Assoc Int × Assoc (List String) :=
  projectTasks.foldl
    (fun acc t =>
      (depsOf t).foldl
        (fun acc depId =>
          if mhas tm depId then
            (mset acc.1 t.id ((mget acc.1 t.id).getD 0 + 1),
             mset acc.2 depId ((mget acc.2 depId).getD [] ++ [t.id]))
          else acc)
        acc)
    st

/-- Availability seeding (line 64): every user's next-free date starts at the
current date. -/
def seedAvailability (today : Int) (allUsers : List User) : Assoc Int :=
  allUsers.foldl (fun m u => mset m u.id today) []

/-- Resource leveling (lines 67-73): push each known user's next-free date to
the end of that user's tasks in other projects. -/
def prefillAvailability (project : Project) (existingGlobalTasks : List Task)
    (m : Assoc Int) : Assoc Int :=
  existingGlobalTasks.foldl
    (fun m t =>
      match t.assignedTo with
      | some a =>
        if t.projectId ≠ project.id ∧ mhas m a then
          mset m a (max ((mget m a).getD 0) (t.startDate + t.duration))
        else m
      | none => m)
    m

/-- A user's next-free date as read during candidate sorting
(`userAvailability.get(u.id)!`; candidates are always seeded users). -/
def availableOf (avail : Assoc Int) (u : User) : Int :=
  (mget avail u.id).getD 0

/-- Queue sort weight: `priorityWeight[taskMap.get(i)!.priority]` (ids in the
queue are always in the map; the 0 default is never reached). -/
def qweight (tm : Assoc Task) (i : String) : Int :=
  match mget tm i with
  | some t => priorityWeight t.priority
  | none => 0

/-- Stable insertion into a descending-by-weight list: the new element goes
before the first element of not-strictly-greater weight.  This realizes the
stable JS `sort((a, b) => w(b) - w(a))`. -/
def qinsert (tm : Assoc Task) (x : String) : List String → List String
  | [] => [x]
  | y :: ys => if qweight tm x < qweight tm y then y :: qinsert tm x ys else x :: y :: ys

/-- Stable descending-by-priority sort of the ready queue (lines 86, 171). -/
def qsort (tm : Assoc Task) : List String → List String
  | [] => []
  | x :: xs => qinsert tm x (qsort tm xs)

/-- Closed form of the stable descending priority sort: the weight-4 block,
then weight 3, 2, 1, each block in original relative order (ids missing from
the task map weigh 0 and sink to the end).  Equal-priority ids therefore
keep their arrival order. -/
def qclasses (tm : Assoc Task) (l : List String) : List String :=
  l.filter (fun i => decide (qweight tm i = 4)) ++
  (l.filter (fun i => decide (qweight tm i = 3)) ++
  (l.filter (fun i => decide (qweight tm i = 2)) ++
  (l.filter (fun i => decide (qweight tm i = 1)) ++
  l.filter (fun i => decide (qweight tm i ≤ 0)))))

/-- Stable insertion into an ascending-by-availability candidate list. -/
def uinsert (avail : Assoc Int) (x : User) : List User → List User
  | [] => [x]
  | y :: ys =>
    if availableOf avail y < availableOf avail x then y :: uinsert avail x ys
    else x :: y :: ys

/-- Stable ascending-by-next-free-date sort of candidates (lines 125-129),
realizing the stable JS `sort((u1, u2) => time(avail1) - time(avail2))`. -/
def usort (avail : Assoc Int) : List User → List User
  | [] => []
  | x :: xs => uinsert avail x (usort avail xs)

/-- `u.specialties.includes(s) || u.role === s` (line 118). -/
def satisfies (s : String) (u : User) : Bool :=
  u.specialties.contains s || u.role == s

/-- Earliest start from dependencies (lines 96-107): fold `maxDate` of each
present dependency's `startDate + duration` over the floor `project.startDate`. -/
def depFloorAux (tm : Assoc Task) : List String → Int → Int
  | [], acc => acc
  | d :: ds, acc =>
    depFloorAux tm ds
      (match mget tm d with
       | some dep => max acc (dep.startDate + dep.duration)
       | none => acc)

/-- The dependency-floor start date of a task. -/
def depFloor (project : Project) (tm : Assoc Task) (t : Task) : Int :=
  depFloorAux tm (depsOf t) project.startDate

/-- The conflict message pushed at line 141. -/
def conflictMsg (spec : String) (name : String) : String :=
  "Falta perfil: " ++ spec ++ " para tarea \"" ++ name ++ "\""

/-- Resource-assignment part of the loop body (lines 109-143): resolve the
best user for the task (specialty candidates, stability preference), pushing
a conflict message when the specialty is unsatisfiable.  Returns the chosen
assignee (the `bestUser` variable) and the updated conflict list. -/
def chooseUser (allUsers : List User) (avail : Assoc Int)
    (conflicts : List String) (floor : Int) (t : Task) :
    Option String × List String :=
  match t.requiredSpecialty with
  | none => (t.assignedTo, conflicts)
  | some spec =>
    let candidates := allUsers.filter (satisfies spec)
    match usort avail candidates with
    | [] => (t.assignedTo, conflicts ++ [conflictMsg spec t.name])
    | best :: _ =>
      let keep :=
        match t.assignedTo with
        | some a =>
          (candidates.find? (fun c : User => c.id == a)).isSome &&
            decide ((mget avail a).getD 0 ≤ floor)
        | none => false
      if keep then (t.assignedTo, conflicts) else (some best.id, conflicts)

/-- One loop-body pass over a popped task (lines 96-159): dependency floor,
candidate resolution, final start date, availability update.  Returns the
updated clone, the new availability map and the new conflict list. -/
def step (project : Project) (allUsers : List User) (tm : Assoc Task)
    (avail : Assoc Int) (conflicts : List String) (t : Task) :
    Task × Assoc Int × List String :=
  let floor := depFloor project tm t
  let res := chooseUser allUsers avail conflicts floor t
  match res.1 with
  | some u =>
    let userNextFree := (mget avail u).getD project.startDate
    let actualStart := max floor userNextFree
    ({ t with startDate := actualStart, assignedTo := some u },
     mset avail u (actualStart + t.duration), res.2)
  | none => ({ t with startDate := floor }, avail, res.2)

/-- Successor release (lines 165-173): decrement each neighbor's in-degree;
a neighbor reaching zero is pushed and the whole queue re-sorted. -/
def release (tm : Assoc Task) : List String → Assoc Int → List String →
    Assoc Int × List String
  | [], deg, q => (deg, q)
  | nb :: rest, deg, q =>
    let d := (mget deg nb).getD 0 - 1
    let deg' := mset deg nb d
    if d = 0 then release tm rest deg' (qsort tm (q ++ [nb]))
    else release tm rest deg' q

/-- The mutable state of the processing loop. -/
structure LoopState where
  taskMap : Assoc Task
  deg : Assoc Int
  out : Assoc (List String)
  avail : Assoc Int
  queue : List String
  optimizedTasks : List Task
  conflicts : List String
deriving Repr

/-- One iteration of the `while` loop (lines 92-174): pop the head of the
queue, run `step`, write the clone back into the task map, append it to the
output and release its successors.  A state with an empty queue is returned
unchanged. -/
def stepState (project : Project) (allUsers : List User) (s : LoopState) : LoopState :=
  match s.queue with
  | [] => s
  | taskId :: rest =>
    match mget s.taskMap taskId with
    | none => s
    | some t =>
      let r := step project allUsers s.taskMap s.avail s.conflicts t
      let tm' := mset s.taskMap taskId r.1
      let dq := release tm' ((mget s.out taskId).getD []) s.deg rest
      { taskMap := tm'
        deg := dq.1
        out := s.out
        avail := r.2.1
        queue := dq.2
        optimizedTasks := s.optimizedTasks ++ [r.1]
        conflicts := r.2.2 }

/-- The processing loop, with fuel bounding the number of iterations. -/
def processLoop (project : Project) (allUsers : List User) :
    Nat → LoopState → LoopState
  | 0, s => s
  | fuel + 1, s =>
    if s.queue.isEmpty then s
    else processLoop project allUsers fuel (stepState project allUsers s)

/-- Result record (`ScheduleResult`); `utilization` is always the empty map. -/
structure ScheduleResult where
  optimizedTasks : List Task
  conflicts : List String
  utilization : Assoc Int
deriving Repr

/-- The initial loop state built by `scheduleProject` before the loop. -/
def initState (project : Project) (projectTasks : List Task)
    (allUsers : List User) (existingGlobalTasks : List Task) (today : Int) :
    LoopState :=
  let bm := buildMaps projectTasks
  let de := addEdges bm.1 (bm.2.1, bm.2.2) projectTasks
  let avail := prefillAvailability project existingGlobalTasks
    (seedAvailability today allUsers)
  let queue0 := projectTasks.filterMap
    (fun t => if (mget de.1 t.id).getD 0 = 0 then some t.id else none)
  { taskMap := bm.1
    deg := de.1
    out := de.2
    avail := avail
    queue := qsort bm.1 queue0
    optimizedTasks := []
    conflicts := [] }

/-- The scheduling engine `scheduleProject` (lines 31-181).  `today` is the
current date read by the source via `new Date()`. -/
def scheduleProject (project : Project) (projectTasks : List Task)
    (allUsers : List User) (existingGlobalTasks : List Task) (today : Int) :
    ScheduleResult :=
  let s := processLoop project allUsers (2 * projectTasks.length + 1)
    (initState project projectTasks allUsers existingGlobalTasks today)
  { optimizedTasks := s.optimizedTasks
    conflicts := s.conflicts
    utilization := [] }

/-! ### Derived notions used by the specification statements -/

/-- The unique input task with a given id (input ids are unique per the data
model). -/
def origOf (ts : List Task) (i : String) : Option Task :=
  ts.find? (fun t => t.id = i)

/-- Number of dependencies of `t` that are present in the task set and not
yet scheduled (`dids` = ids already emitted). -/
def presentUnmet (ts : List Task) (dids : List String) (t : Task) : Nat :=
  ((depsOf t).filter (fun d => decide (d ∈ taskIds ts) && decide (d ∉ dids))).length

/-- Acyclicity of the dependency graph restricted to the supplied task set:
some ranking strictly increases along every present dependency edge. -/
def Acyclic (ts : List Task) : Prop :=
  ∃ rank : String → Nat,
    ∀ t ∈ ts, ∀ d ∈ depsOf t, d ∈ taskIds ts → rank d < rank t.id

/-- Two tasks sharing an assignee are serialized: the earlier-scheduled one
ends (exclusive end = `startDate + duration`) no later than the other starts. -/
def SameUserSerial (a b : Task) : Prop :=
  ∀ u : String, a.assignedTo = some u → b.assignedTo = some u →
    a.startDate + a.duration ≤ b.startDate

/-- The conflict entry a task contributes: one message exactly when its
required specialty is satisfied by no user. -/
def conflictFor (allUsers : List User) (t : Task) : Option String :=
  match t.requiredSpecialty with
  | some spec =>
    if allUsers.filter (satisfies spec) = [] then some (conflictMsg spec t.name)
    else none
  | none => none

/-- Direct dependency between two tasks of a result list. -/
def DependsOn (r : List Task) (a b : Task) : Prop :=
  a ∈ r ∧ b ∈ r ∧ a.id ∈ depsOf b

/-! ### Heap model (object identity)

The source mutates `startDate`/`assignedTo` on objects.  To state the frame
claim (caller-supplied objects never written, outputs are fresh clones) we
run the same algorithm over an explicit object heap: a list of task objects
addressed by index.  The caller owns every address of the initial heap; the
clone pass (`{...t}`, line 44) allocates fresh addresses at the end of the
heap, and all writes go through the id-to-address map. -/

/-- Placeholder object for impossible dangling reads. -/
def dummyTask : Task :=
  { id := "", projectId := "", name := "", startDate := 0, duration := 0,
    dependencies := none, assignedTo := none, requiredSpecialty := none,
    priority := Priority.media }

/-- Dereference an address map into a plain task map. -/
def derefMap (heap : List Task) (tma : Assoc Nat) : Assoc Task :=
  tma.map (fun p => (p.1, heap.getD p.2 dummyTask))

/-- Heap-level loop state: the task map holds addresses, the output list
holds the addresses of the emitted clones. -/
structure HeapState where
  heap : List Task
  tma : Assoc Nat
  deg : Assoc Int
  out : Assoc (List String)
  avail : Assoc Int
  queue : List String
  outAddrs : List Nat
  conflicts : List String

/-- Heap-level clone pass: `taskMap.set(t.id, {...t})` allocates a fresh
object (a new address holding a copy). -/
def buildMapsH (heap : List Task) (inAddrs : List Nat) :
    List Task × Assoc Nat × Assoc Int × Assoc (List String) :=
  inAddrs.foldl
    (fun acc a =>
      let t := acc.1.getD a dummyTask
      (acc.1 ++ [t], mset acc.2.1 t.id acc.1.length,
       mset acc.2.2.1 t.id 0, mset acc.2.2.2 t.id []))
    (heap, [], [], [])

/-- One heap-level loop iteration: reads go through the address map, the two
field writes (lines 155, 159) go to the popped clone's address. -/
def stepStateH (project : Project) (allUsers : List User) (s : HeapState) :
    HeapState :=
  match s.queue with
  | [] => s
  | taskId :: rest =>
    match mget s.tma taskId with
    | none => s
    | some addr =>
      let t := s.heap.getD addr dummyTask
      let r := step project allUsers (derefMap s.heap s.tma) s.avail s.conflicts t
      let heap' := s.heap.set addr r.1
      let dq := release (derefMap heap' s.tma) ((mget s.out taskId).getD []) s.deg rest
      { heap := heap'
        tma := s.tma
        deg := dq.1
        out := s.out
        avail := r.2.1
        queue := dq.2
        outAddrs := s.outAddrs ++ [addr]
        conflicts := r.2.2 }

/-- Heap-level processing loop. -/
def processLoopH (project : Project) (allUsers : List User) :
    Nat → HeapState → HeapState
  | 0, s => s
  | fuel + 1, s =>
    if s.queue.isEmpty then s
    else processLoopH project allUsers fuel (stepStateH project allUsers s)

/-- Heap-level engine: the project's tasks are the objects at `inAddrs` in
`heap` (the caller owns every address of `heap`; tasks of other projects are
read-only and passed by value). -/
def scheduleProjectH (project : Project) (heap : List Task)
    (inAddrs : List Nat) (allUsers : List User)
    (existingGlobalTasks : List Task) (today : Int) : HeapState :=
  let bm := buildMapsH heap inAddrs
  let projectTasks := inAddrs.map (fun a => heap.getD a dummyTask)
  let de := addEdges (derefMap bm.1 bm.2.1) (bm.2.2.1, bm.2.2.2) projectTasks
  let avail := prefillAvailability project existingGlobalTasks
    (seedAvailability today allUsers)
  let queue0 := projectTasks.filterMap
    (fun t => if (mget de.1 t.id).getD 0 = 0 then some t.id else none)
  processLoopH project allUsers (2 * inAddrs.length + 1)
    { heap := bm.1
      tma := bm.2.1
      deg := de.1
      out := de.2
      avail := avail
      queue := qsort (derefMap bm.1 bm.2.1) queue0
      outAddrs := []
      conflicts := [] }

/-- Availability invariant: every emitted task assigned to some user ends
(exclusive end `startDate + duration`) no later than that user's recorded
next-free date. -/
def AvailInv (avail : Assoc Int) (done : List Task) : Prop :=
  ∀ t ∈ done, ∀ u : String, t.assignedTo = some u →
    ∃ v : Int, mget avail u = some v ∧ t.startDate + t.duration ≤ v

/-- All task-map entries have positive duration. -/
def DurPosTM (tm : Assoc Task) : Prop :=
  ∀ p ∈ tm, 1 ≤ (Prod.snd p).duration

/-- Heap-model frame invariant: the caller-owned prefix (`n0` addresses,
originally `h0`) is untouched, the id-to-address map points only at engine
clones (addresses ≥ `n0`, in range), and the emitted addresses are clones. -/
def HeapInv (n0 : Nat) (h0 : List Task) (s : HeapState) : Prop :=
  (∀ a : Nat, a < n0 → s.heap.get? a = h0.get? a) ∧
  (∀ p ∈ s.tma, n0 ≤ (Prod.snd p : Nat) ∧ (Prod.snd p : Nat) < s.heap.length) ∧
  (∀ a ∈ s.outAddrs, n0 ≤ a) ∧
  n0 ≤ s.heap.length

/-- The successors of a task id: the ids of the tasks that list it as a
dependency, in input order (the adjacency list `outgoingEdges` builds). -/
def succList (ts : List Task) (i : String) : List String :=
  taskIds (ts.filter (fun t => decide (i ∈ depsOf t)))

/-- The full graph bookkeeping invariant of the processing loop, for an
input with unique task ids and duplicate-free dependency lists.  `dids` is
the list of already-emitted ids. -/
def GraphInv (P : Project) (ts : List Task) (s : LoopState) : Prop :=
  (∀ t ∈ ts, mget s.out t.id = some (succList ts t.id)) ∧
  (∀ t2 ∈ s.optimizedTasks, mget s.taskMap t2.id = some t2) ∧
  (∀ t ∈ ts, t.id ∉ taskIds s.optimizedTasks → mget s.taskMap t.id = some t) ∧
  (taskIds s.optimizedTasks).Nodup ∧
  taskIds s.optimizedTasks ⊆ taskIds ts ∧
  (∀ t ∈ ts, mget s.deg t.id =
    some ((presentUnmet ts (taskIds s.optimizedTasks) t : Int))) ∧
  (∀ i : String, i ∈ s.queue ↔ ∃ t ∈ ts, t.id = i ∧
    i ∉ taskIds s.optimizedTasks ∧
    presentUnmet ts (taskIds s.optimizedTasks) t = 0) ∧
  s.queue.Nodup ∧
  (∀ t ∈ ts, t.id ∈ taskIds s.optimizedTasks →
    presentUnmet ts (taskIds s.optimizedTasks) t = 0) ∧
  (∀ t2 ∈ s.optimizedTasks,
    P.startDate ≤ t2.startDate ∧
    (∀ d ∈ depsOf t2, d ∈ taskIds ts →
      ∃ d2 ∈ s.optimizedTasks, d2.id = d ∧
        d2.startDate + d2.duration ≤ t2.startDate) ∧
    (∃ t ∈ ts, t.id = t2.id ∧
      t2 = { t with startDate := t2.startDate, assignedTo := t2.assignedTo }))

/-- `x` occurs strictly before `y` in `l`. -/
def Before (l : List String) (x y : String) : Prop :=
  ∃ a b c, l = a ++ x :: (b ++ y :: c)

/-- The ids the loop will emit after state `s`, in emission order. -/
def Future (P : Project) (U : List User) (fuel : Nat) (s : LoopState) :
    List String :=
  (taskIds (processLoop P U fuel s).optimizedTasks).drop
    (taskIds s.optimizedTasks).length

/-- Lockstep relation between a state `s1` of the first run (over `ts`) and a
state `s2` of the rerun (over the first run's output `O`): identical queue,
availability, conflicts and emitted clones; task-map agreement on emitted
ids; empty maps off the input ids; and `s1` still reaches the first run's
final state `F`. -/
def Sim (P : Project) (U : List User) (ts O : List Task) (F : LoopState)
    (s1 s2 : LoopState) : Prop :=
  GraphInv P ts s1 ∧
  GraphInv P O s2 ∧
  s2.queue = s1.queue ∧
  s2.avail = s1.avail ∧
  s2.conflicts = s1.conflicts ∧
  s2.optimizedTasks = s1.optimizedTasks ∧
  (∀ i ∈ taskIds s1.optimizedTasks, mget s2.taskMap i = mget s1.taskMap i) ∧
  (∀ d, d ∉ taskIds ts → mget s1.taskMap d = none ∧ mget s2.taskMap d = none) ∧
  (∃ m, processLoop P U m s1 = F)

/-! ### Association-list lemmas -/

theorem mget_mset_self {β : Type} (m : Assoc β) (k : String) (v : β) :
    mget (mset m k v) k = some v := by
  induction m with
  | nil => simp [mset, mget, List.find?]
  | cons p rest ih =>
    obtain ⟨k', v'⟩ := p
    by_cases h : k' = k
    · simp [mset, h, mget, List.find?]
    · simpa [mset, h, mget, List.find?] using ih

theorem mget_mset_ne {β : Type} (m : Assoc β) (k j : String) (v : β)
    (h : j ≠ k) : mget (mset m k v) j = mget m j := by
  induction m with
  | nil => simp [mset, mget, List.find?, Ne.symm h]
  | cons p rest ih =>
    obtain ⟨k', v'⟩ := p
    by_cases hk : k' = k
    · subst hk
      simp [mset, mget, List.find?, Ne.symm h]
    · by_cases hj : k' = j
      · subst hj
        simp [mset, hk, mget, List.find?]
      · simpa [mset, hk, mget, List.find?, hj] using ih

theorem mem_mset {β : Type} {m : Assoc β} {k : String} {v : β}
    {p : String × β} (h : p ∈ mset m k v) : p = (k, v) ∨ p ∈ m := by
  induction m with
  | nil => simpa [mset] using h
  | cons q rest ih =>
    obtain ⟨k', v'⟩ := q
    by_cases hk : k' = k
    · rcases (by simpa [mset, hk] using h) with h' | h'
      · exact Or.inl h'
      · exact Or.inr (List.mem_cons_of_mem _ h')
    · rcases (by simpa [mset, hk] using h) with h' | h'
      · exact Or.inr (by simp [h'])
      · rcases ih h' with h'' | h''
        · exact Or.inl h''
        · exact Or.inr (List.mem_cons_of_mem _ h'')

theorem mget_mem {β : Type} {m : Assoc β} {k : String} {v : β}
    (h : mget m k = some v) : (k, v) ∈ m := by
  induction m with
  | nil => simp [mget] at h
  | cons p rest ih =>
    obtain ⟨k', v'⟩ := p
    by_cases hk : k' = k
    · subst hk
      simp [mget, List.find?] at h
      simp [h]
    · simp only [mget, List.find?] at h
      rw [show (decide (k' = k)) = false by simpa using hk] at h
      exact List.mem_cons_of_mem _ (ih h)

/-! ### Queue-sort lemmas -/

theorem qinsert_perm (tm : Assoc Task) (x : String) (l : List String) :
    (qinsert tm x l).Perm (x :: l) := by
  induction l with
  | nil => simp [qinsert]
  | cons y ys ih =>
    by_cases h : qweight tm x < qweight tm y
    · simp only [qinsert, if_pos h]
      exact (ih.cons y).trans (List.Perm.swap x y ys)
    · simp [qinsert, if_neg h]

theorem qsort_perm (tm : Assoc Task) (l : List String) :
    (qsort tm l).Perm l := by
  induction l with
  | nil => simp [qsort]
  | cons x xs ih =>
    exact (qinsert_perm tm x (qsort tm xs)).trans (ih.cons x)

theorem mem_qsort {tm : Assoc Task} {l : List String} {a : String} :
    a ∈ qsort tm l ↔ a ∈ l :=
  (qsort_perm tm l).mem_iff

theorem nodup_qsort {tm : Assoc Task} {l : List String} (h : l.Nodup) :
    (qsort tm l).Nodup :=
  ((qsort_perm tm l).nodup_iff).mpr h

/-! ### Candidate-sort lemmas -/

theorem uinsert_perm (avail : Assoc Int) (x : User) (l : List User) :
    (uinsert avail x l).Perm (x :: l) := by
  induction l with
  | nil => simp [uinsert]
  | cons y ys ih =>
    by_cases h : availableOf avail y < availableOf avail x
    · simp only [uinsert, if_pos h]
      exact (ih.cons y).trans (List.Perm.swap x y ys)
    · simp [uinsert, if_neg h]

theorem usort_perm (avail : Assoc Int) (l : List User) :
    (usort avail l).Perm l := by
  induction l with
  | nil => simp [usort]
  | cons x xs ih =>
    exact (uinsert_perm avail x (usort avail xs)).trans (ih.cons x)

theorem usort_eq_nil_iff {avail : Assoc Int} {l : List User} :
    usort avail l = [] ↔ l = [] := by
  constructor
  · intro h
    have := (usort_perm avail l).symm
    rw [h] at this
    exact this.eq_nil
  · intro h
    subst h
    simp [usort]

theorem usort_head_min {avail : Assoc Int} {l : List User} {c : User}
    {r : List User} (h : usort avail l = c :: r) :
    c ∈ l ∧ ∀ u ∈ l, availableOf avail c ≤ availableOf avail u := by
  induction l generalizing c r with
  | nil => simp [usort] at h
  | cons x xs ih =>
    simp only [usort] at h
    cases hs : usort avail xs with
    | nil =>
      have hxs : xs = [] := usort_eq_nil_iff.mp hs
      subst hxs
      simp [usort, uinsert] at h
      refine ⟨by simp [h.1], ?_⟩
      intro u hu
      simp at hu
      simp [hu, h.1]
    | cons y ys =>
      rw [hs] at h
      obtain ⟨hy, hymin⟩ := ih hs
      by_cases hc : availableOf avail y < availableOf avail x
      · rw [uinsert, if_pos hc] at h
        injection h with h1 h2
        subst h1
        refine ⟨List.mem_cons_of_mem _ hy, ?_⟩
        intro u hu
        rcases List.mem_cons.mp hu with rfl | hu
        · exact le_of_lt hc
        · exact hymin u hu
      · rw [uinsert, if_neg hc] at h
        injection h with h1 h2
        subst h1
        refine ⟨List.mem_cons_self _ _, ?_⟩
        intro u hu
        rcases List.mem_cons.mp hu with rfl | hu
        · exact le_refl _
        · exact le_trans (not_lt.mp hc) (hymin u hu)

/-! ### Dependency-floor lemmas -/

theorem depFloorAux_ge (tm : Assoc Task) (ds : List String) (acc : Int) :
    acc ≤ depFloorAux tm ds acc := by
  induction ds generalizing acc with
  | nil => simp [depFloorAux]
  | cons d ds ih =>
    simp only [depFloorAux]
    cases h : mget tm d with
    | none => exact ih acc
    | some dep => exact le_trans (le_max_left _ _) (ih _)

theorem depFloorAux_dep (tm : Assoc Task) (ds : List String) (acc : Int) :
    ∀ d ∈ ds, ∀ dep : Task, mget tm d = some dep →
      dep.startDate + dep.duration ≤ depFloorAux tm ds acc := by
  induction ds generalizing acc with
  | nil => intro d hd; simp at hd
  | cons d' ds ih =>
    intro d hd dep hdep
    rcases List.mem_cons.mp hd with rfl | hd
    · simp only [depFloorAux, hdep]
      exact le_trans (le_max_right _ _) (depFloorAux_ge tm ds _)
    · simp only [depFloorAux]
      cases h : mget tm d' with
      | none => exact ih acc d hd dep hdep
      | some dep' => exact ih _ d hd dep hdep

theorem depFloor_ge (project : Project) (tm : Assoc Task) (t : Task) :
    project.startDate ≤ depFloor project tm t :=
  depFloorAux_ge tm (depsOf t) project.startDate

theorem depFloor_dep (project : Project) (tm : Assoc Task) (t : Task) :
    ∀ d ∈ depsOf t, ∀ dep : Task, mget tm d = some dep →
      dep.startDate + dep.duration ≤ depFloor project tm t :=
  fun d hd dep hdep => depFloorAux_dep tm (depsOf t) project.startDate d hd dep hdep

/-! ### Loop-body characterization -/

theorem chooseUser_conflicts (U : List User) (avail : Assoc Int)
    (cf : List String) (floor : Int) (t : Task) :
    (chooseUser U avail cf floor t).2 = cf ++ (conflictFor U t).toList := by
  unfold chooseUser conflictFor
  cases hs : t.requiredSpecialty with
  | none => simp
  | some spec =>
    cases h : usort avail (U.filter (satisfies spec)) with
    | nil =>
      have he : U.filter (satisfies spec) = [] := usort_eq_nil_iff.mp h
      simp [he, usort]
    | cons best bs =>
      have hne : U.filter (satisfies spec) ≠ [] := by
        intro hc
        rw [hc] at h
        simp [usort] at h
      simp [h, hne, apply_ite Prod.snd]

theorem chooseUser_none_assignedTo {U : List User} {avail : Assoc Int}
    {cf : List String} {floor : Int} {t : Task}
    (h : (chooseUser U avail cf floor t).1 = none) : t.assignedTo = none := by
  unfold chooseUser at h
  cases hs : t.requiredSpecialty with
  | none => rw [hs] at h; exact h
  | some spec =>
    rw [hs] at h
    cases husort : usort avail (U.filter (satisfies spec)) with
    | nil =>
      simp [husort] at h
      exact h
    | cons best bs =>
      simp [husort, apply_ite Prod.fst] at h
      split at h
      · exact h
      · simp at h

theorem step_clone (P : Project) (U : List User) (tm : Assoc Task)
    (avail : Assoc Int) (cf : List String) (t : Task) :
    (step P U tm avail cf t).1 =
      { t with startDate := (step P U tm avail cf t).1.startDate,
               assignedTo := (step P U tm avail cf t).1.assignedTo } := by
  cases h : (chooseUser U avail cf (depFloor P tm t) t).1 <;> simp [step, h]

theorem step_conflicts (P : Project) (U : List User) (tm : Assoc Task)
    (avail : Assoc Int) (cf : List String) (t : Task) :
    (step P U tm avail cf t).2.2 = cf ++ (conflictFor U t).toList := by
  cases h : (chooseUser U avail cf (depFloor P tm t) t).1 <;>
    simp [step, h, ← chooseUser_conflicts U avail cf (depFloor P tm t) t]

theorem step_assign (P : Project) (U : List User) (tm : Assoc Task)
    (avail : Assoc Int) (cf : List String) (t : Task) :
    (∃ u, (step P U tm avail cf t).1.assignedTo = some u ∧
        (step P U tm avail cf t).1.startDate =
          max (depFloor P tm t) ((mget avail u).getD P.startDate) ∧
        (step P U tm avail cf t).2.1 =
          mset avail u ((step P U tm avail cf t).1.startDate + t.duration)) ∨
      ((step P U tm avail cf t).1.assignedTo = none ∧
        (step P U tm avail cf t).1.startDate = depFloor P tm t ∧
        (step P U tm avail cf t).2.1 = avail) := by
  cases h : (chooseUser U avail cf (depFloor P tm t) t).1 with
  | none => right; refine ⟨?_, ?_, ?_⟩ <;> simp [step, h, chooseUser_none_assignedTo h]
  | some u => left; refine ⟨u, ?_, ?_, ?_⟩ <;> simp [step, h]

theorem step_start_ge_floor (P : Project) (U : List User) (tm : Assoc Task)
    (avail : Assoc Int) (cf : List String) (t : Task) :
    depFloor P tm t ≤ (step P U tm avail cf t).1.startDate := by
  rcases step_assign P U tm avail cf t with ⟨u, -, hs, -⟩ | ⟨-, hs, -⟩
  · rw [hs]; exact le_max_left _ _
  · rw [hs]

theorem step_start_ge_project (P : Project) (U : List User) (tm : Assoc Task)
    (avail : Assoc Int) (cf : List String) (t : Task) :
    P.startDate ≤ (step P U tm avail cf t).1.startDate :=
  le_trans (depFloor_ge P tm t) (step_start_ge_floor P U tm avail cf t)

/-! ### Availability invariant (no user double-booking) -/

theorem buildMaps_mem_aux (ts : List Task)
    (acc : Assoc Task × Assoc Int × Assoc (List String)) :
    ∀ p ∈ (ts.foldl
      (fun acc t => (mset acc.1 t.id t, mset acc.2.1 t.id 0, mset acc.2.2 t.id []))
      acc).1, p.2 ∈ ts ∨ p ∈ acc.1 := by
  induction ts generalizing acc with
  | nil => intro p hp; exact Or.inr hp
  | cons t ts ih =>
    intro p hp
    rcases ih _ p hp with h | h
    · exact Or.inl (List.mem_cons_of_mem _ h)
    · rcases mem_mset h with rfl | h
      · exact Or.inl (by simp)
      · exact Or.inr h

theorem buildMaps_fst_mem {ts : List Task} {p : String × Task}
    (h : p ∈ (buildMaps ts).1) : p.2 ∈ ts := by
  rcases buildMaps_mem_aux ts ([], [], []) p h with h' | h'
  · exact h'
  · simp at h'

theorem stepState_availInv (P : Project) (U : List User) (s : LoopState)
    (hdur : DurPosTM s.taskMap)
    (hai : AvailInv s.avail s.optimizedTasks)
    (hser : s.optimizedTasks.Pairwise SameUserSerial) :
    DurPosTM (stepState P U s).taskMap ∧
      AvailInv (stepState P U s).avail (stepState P U s).optimizedTasks ∧
      (stepState P U s).optimizedTasks.Pairwise SameUserSerial := by
  cases hq : s.queue with
  | nil => simp only [stepState, hq]; exact ⟨hdur, hai, hser⟩
  | cons i rest =>
    cases hm : mget s.taskMap i with
    | none => simp only [stepState, hq, hm]; exact ⟨hdur, hai, hser⟩
    | some t =>
      have htdur : 1 ≤ t.duration := hdur _ (mget_mem hm)
      have hclone := step_clone P U s.taskMap s.avail s.conflicts t
      have hdur' : (step P U s.taskMap s.avail s.conflicts t).1.duration = t.duration := by
        rw [hclone]
      simp only [stepState, hq, hm]
      refine ⟨?_, ?_, ?_⟩
      · intro p hp
        rcases mem_mset hp with rfl | hp
        · simpa [hdur'] using htdur
        · exact hdur p hp
      · intro t0 ht0 w hw
        rcases step_assign P U s.taskMap s.avail s.conflicts t with
          ⟨u, hu, hst, hav⟩ | ⟨hu, hst, hav⟩
        · rcases List.mem_append.mp ht0 with ht0 | ht0
          · obtain ⟨v, hv, hle⟩ := hai t0 ht0 w hw
            by_cases hwu : w = u
            · subst hwu
              refine ⟨(step P U s.taskMap s.avail s.conflicts t).1.startDate + t.duration,
                by rw [hav]; exact mget_mset_self _ _ _, ?_⟩
              have hvs : v ≤ (step P U s.taskMap s.avail s.conflicts t).1.startDate := by
                rw [hst, hv, Option.getD_some]
                exact le_max_right _ _
              omega
            · refine ⟨v, ?_, hle⟩
              rw [hav, mget_mset_ne _ _ _ _ hwu]
              exact hv
          · have ht0e : t0 = (step P U s.taskMap s.avail s.conflicts t).1 := by
              simpa using ht0
            subst ht0e
            rw [hu] at hw
            injection hw with hwu
            subst hwu
            refine ⟨(step P U s.taskMap s.avail s.conflicts t).1.startDate + t.duration,
              by rw [hav]; exact mget_mset_self _ _ _, ?_⟩
            rw [hdur']
        · rcases List.mem_append.mp ht0 with ht0 | ht0
          · rw [hav]
            exact hai t0 ht0 w hw
          · have ht0e : t0 = (step P U s.taskMap s.avail s.conflicts t).1 := by
              simpa using ht0
            subst ht0e
            rw [hu] at hw
            exact absurd hw (by simp)
      · rw [List.pairwise_append]
        refine ⟨hser, List.pairwise_singleton _ _, ?_⟩
        intro t0 ht0 t1 ht1
        have ht1e : t1 = (step P U s.taskMap s.avail s.conflicts t).1 := by
          simpa using ht1
        subst ht1e
        intro w hw0 hw1
        rcases step_assign P U s.taskMap s.avail s.conflicts t with
          ⟨u, hu, hst, hav⟩ | ⟨hu, hst, hav⟩
        · rw [hu] at hw1
          injection hw1 with huw
          subst huw
          obtain ⟨v, hv, hle⟩ := hai t0 ht0 _ hw0
          have hvs : v ≤ (step P U s.taskMap s.avail s.conflicts t).1.startDate := by
            rw [hst, hv, Option.getD_some]
            exact le_max_right _ _
          exact le_trans hle hvs
        · rw [hu] at hw1
          exact absurd hw1 (by simp)

theorem processLoop_availInv (P : Project) (U : List User) (fuel : Nat)
    (s : LoopState) (hdur : DurPosTM s.taskMap)
    (hai : AvailInv s.avail s.optimizedTasks)
    (hser : s.optimizedTasks.Pairwise SameUserSerial) :
    AvailInv (processLoop P U fuel s).avail (processLoop P U fuel s).optimizedTasks ∧
      (processLoop P U fuel s).optimizedTasks.Pairwise SameUserSerial := by
  induction fuel generalizing s with
  | zero => exact ⟨hai, hser⟩
  | succ fuel ih =>
    simp only [processLoop]
    by_cases hq : s.queue.isEmpty
    · simp only [hq, if_pos]
      exact ⟨hai, hser⟩
    · simp only [hq, if_neg, Bool.false_eq_true, not_false_eq_true]
      obtain ⟨h1, h2, h3⟩ := stepState_availInv P U s hdur hai hser
      exact ih _ h1 h2 h3

theorem scheduleProject_optimizedTasks (P : Project) (ts : List Task)
    (U : List User) (G : List Task) (today : Int) :
    (scheduleProject P ts U G today).optimizedTasks =
      (processLoop P U (2 * ts.length + 1) (initState P ts U G today)).optimizedTasks :=
  rfl

theorem initState_durPos {P : Project} {ts : List Task} {U : List User}
    {G : List Task} {today : Int} (hdur : ∀ t ∈ ts, 1 ≤ t.duration) :
    DurPosTM (initState P ts U G today).taskMap := by
  intro p hp
  exact hdur _ (buildMaps_fst_mem hp)

/-- C2: for every input whose tasks all have duration ≥ 1, tasks that end up
assigned to the same user are serialized in scheduling order (the later one
starts no earlier than the earlier one's `startDate + duration`), so their
inclusive occupancy intervals `[startDate, startDate + duration - 1]` never
overlap. -/
theorem no_self_overlap_per_user (P : Project) (ts : List Task)
    (U : List User) (G : List Task) (today : Int)
    (hdur : ∀ t ∈ ts, 1 ≤ t.duration) :
    (scheduleProject P ts U G today).optimizedTasks.Pairwise SameUserSerial ∧
    ∀ i j : Fin (scheduleProject P ts U G today).optimizedTasks.length,
      i < j → ∀ u : String,
      ((scheduleProject P ts U G today).optimizedTasks.get i).assignedTo = some u →
      ((scheduleProject P ts U G today).optimizedTasks.get j).assignedTo = some u →
      ((scheduleProject P ts U G today).optimizedTasks.get i).startDate +
          ((scheduleProject P ts U G today).optimizedTasks.get i).duration ≤
        ((scheduleProject P ts U G today).optimizedTasks.get j).startDate ∧
      ¬ ∃ d : Int,
        (((scheduleProject P ts U G today).optimizedTasks.get i).startDate ≤ d ∧
          d ≤ ((scheduleProject P ts U G today).optimizedTasks.get i).startDate +
            ((scheduleProject P ts U G today).optimizedTasks.get i).duration - 1) ∧
        (((scheduleProject P ts U G today).optimizedTasks.get j).startDate ≤ d ∧
          d ≤ ((scheduleProject P ts U G today).optimizedTasks.get j).startDate +
            ((scheduleProject P ts U G today).optimizedTasks.get j).duration - 1) := by
  have hmain := processLoop_availInv P U (2 * ts.length + 1)
    (initState P ts U G today) (initState_durPos hdur)
    (by intro t ht; simp [initState] at ht)
    (by simp [initState])
  rw [scheduleProject_optimizedTasks]
  refine ⟨hmain.2, ?_⟩
  intro i j hij u hui huj
  have hser := List.pairwise_iff_get.mp hmain.2 i j hij u hui huj
  refine ⟨hser, ?_⟩
  rintro ⟨d, ⟨-, hd1⟩, hd2, -⟩
  omega

/-- Witness for C2 at a concrete input: two tasks assigned to the same user. -/
theorem no_self_overlap_per_user_witness :
    (∀ t ∈ [(⟨"t1", "p", "T1", 99, 2, none, some "ub", none, Priority.critica⟩ : Task),
            (⟨"t2", "p", "T2", 99, 3, none, some "ub", none, Priority.media⟩ : Task)],
        1 ≤ t.duration) ∧
    ((scheduleProject ⟨"p", 0⟩
        [⟨"t1", "p", "T1", 99, 2, none, some "ub", none, Priority.critica⟩,
         ⟨"t2", "p", "T2", 99, 3, none, some "ub", none, Priority.media⟩]
        [⟨"ub", [], "dev"⟩] [] 0).optimizedTasks.Pairwise SameUserSerial ∧
      ∀ i j : Fin (scheduleProject ⟨"p", 0⟩
        [⟨"t1", "p", "T1", 99, 2, none, some "ub", none, Priority.critica⟩,
         ⟨"t2", "p", "T2", 99, 3, none, some "ub", none, Priority.media⟩]
        [⟨"ub", [], "dev"⟩] [] 0).optimizedTasks.length,
        i < j → ∀ u : String,
        ((scheduleProject ⟨"p", 0⟩
          [⟨"t1", "p", "T1", 99, 2, none, some "ub", none, Priority.critica⟩,
           ⟨"t2", "p", "T2", 99, 3, none, some "ub", none, Priority.media⟩]
          [⟨"ub", [], "dev"⟩] [] 0).optimizedTasks.get i).assignedTo = some u →
        ((scheduleProject ⟨"p", 0⟩
          [⟨"t1", "p", "T1", 99, 2, none, some "ub", none, Priority.critica⟩,
           ⟨"t2", "p", "T2", 99, 3, none, some "ub", none, Priority.media⟩]
          [⟨"ub", [], "dev"⟩] [] 0).optimizedTasks.get j).assignedTo = some u →
        ((scheduleProject ⟨"p", 0⟩
          [⟨"t1", "p", "T1", 99, 2, none, some "ub", none, Priority.critica⟩,
           ⟨"t2", "p", "T2", 99, 3, none, some "ub", none, Priority.media⟩]
          [⟨"ub", [], "dev"⟩] [] 0).optimizedTasks.get i).startDate +
            ((scheduleProject ⟨"p", 0⟩
          [⟨"t1", "p", "T1", 99, 2, none, some "ub", none, Priority.critica⟩,
           ⟨"t2", "p", "T2", 99, 3, none, some "ub", none, Priority.media⟩]
          [⟨"ub", [], "dev"⟩] [] 0).optimizedTasks.get i).duration ≤
          ((scheduleProject ⟨"p", 0⟩
          [⟨"t1", "p", "T1", 99, 2, none, some "ub", none, Priority.critica⟩,
           ⟨"t2", "p", "T2", 99, 3, none, some "ub", none, Priority.media⟩]
          [⟨"ub", [], "dev"⟩] [] 0).optimizedTasks.get j).startDate ∧
        ¬ ∃ d : Int,
          (((scheduleProject ⟨"p", 0⟩
          [⟨"t1", "p", "T1", 99, 2, none, some "ub", none, Priority.critica⟩,
           ⟨"t2", "p", "T2", 99, 3, none, some "ub", none, Priority.media⟩]
          [⟨"ub", [], "dev"⟩] [] 0).optimizedTasks.get i).startDate ≤ d ∧
            d ≤ ((scheduleProject ⟨"p", 0⟩
          [⟨"t1", "p", "T1", 99, 2, none, some "ub", none, Priority.critica⟩,
           ⟨"t2", "p", "T2", 99, 3, none, some "ub", none, Priority.media⟩]
          [⟨"ub", [], "dev"⟩] [] 0).optimizedTasks.get i).startDate +
              ((scheduleProject ⟨"p", 0⟩
          [⟨"t1", "p", "T1", 99, 2, none, some "ub", none, Priority.critica⟩,
           ⟨"t2", "p", "T2", 99, 3, none, some "ub", none, Priority.media⟩]
          [⟨"ub", [], "dev"⟩] [] 0).optimizedTasks.get i).duration - 1) ∧
          (((scheduleProject ⟨"p", 0⟩
          [⟨"t1", "p", "T1", 99, 2, none, some "ub", none, Priority.critica⟩,
           ⟨"t2", "p", "T2", 99, 3, none, some "ub", none, Priority.media⟩]
          [⟨"ub", [], "dev"⟩] [] 0).optimizedTasks.get j).startDate ≤ d ∧
            d ≤ ((scheduleProject ⟨"p", 0⟩
          [⟨"t1", "p", "T1", 99, 2, none, some "ub", none, Priority.critica⟩,
           ⟨"t2", "p", "T2", 99, 3, none, some "ub", none, Priority.media⟩]
          [⟨"ub", [], "dev"⟩] [] 0).optimizedTasks.get j).startDate +
              ((scheduleProject ⟨"p", 0⟩
          [⟨"t1", "p", "T1", 99, 2, none, some "ub", none, Priority.critica⟩,
           ⟨"t2", "p", "T2", 99, 3, none, some "ub", none, Priority.media⟩]
          [⟨"ub", [], "dev"⟩] [] 0).optimizedTasks.get j).duration - 1)) :=
  ⟨by decide,
   no_self_overlap_per_user ⟨"p", 0⟩
     [⟨"t1", "p", "T1", 99, 2, none, some "ub", none, Priority.critica⟩,
      ⟨"t2", "p", "T2", 99, 3, none, some "ub", none, Priority.media⟩]
     [⟨"ub", [], "dev"⟩] [] 0 (by decide)⟩

/-! ### Conflict bookkeeping (C4) -/

theorem filterMap_singleton_toList {α β : Type} (f : α → Option β) (x : α) :
    List.filterMap f [x] = (f x).toList := by
  cases h : f x <;> simp [h]

theorem conflictFor_step (P : Project) (U : List User) (tm : Assoc Task)
    (avail : Assoc Int) (cf : List String) (t : Task) :
    conflictFor U (step P U tm avail cf t).1 = conflictFor U t := by
  rw [step_clone]
  rfl

theorem stepState_conflictInv (P : Project) (U : List User) (s : LoopState)
    (h : s.conflicts = s.optimizedTasks.filterMap (conflictFor U)) :
    (stepState P U s).conflicts =
      (stepState P U s).optimizedTasks.filterMap (conflictFor U) := by
  cases hq : s.queue with
  | nil => simpa only [stepState, hq] using h
  | cons i rest =>
    cases hm : mget s.taskMap i with
    | none => simpa only [stepState, hq, hm] using h
    | some t =>
      simp only [stepState, hq, hm]
      rw [step_conflicts, h, List.filterMap_append]
      congr 1
      rw [filterMap_singleton_toList, conflictFor_step]

theorem processLoop_conflictInv (P : Project) (U : List User) (fuel : Nat)
    (s : LoopState)
    (h : s.conflicts = s.optimizedTasks.filterMap (conflictFor U)) :
    (processLoop P U fuel s).conflicts =
      (processLoop P U fuel s).optimizedTasks.filterMap (conflictFor U) := by
  induction fuel generalizing s with
  | zero => exact h
  | succ fuel ih =>
    simp only [processLoop]
    by_cases hq : s.queue.isEmpty
    · simp only [hq, if_pos]
      exact h
    · simp only [hq, if_neg, Bool.false_eq_true, not_false_eq_true]
      exact ih _ (stepState_conflictInv P U s h)

theorem chooseUser_unsat {U : List User} {avail : Assoc Int}
    {cf : List String} {floor : Int} {t : Task} {spec : String}
    (hs : t.requiredSpecialty = some spec)
    (hfil : U.filter (satisfies spec) = []) :
    (chooseUser U avail cf floor t).1 = t.assignedTo := by
  simp [chooseUser, hs, hfil, usort]

/-- C4: the conflict list is exactly one entry per processed task whose
required specialty no user satisfies (in processing order), built from the
task's name and the specialty by `conflictMsg`; a task with a satisfiable or
absent specialty contributes nothing (`conflictFor` yields `none` for it).
Moreover a task with an unsatisfiable specialty keeps its original assignee. -/
theorem conflict_correctness (P : Project) (U : List User)
    (ts G : List Task) (today : Int) :
    ((scheduleProject P ts U G today).conflicts =
      (scheduleProject P ts U G today).optimizedTasks.filterMap (conflictFor U)) ∧
    (∀ (tm : Assoc Task) (avail : Assoc Int) (cf : List String) (t : Task)
        (spec : String), t.requiredSpecialty = some spec →
        U.filter (satisfies spec) = [] →
        (step P U tm avail cf t).1.assignedTo = t.assignedTo) := by
  constructor
  · exact processLoop_conflictInv P U (2 * ts.length + 1)
      (initState P ts U G today) (by simp [initState])
  · intro tm avail cf t spec hs hfil
    have hcu := @chooseUser_unsat U avail cf (depFloor P tm t) t spec hs hfil
    cases h : (chooseUser U avail cf (depFloor P tm t) t).1 with
    | none =>
      rw [h] at hcu
      simp only [step, h]
    | some u =>
      rw [h] at hcu
      simp only [step, h]
      exact hcu

/-- Witness for C4: a task whose specialty no user satisfies yields exactly
its one conflict entry, and the unsatisfiable-specialty path keeps the
original assignee. -/
theorem conflict_correctness_witness :
    ((scheduleProject ⟨"p", 0⟩
        [⟨"t2", "p", "T2", 99, 3, none, none, some "Electrician", Priority.media⟩]
        [⟨"ub", [], "dev"⟩] [] 0).conflicts =
      (scheduleProject ⟨"p", 0⟩
        [⟨"t2", "p", "T2", 99, 3, none, none, some "Electrician", Priority.media⟩]
        [⟨"ub", [], "dev"⟩] [] 0).optimizedTasks.filterMap
          (conflictFor [⟨"ub", [], "dev"⟩])) ∧
    (step ⟨"p", 0⟩ [⟨"ub", [], "dev"⟩] [] [] []
        ⟨"t2", "p", "T2", 99, 3, none, some "ux", some "Electrician", Priority.media⟩).1.assignedTo =
      (⟨"t2", "p", "T2", 99, 3, none, some "ux", some "Electrician", Priority.media⟩ : Task).assignedTo :=
  ⟨(conflict_correctness ⟨"p", 0⟩ [⟨"ub", [], "dev"⟩]
      [⟨"t2", "p", "T2", 99, 3, none, none, some "Electrician", Priority.media⟩] [] 0).1,
   (conflict_correctness ⟨"p", 0⟩ [⟨"ub", [], "dev"⟩]
      [⟨"t2", "p", "T2", 99, 3, none, none, some "Electrician", Priority.media⟩] [] 0).2
     [] [] [] ⟨"t2", "p", "T2", 99, 3, none, some "ux", some "Electrician", Priority.media⟩
     "Electrician" rfl (by decide)⟩

/-! ### Candidate preference rule (C5) -/

/-- C5: for a processed task whose required specialty at least one user
satisfies, the engine keeps the currently assigned user when that user is a
satisfying candidate whose next-free date is at most the dependency floor;
otherwise it assigns the head of the stable ascending-by-next-free-date sort
of the candidates, which has the earliest next-free date among them. -/
theorem preferred_candidate_rule (P : Project) (U : List User)
    (tm : Assoc Task) (avail : Assoc Int) (cf : List String) (t : Task)
    (spec : String) (hs : t.requiredSpecialty = some spec)
    (hc : U.filter (satisfies spec) ≠ []) :
    (∀ a : String, t.assignedTo = some a →
      (∃ c ∈ U.filter (satisfies spec), c.id = a) →
      (mget avail a).getD 0 ≤ depFloor P tm t →
      (step P U tm avail cf t).1.assignedTo = some a) ∧
    ((match t.assignedTo with
      | some a => ¬((∃ c ∈ U.filter (satisfies spec), c.id = a) ∧
          (mget avail a).getD 0 ≤ depFloor P tm t)
      | none => True) →
      ∃ (c : User) (others : List User),
        usort avail (U.filter (satisfies spec)) = c :: others ∧
        (step P U tm avail cf t).1.assignedTo = some c.id ∧
        c ∈ U.filter (satisfies spec) ∧
        ∀ u ∈ U.filter (satisfies spec),
          availableOf avail c ≤ availableOf avail u) := by
  cases husort : usort avail (U.filter (satisfies spec)) with
  | nil => exact absurd (usort_eq_nil_iff.mp husort) hc
  | cons best others =>
    have hmin := usort_head_min husort
    constructor
    · intro a ha hex hle
      have hexU : ∃ x ∈ U, satisfies spec x = true ∧ x.id = a := by
        obtain ⟨c, hcmem, hcid⟩ := hex
        obtain ⟨hcu, hcsat⟩ := List.mem_filter.mp hcmem
        exact ⟨c, hcu, hcsat, hcid⟩
      have hch : (chooseUser U avail cf (depFloor P tm t) t).1 = some a := by
        simp [chooseUser, hs, husort, ha, hexU, hle]
      simp [step, hch]
    · intro hnk
      have hkeep : (chooseUser U avail cf (depFloor P tm t) t).1 = some best.id := by
        cases hta : t.assignedTo with
        | none => simp [chooseUser, hs, husort, hta]
        | some a =>
          rw [hta] at hnk
          rcases not_and_or.mp hnk with hnA | hnB
          · have hnAU : ¬∃ x ∈ U, satisfies spec x = true ∧ x.id = a := by
              rintro ⟨x, hxU, hxsat, hxid⟩
              exact hnA ⟨x, List.mem_filter.mpr ⟨hxU, hxsat⟩, hxid⟩
            simp [chooseUser, hs, husort, hta, hnAU]
          · simp [chooseUser, hs, husort, hta, hnB]
      refine ⟨best, others, rfl, ?_, hmin.1, hmin.2⟩
      simp [step, hkeep]

/-- Witness for C5 at a concrete input with one satisfying candidate. -/
theorem preferred_candidate_rule_witness :
    ((⟨"t2", "p", "T2", 99, 3, none, none, some "Electrician", Priority.media⟩ :
        Task).requiredSpecialty = some "Electrician" ∧
      [(⟨"ua", ["Electrician"], "dev"⟩ : User)].filter (satisfies "Electrician") ≠ []) ∧
    ((∀ a : String,
      (⟨"t2", "p", "T2", 99, 3, none, none, some "Electrician", Priority.media⟩ :
        Task).assignedTo = some a →
      (∃ c ∈ [(⟨"ua", ["Electrician"], "dev"⟩ : User)].filter (satisfies "Electrician"),
        c.id = a) →
      (mget ([] : Assoc Int) a).getD 0 ≤ depFloor ⟨"p", 0⟩ []
        ⟨"t2", "p", "T2", 99, 3, none, none, some "Electrician", Priority.media⟩ →
      (step ⟨"p", 0⟩ [⟨"ua", ["Electrician"], "dev"⟩] [] [] []
        ⟨"t2", "p", "T2", 99, 3, none, none, some "Electrician", Priority.media⟩).1.assignedTo =
        some a) ∧
    ((match (⟨"t2", "p", "T2", 99, 3, none, none, some "Electrician", Priority.media⟩ :
        Task).assignedTo with
      | some a => ¬((∃ c ∈ [(⟨"ua", ["Electrician"], "dev"⟩ : User)].filter
            (satisfies "Electrician"), c.id = a) ∧
          (mget ([] : Assoc Int) a).getD 0 ≤ depFloor ⟨"p", 0⟩ []
            ⟨"t2", "p", "T2", 99, 3, none, none, some "Electrician", Priority.media⟩)
      | none => True) →
      ∃ (c : User) (others : List User),
        usort [] ([(⟨"ua", ["Electrician"], "dev"⟩ : User)].filter
          (satisfies "Electrician")) = c :: others ∧
        (step ⟨"p", 0⟩ [⟨"ua", ["Electrician"], "dev"⟩] [] [] []
          ⟨"t2", "p", "T2", 99, 3, none, none, some "Electrician", Priority.media⟩).1.assignedTo =
          some c.id ∧
        c ∈ [(⟨"ua", ["Electrician"], "dev"⟩ : User)].filter (satisfies "Electrician") ∧
        ∀ u ∈ [(⟨"ua", ["Electrician"], "dev"⟩ : User)].filter (satisfies "Electrician"),
          availableOf [] c ≤ availableOf [] u)) :=
  ⟨⟨rfl, by decide⟩,
   preferred_candidate_rule ⟨"p", 0⟩ [⟨"ua", ["Electrician"], "dev"⟩] [] [] []
     ⟨"t2", "p", "T2", 99, 3, none, none, some "Electrician", Priority.media⟩
     "Electrician" rfl (by decide)⟩

/-! ### Unknown-assignee booking (C10) -/

theorem seedAvailability_keep (today : Int) (us : List User) (m : Assoc Int)
    (k : String) (hm : mget m k = some today) :
    mget (us.foldl (fun m u => mset m u.id today) m) k = some today := by
  induction us generalizing m with
  | nil => exact hm
  | cons u0 us ih =>
    refine ih _ ?_
    by_cases h : k = u0.id
    · subst h
      exact mget_mset_self _ _ _
    · rw [mget_mset_ne _ _ _ _ h]
      exact hm

theorem seedAvailability_mem (today : Int) (us : List User) :
    ∀ u2 ∈ us, mget (seedAvailability today us) u2.id = some today := by
  suffices h : ∀ m : Assoc Int, ∀ u2 ∈ us,
      mget (us.foldl (fun m u => mset m u.id today) m) u2.id = some today by
    exact h []
  induction us with
  | nil => intro m u2 h2; simp at h2
  | cons u0 us ih =>
    intro m u2 h2
    rcases List.mem_cons.mp h2 with rfl | h2
    · exact seedAvailability_keep today us _ _ (mget_mset_self _ _ _)
    · exact ih _ u2 h2

/-- C10: a processed task whose effective assignee is unknown to the
availability map (not a seeded user) is still scheduled and booked: the
lookup defaults to `project.startDate`, so the task starts exactly at its
dependency floor, keeps its assignee, and an availability cursor is recorded
under the unknown id (`floor + duration`).  In contrast, every user present
in `allUsers` is seeded with the current date. -/
theorem unknown_assignee_booking (P : Project) (U : List User)
    (tm : Assoc Task) (avail : Assoc Int) (cf : List String) (t : Task)
    (u : String)
    (hspec : t.requiredSpecialty = none ∨
      ∃ spec, t.requiredSpecialty = some spec ∧ U.filter (satisfies spec) = [])
    (ha : t.assignedTo = some u) (hu : mget avail u = none) :
    ((step P U tm avail cf t).1.startDate = depFloor P tm t ∧
     (step P U tm avail cf t).1.assignedTo = some u ∧
     mget (step P U tm avail cf t).2.1 u =
       some (depFloor P tm t + t.duration)) ∧
    (∀ (d : Int) (us : List User), ∀ u2 ∈ us,
      mget (seedAvailability d us) u2.id = some d) := by
  have hch : (chooseUser U avail cf (depFloor P tm t) t).1 = some u := by
    rcases hspec with hn | ⟨spec, hs, hfil⟩
    · simp [chooseUser, hn, ha]
    · rw [chooseUser_unsat hs hfil]
      exact ha
  have hstart : (step P U tm avail cf t).1.startDate = depFloor P tm t := by
    simp [step, hch, hu, max_eq_left (depFloor_ge P tm t)]
  refine ⟨⟨hstart, ?_, ?_⟩, fun d us => seedAvailability_mem d us⟩
  · simp [step, hch]
  · have hav : (step P U tm avail cf t).2.1 =
        mset avail u ((step P U tm avail cf t).1.startDate + t.duration) := by
      simp [step, hch]
    rw [hav, mget_mset_self, hstart]

/-- Witness for C10: a task assigned to an id not present in the
availability map. -/
theorem unknown_assignee_booking_witness :
    (((⟨"t3", "p", "T3", 99, 4, none, some "ghost", none, Priority.baja⟩ :
        Task).requiredSpecialty = none ∨
      ∃ spec, (⟨"t3", "p", "T3", 99, 4, none, some "ghost", none, Priority.baja⟩ :
        Task).requiredSpecialty = some spec ∧
        ([] : List User).filter (satisfies spec) = []) ∧
      (⟨"t3", "p", "T3", 99, 4, none, some "ghost", none, Priority.baja⟩ :
        Task).assignedTo = some "ghost" ∧
      mget ([] : Assoc Int) "ghost" = none) ∧
    (((step ⟨"p", 7⟩ [] [] [] []
        ⟨"t3", "p", "T3", 99, 4, none, some "ghost", none, Priority.baja⟩).1.startDate =
        depFloor ⟨"p", 7⟩ []
          ⟨"t3", "p", "T3", 99, 4, none, some "ghost", none, Priority.baja⟩ ∧
      (step ⟨"p", 7⟩ [] [] [] []
        ⟨"t3", "p", "T3", 99, 4, none, some "ghost", none, Priority.baja⟩).1.assignedTo =
        some "ghost" ∧
      mget (step ⟨"p", 7⟩ [] [] [] []
        ⟨"t3", "p", "T3", 99, 4, none, some "ghost", none, Priority.baja⟩).2.1 "ghost" =
        some (depFloor ⟨"p", 7⟩ []
          ⟨"t3", "p", "T3", 99, 4, none, some "ghost", none, Priority.baja⟩ + 4)) ∧
    (∀ (d : Int) (us : List User), ∀ u2 ∈ us,
      mget (seedAvailability d us) u2.id = some d)) :=
  ⟨⟨Or.inl rfl, rfl, rfl⟩,
   unknown_assignee_booking ⟨"p", 7⟩ [] [] [] []
     ⟨"t3", "p", "T3", 99, 4, none, some "ghost", none, Priority.baja⟩
     "ghost" (Or.inl rfl) rfl rfl⟩

/-! ### Weak bookkeeping invariant (C6: silent omission, id subset) -/

theorem release_queue_mem (tm : Assoc Task) (E : List String) :
    ∀ (deg : Assoc Int) (q : List String),
      ∀ j ∈ (release tm E deg q).2, j ∈ q ∨ j ∈ E := by
  induction E with
  | nil => intro deg q j hj; exact Or.inl hj
  | cons nb rest ih =>
    intro deg q j hj
    simp only [release] at hj
    split at hj
    · rcases ih _ _ j hj with hq | hr
      · rcases List.mem_append.mp (mem_qsort.mp hq) with h | h
        · exact Or.inl h
        · simp only [List.mem_singleton] at h
          exact Or.inr (by simp [h])
      · exact Or.inr (List.mem_cons_of_mem _ hr)
    · rcases ih _ _ j hj with hq | hr
      · exact Or.inl hq
      · exact Or.inr (List.mem_cons_of_mem _ hr)

theorem buildMaps_pair_mem_aux (ts : List Task)
    (acc : Assoc Task × Assoc Int × Assoc (List String)) :
    ∀ p ∈ (ts.foldl
      (fun acc t => (mset acc.1 t.id t, mset acc.2.1 t.id 0, mset acc.2.2 t.id []))
      acc).1, (∃ t ∈ ts, p = (t.id, t)) ∨ p ∈ acc.1 := by
  induction ts generalizing acc with
  | nil => intro p hp; exact Or.inr hp
  | cons t ts ih =>
    intro p hp
    rcases ih _ p hp with h | h
    · obtain ⟨t0, ht0, rfl⟩ := h
      exact Or.inl ⟨t0, List.mem_cons_of_mem _ ht0, rfl⟩
    · rcases mem_mset h with rfl | h
      · exact Or.inl ⟨t, by simp, rfl⟩
      · exact Or.inr h

theorem buildMaps_pair_mem {ts : List Task} {p : String × Task}
    (h : p ∈ (buildMaps ts).1) : ∃ t ∈ ts, p = (t.id, t) := by
  rcases buildMaps_pair_mem_aux ts ([], [], []) p h with h' | h'
  · exact h'
  · simp at h'

theorem buildMaps_out_mem_aux (ts : List Task)
    (acc : Assoc Task × Assoc Int × Assoc (List String)) :
    ∀ p ∈ (ts.foldl
      (fun acc t => (mset acc.1 t.id t, mset acc.2.1 t.id 0, mset acc.2.2 t.id []))
      acc).2.2, (Prod.snd p : List String) = [] ∨ p ∈ acc.2.2 := by
  induction ts generalizing acc with
  | nil => intro p hp; exact Or.inr hp
  | cons t ts ih =>
    intro p hp
    rcases ih _ p hp with h | h
    · exact Or.inl h
    · rcases mem_mset h with rfl | h
      · exact Or.inl rfl
      · exact Or.inr h

theorem buildMaps_out_mem {ts : List Task} {p : String × List String}
    (h : p ∈ (buildMaps ts).2.2) : (Prod.snd p : List String) = [] := by
  rcases buildMaps_out_mem_aux ts ([], [], []) p h with h' | h'
  · exact h'
  · simp at h'

theorem addEdges_inner_out_mem (tm : Assoc Task) (tid : String)
    (Pr : String → Prop) (ht : Pr tid) (ds : List String) :
    ∀ (acc : Assoc Int × Assoc (List String)),
      (∀ p ∈ acc.2, ∀ j ∈ p.2, Pr j) →
      ∀ p ∈ (ds.foldl
        (fun acc depId =>
          if mhas tm depId then
            (mset acc.1 tid ((mget acc.1 tid).getD 0 + 1),
             mset acc.2 depId ((mget acc.2 depId).getD [] ++ [tid]))
          else acc) acc).2, ∀ j ∈ p.2, Pr j := by
  induction ds with
  | nil => intro acc hacc p hp; exact hacc p hp
  | cons d ds ih =>
    intro acc hacc p hp
    simp only [List.foldl_cons] at hp
    by_cases hd : mhas tm d
    · rw [if_pos hd] at hp
      refine ih _ ?_ p hp
      intro p' hp' j hj
      rcases mem_mset hp' with rfl | hp'
      · rcases List.mem_append.mp hj with hj | hj
        · cases hm : mget acc.2 d with
          | none => rw [hm] at hj; simp at hj
          | some v =>
            rw [hm] at hj
            exact hacc _ (mget_mem hm) j hj
        · simp only [List.mem_singleton] at hj
          exact hj ▸ ht
      · exact hacc p' hp' j hj
    · rw [if_neg hd] at hp
      exact ih _ hacc p hp

theorem addEdges_out_mem (tm : Assoc Task) (Pr : String → Prop)
    (ts : List Task) (hts : ∀ t ∈ ts, Pr t.id) :
    ∀ (st : Assoc Int × Assoc (List String)),
      (∀ p ∈ st.2, ∀ j ∈ p.2, Pr j) →
      ∀ p ∈ (addEdges tm st ts).2, ∀ j ∈ p.2, Pr j := by
  induction ts with
  | nil => intro st hst p hp; exact hst p hp
  | cons t ts ih =>
    intro st hst p hp
    simp only [addEdges, List.foldl_cons] at hp
    refine ih (fun t0 ht0 => hts t0 (List.mem_cons_of_mem _ ht0)) _ ?_ p hp
    intro p' hp' j hj
    exact addEdges_inner_out_mem tm t.id Pr (hts t (by simp)) (depsOf t)
      st hst p' hp' j hj

/-- The weak bookkeeping invariant: every task-map binding holds a task whose
id is its key and is an input id, every queued id and every adjacency-list
entry is an input id, and every emitted task has an input id. -/
def WeakInv (ts : List Task) (s : LoopState) : Prop :=
  (∀ p ∈ s.taskMap, (Prod.snd p).id = p.1 ∧ p.1 ∈ taskIds ts) ∧
  (∀ i ∈ s.queue, i ∈ taskIds ts) ∧
  (∀ p ∈ s.out, ∀ j ∈ (Prod.snd p : List String), j ∈ taskIds ts) ∧
  (∀ t ∈ s.optimizedTasks, t.id ∈ taskIds ts)

theorem stepState_weakInv (P : Project) (U : List User) (ts : List Task)
    (s : LoopState) (h : WeakInv ts s) : WeakInv ts (stepState P U s) := by
  obtain ⟨h1, h2, h3, h4⟩ := h
  cases hq : s.queue with
  | nil =>
    have he : stepState P U s = s := by simp only [stepState, hq]
    rw [he]
    exact ⟨h1, h2, h3, h4⟩
  | cons i rest =>
    cases hm : mget s.taskMap i with
    | none =>
      have he : stepState P U s = s := by simp only [stepState, hq, hm]
      rw [he]
      exact ⟨h1, h2, h3, h4⟩
    | some t =>
      have hit : t.id = i ∧ i ∈ taskIds ts := h1 _ (mget_mem hm)
      have hstid : (step P U s.taskMap s.avail s.conflicts t).1.id = t.id := by
        rw [step_clone]
      simp only [WeakInv, stepState, hq, hm]
      refine ⟨?_, ?_, h3, ?_⟩
      · intro p hp
        rcases mem_mset hp with rfl | hp
        · exact ⟨by simp [hstid, hit.1], hit.2⟩
        · exact h1 p hp
      · intro j hj
        rcases release_queue_mem _ _ _ _ j hj with hr | hr
        · exact h2 j (by simp [hq, hr])
        · cases ho : mget s.out i with
          | none => rw [ho] at hr; simp at hr
          | some E =>
            rw [ho] at hr
            exact h3 _ (mget_mem ho) j hr
      · intro t2 ht2
        rcases List.mem_append.mp ht2 with ht2 | ht2
        · exact h4 t2 ht2
        · have : t2 = (step P U s.taskMap s.avail s.conflicts t).1 := by
            simpa using ht2
          rw [this, hstid, hit.1]
          exact hit.2

theorem processLoop_weakInv (P : Project) (U : List User) (ts : List Task)
    (fuel : Nat) (s : LoopState) (h : WeakInv ts s) :
    WeakInv ts (processLoop P U fuel s) := by
  induction fuel generalizing s with
  | zero => exact h
  | succ fuel ih =>
    simp only [processLoop]
    by_cases hq : s.queue.isEmpty
    · simp only [hq, if_pos]
      exact h
    · simp only [hq, if_neg, Bool.false_eq_true, not_false_eq_true]
      exact ih _ (stepState_weakInv P U ts s h)

theorem initState_weakInv (P : Project) (ts : List Task) (U : List User)
    (G : List Task) (today : Int) : WeakInv ts (initState P ts U G today) := by
  refine ⟨?_, ?_, ?_, ?_⟩
  · intro p hp
    obtain ⟨t, ht, rfl⟩ := buildMaps_pair_mem hp
    exact ⟨rfl, List.mem_map_of_mem _ ht⟩
  · intro i hi
    have hi' := mem_qsort.mp hi
    obtain ⟨t, ht, hcond⟩ := List.mem_filterMap.mp hi'
    have : t.id = i := by
      by_cases hc : (mget (addEdges (buildMaps ts).1
          ((buildMaps ts).2.1, (buildMaps ts).2.2) ts).1 t.id).getD 0 = 0
      · simpa [hc] using hcond
      · simp [hc] at hcond
    exact this ▸ List.mem_map_of_mem _ ht
  · intro p hp
    refine addEdges_out_mem (buildMaps ts).1 (fun j => j ∈ taskIds ts) ts
      (fun t ht => List.mem_map_of_mem _ ht) _ ?_ p hp
    intro p' hp' j hj
    rw [buildMaps_out_mem hp'] at hj
    simp at hj
  · intro t ht
    simp [initState] at ht

/-- C6: the engine is a total function (no exception for any input in the
day-number date model): every output id is an input id (tasks are never
invented, only possibly dropped), the empty task list yields empty results,
and on a concrete two-task cycle both cycle members are silently dropped
while the rest is scheduled — the shorter output is the only signal. -/
theorem failure_semantics :
    (∀ (P : Project) (ts : List Task) (U : List User) (G : List Task)
        (today : Int),
      ∀ t2 ∈ (scheduleProject P ts U G today).optimizedTasks,
        t2.id ∈ taskIds ts) ∧
    (∀ (P : Project) (U : List User) (G : List Task) (today : Int),
      (scheduleProject P [] U G today).optimizedTasks = [] ∧
      (scheduleProject P [] U G today).conflicts = [] ∧
      (scheduleProject P [] U G today).utilization = []) ∧
    ((scheduleProject ⟨"p", 0⟩
        [⟨"a", "p", "A", 7, 1, some ["b"], none, none, Priority.media⟩,
         ⟨"b", "p", "B", 7, 1, some ["a"], none, none, Priority.media⟩,
         ⟨"t1", "p", "T1", 99, 2, none, none, none, Priority.critica⟩]
        [⟨"ua", ["Electrician"], "dev"⟩] [] 0).optimizedTasks.map
          (fun t => t.id) = ["t1"] ∧
      (3 : Nat) ≠ 1) := by
  refine ⟨?_, ?_, by decide, by decide⟩
  · intro P ts U G today t2 ht2
    exact (processLoop_weakInv P U ts (2 * ts.length + 1)
      (initState P ts U G today) (initState_weakInv P ts U G today)).2.2.2 t2 ht2
  · intro P U G today
    exact ⟨rfl, rfl, rfl⟩

/-! ### Closed form of the queue sort (stability) -/

theorem qweight_le_four (tm : Assoc Task) (i : String) : qweight tm i ≤ 4 := by
  unfold qweight
  cases mget tm i with
  | none => norm_num
  | some t => cases ht : t.priority <;> simp [priorityWeight, ht]

theorem qweight_cases (tm : Assoc Task) (i : String) :
    qweight tm i = 4 ∨ qweight tm i = 3 ∨ qweight tm i = 2 ∨
      qweight tm i = 1 ∨ qweight tm i = 0 := by
  unfold qweight
  cases mget tm i with
  | none => simp
  | some t => cases ht : t.priority <;> simp [priorityWeight, ht]

theorem qinsert_ge (tm : Assoc Task) (x : String) (A B : List String)
    (h : ∀ y ∈ A, qweight tm x < qweight tm y) :
    qinsert tm x (A ++ B) = A ++ qinsert tm x B := by
  induction A with
  | nil => simp
  | cons y A ih =>
    simp only [List.cons_append, qinsert, if_pos (h y (by simp))]
    exact congrArg _ (ih (fun z hz => h z (List.mem_cons_of_mem _ hz)))

theorem qinsert_stop (tm : Assoc Task) (x : String) (B : List String)
    (h : ∀ y ∈ B, ¬ qweight tm x < qweight tm y) :
    qinsert tm x B = x :: B := by
  cases B with
  | nil => rfl
  | cons y ys => simp only [qinsert, if_neg (h y (by simp))]

theorem qinsert_blocks (tm : Assoc Task) (x : String) (A B : List String)
    (hA : ∀ y ∈ A, qweight tm x < qweight tm y)
    (hB : ∀ y ∈ B, ¬ qweight tm x < qweight tm y) :
    qinsert tm x (A ++ B) = A ++ x :: B := by
  rw [qinsert_ge tm x A B hA, qinsert_stop tm x B hB]

theorem weight_of_mem_filter {tm : Assoc Task} {l : List String} {k : Int}
    {y : String} (hy : y ∈ l.filter (fun i => decide (qweight tm i = k))) :
    qweight tm y = k :=
  of_decide_eq_true (List.mem_filter.mp hy).2

theorem weight_of_mem_filter_le {tm : Assoc Task} {l : List String}
    {y : String} (hy : y ∈ l.filter (fun i => decide (qweight tm i ≤ 0))) :
    qweight tm y ≤ 0 :=
  of_decide_eq_true (List.mem_filter.mp hy).2

theorem qsort_eq_qclasses (tm : Assoc Task) (l : List String) :
    qsort tm l = qclasses tm l := by
  induction l with
  | nil => rfl
  | cons x xs ih =>
    have hstep : qsort tm (x :: xs) = qinsert tm x (qclasses tm xs) := by
      rw [qsort, ih]
    have hge : ∀ k : Int, qweight tm x < k →
        ∀ y ∈ xs.filter (fun i => decide (qweight tm i = k)),
          qweight tm x < qweight tm y := by
      intro k hk y hy
      rw [weight_of_mem_filter hy]
      exact hk
    have hle : ∀ k : Int, k ≤ qweight tm x →
        ∀ y ∈ xs.filter (fun i => decide (qweight tm i = k)),
          ¬ qweight tm x < qweight tm y := by
      intro k hk y hy
      rw [weight_of_mem_filter hy]
      omega
    have hle0 : 0 ≤ qweight tm x →
        ∀ y ∈ xs.filter (fun i => decide (qweight tm i ≤ 0)),
          ¬ qweight tm x < qweight tm y := by
      intro hk y hy
      have := weight_of_mem_filter_le hy
      omega
    rcases qweight_cases tm x with hw | hw | hw | hw | hw
    · have hrest : ∀ y ∈ qclasses tm xs, ¬ qweight tm x < qweight tm y := by
        intro y hy
        have h4 := qweight_le_four tm y
        omega
      rw [hstep, qinsert_stop tm x _ hrest]
      simp [qclasses, List.filter_cons, hw]
    · rw [hstep, qclasses,
        qinsert_ge tm x _ _ (hge 4 (by omega)),
        qinsert_stop tm x _ ?hB]
      case hB =>
        intro y hy
        rcases List.mem_append.mp hy with h | hy
        · exact hle 3 (by omega) y h
        rcases List.mem_append.mp hy with h | hy
        · exact hle 2 (by omega) y h
        rcases List.mem_append.mp hy with h | h
        · exact hle 1 (by omega) y h
        · exact hle0 (by omega) y h
      simp [qclasses, List.filter_cons, hw]
    · rw [hstep, qclasses,
        qinsert_ge tm x _ _ (hge 4 (by omega)),
        qinsert_ge tm x _ _ (hge 3 (by omega)),
        qinsert_stop tm x _ ?hB]
      case hB =>
        intro y hy
        rcases List.mem_append.mp hy with h | hy
        · exact hle 2 (by omega) y h
        rcases List.mem_append.mp hy with h | h
        · exact hle 1 (by omega) y h
        · exact hle0 (by omega) y h
      simp [qclasses, List.filter_cons, hw]
    · rw [hstep, qclasses,
        qinsert_ge tm x _ _ (hge 4 (by omega)),
        qinsert_ge tm x _ _ (hge 3 (by omega)),
        qinsert_ge tm x _ _ (hge 2 (by omega)),
        qinsert_stop tm x _ ?hB]
      case hB =>
        intro y hy
        rcases List.mem_append.mp hy with h | h
        · exact hle 1 (by omega) y h
        · exact hle0 (by omega) y h
      simp [qclasses, List.filter_cons, hw]
    · rw [hstep, qclasses,
        qinsert_ge tm x _ _ (hge 4 (by omega)),
        qinsert_ge tm x _ _ (hge 3 (by omega)),
        qinsert_ge tm x _ _ (hge 2 (by omega)),
        qinsert_ge tm x _ _ (hge 1 (by omega)),
        qinsert_stop tm x _ (hle0 (by omega))]
      simp [qclasses, List.filter_cons, hw]

/-! ### Determinism and tie-breaking (C9) -/

/-- C9 counterexample: two invocations with identical four arguments but
different current dates (the source reads `new Date()` at line 64) return
different schedules, so the result does not depend on the four arguments
alone. -/
theorem clock_dependence_counterexample :
    (scheduleProject ⟨"p", 0⟩
      [⟨"t3", "p", "T3", 99, 1, none, some "ub", none, Priority.baja⟩]
      [⟨"ub", [], "dev"⟩] [] 0).optimizedTasks ≠
    (scheduleProject ⟨"p", 0⟩
      [⟨"t3", "p", "T3", 99, 1, none, some "ub", none, Priority.baja⟩]
      [⟨"ub", [], "dev"⟩] [] 5).optimizedTasks := by
  decide

theorem mget_mset_isSome {β : Type} (m : Assoc β) (k j : String) (v : β)
    (h : (mget m j).isSome) : (mget (mset m k v) j).isSome := by
  by_cases hj : j = k
  · subst hj
    rw [mget_mset_self]
    rfl
  · rw [mget_mset_ne _ _ _ _ hj]
    exact h

theorem buildMaps_fold_pres (ts : List Task)
    (acc : Assoc Task × Assoc Int × Assoc (List String)) (k : String)
    (h1 : (mget acc.1 k).isSome) (h2 : (mget acc.2.1 k).isSome) :
    (mget ((ts.foldl
      (fun acc t => (mset acc.1 t.id t, mset acc.2.1 t.id 0, mset acc.2.2 t.id []))
      acc)).1 k).isSome ∧
    (mget ((ts.foldl
      (fun acc t => (mset acc.1 t.id t, mset acc.2.1 t.id 0, mset acc.2.2 t.id []))
      acc)).2.1 k).isSome := by
  induction ts generalizing acc with
  | nil => exact ⟨h1, h2⟩
  | cons t ts ih =>
    exact ih _ (mget_mset_isSome _ _ _ _ h1) (mget_mset_isSome _ _ _ _ h2)

theorem buildMaps_lookup_isSome (ts : List Task) :
    ∀ t ∈ ts, (mget (buildMaps ts).1 t.id).isSome ∧
      (mget (buildMaps ts).2.1 t.id).isSome := by
  suffices h : ∀ acc : Assoc Task × Assoc Int × Assoc (List String), ∀ t ∈ ts,
      (mget ((ts.foldl
        (fun acc t => (mset acc.1 t.id t, mset acc.2.1 t.id 0, mset acc.2.2 t.id []))
        acc)).1 t.id).isSome ∧
      (mget ((ts.foldl
        (fun acc t => (mset acc.1 t.id t, mset acc.2.1 t.id 0, mset acc.2.2 t.id []))
        acc)).2.1 t.id).isSome by
    exact h ([], [], [])
  induction ts with
  | nil => intro acc t ht; simp at ht
  | cons t0 ts ih =>
    intro acc t ht
    rcases List.mem_cons.mp ht with rfl | ht
    · exact buildMaps_fold_pres ts _ t.id
        (by rw [mget_mset_self]; rfl)
        (by rw [mget_mset_self]; rfl)
    · exact ih _ t ht

theorem buildMaps_deg_values_aux (ts : List Task)
    (acc : Assoc Task × Assoc Int × Assoc (List String)) :
    ∀ p ∈ (ts.foldl
      (fun acc t => (mset acc.1 t.id t, mset acc.2.1 t.id 0, mset acc.2.2 t.id []))
      acc).2.1, (Prod.snd p : Int) = 0 ∨ p ∈ acc.2.1 := by
  induction ts generalizing acc with
  | nil => intro p hp; exact Or.inr hp
  | cons t ts ih =>
    intro p hp
    rcases ih _ p hp with h | h
    · exact Or.inl h
    · rcases mem_mset h with rfl | h
      · exact Or.inl rfl
      · exact Or.inr h

theorem buildMaps_deg_lookup (ts : List Task) :
    ∀ t ∈ ts, mget (buildMaps ts).2.1 t.id = some 0 := by
  intro t ht
  obtain ⟨-, h2⟩ := buildMaps_lookup_isSome ts t ht
  obtain ⟨v, hv⟩ := Option.isSome_iff_exists.mp h2
  have : (Prod.snd (t.id, v) : Int) = 0 := by
    rcases buildMaps_deg_values_aux ts ([], [], []) _ (mget_mem hv) with h | h
    · exact h
    · simp at h
  simp only [Prod.snd] at this
  rw [hv, this]

theorem addEdges_no_deps (tm : Assoc Task)
    (st : Assoc Int × Assoc (List String)) (ts : List Task)
    (h : ∀ t ∈ ts, depsOf t = []) : addEdges tm st ts = st := by
  induction ts generalizing st with
  | nil => rfl
  | cons t ts ih =>
    have hstep : (depsOf t).foldl
        (fun acc depId =>
          if mhas tm depId then
            (mset acc.1 t.id ((mget acc.1 t.id).getD 0 + 1),
             mset acc.2 depId ((mget acc.2 depId).getD [] ++ [t.id]))
          else acc) st = st := by
      rw [h t (by simp)]
      rfl
    simp only [addEdges, List.foldl_cons]
    rw [hstep]
    exact ih st (fun t0 ht0 => h t0 (List.mem_cons_of_mem _ ht0))

theorem filterMap_queue_all (de1 : Assoc Int) (l : List Task)
    (h : ∀ t ∈ l, (mget de1 t.id).getD 0 = 0) :
    l.filterMap
      (fun t => if (mget de1 t.id).getD 0 = 0 then some t.id else none) =
      taskIds l := by
  induction l with
  | nil => rfl
  | cons t l ih =>
    rw [List.filterMap_cons]
    rw [if_pos (h t (by simp))]
    rw [ih (fun t0 ht0 => h t0 (List.mem_cons_of_mem _ ht0))]
    rfl

theorem processLoop_ids_no_edges (P : Project) (U : List User) (fuel : Nat) :
    ∀ s : LoopState,
      (∀ p ∈ s.taskMap, (Prod.snd p).id = p.1) →
      (∀ i ∈ s.queue, (mget s.taskMap i).isSome) →
      (∀ i : String, (mget s.out i).getD [] = []) →
      s.queue.length ≤ fuel →
      taskIds (processLoop P U fuel s).optimizedTasks =
        taskIds s.optimizedTasks ++ s.queue := by
  induction fuel with
  | zero =>
    intro s h1 h2 h3 hf
    have hq : s.queue = [] := List.eq_nil_of_length_eq_zero (Nat.le_zero.mp hf)
    simp [processLoop, hq]
  | succ fuel ih =>
    intro s h1 h2 h3 hf
    by_cases hq : s.queue.isEmpty
    · have hqe : s.queue = [] := List.isEmpty_iff.mp hq
      simp [processLoop, hq, hqe]
    · have hqe : s.queue ≠ [] := fun h => hq (by simp [h])
      obtain ⟨i, rest, hqeq⟩ := List.exists_cons_of_ne_nil hqe
      obtain ⟨t, ht⟩ := Option.isSome_iff_exists.mp (h2 i (by simp [hqeq]))
      have htid : t.id = i := h1 _ (mget_mem ht)
      have hstate : stepState P U s =
          { taskMap := mset s.taskMap i (step P U s.taskMap s.avail s.conflicts t).1
            deg := s.deg
            out := s.out
            avail := (step P U s.taskMap s.avail s.conflicts t).2.1
            queue := rest
            optimizedTasks :=
              s.optimizedTasks ++ [(step P U s.taskMap s.avail s.conflicts t).1]
            conflicts := (step P U s.taskMap s.avail s.conflicts t).2.2 } := by
        simp only [stepState, hqeq, ht, h3 i, release]
      have hstepid : (step P U s.taskMap s.avail s.conflicts t).1.id = i := by
        rw [step_clone]
        exact htid
      simp only [processLoop, hq, if_neg, Bool.false_eq_true, not_false_eq_true]
      rw [hstate]
      rw [ih _ ?h1 ?h2 ?h3 ?hf]
      case h1 =>
        intro p hp
        rcases mem_mset hp with rfl | hp
        · exact hstepid
        · exact h1 p hp
      case h2 =>
        intro j hj
        by_cases hji : j = i
        · subst hji
          rw [mget_mset_self]
          rfl
        · rw [mget_mset_ne _ _ _ _ hji]
          exact h2 j (by simp [hqeq, hj])
      case h3 => exact h3
      case hf =>
        have hlen : s.queue.length = rest.length + 1 := by simp [hqeq]
        show rest.length ≤ fuel
        omega
      simp [taskIds, hstepid, hqeq]

/-- C9 amended: the schedule is a pure function of the four arguments plus
the current date read at invocation (which seeds every known user's
availability); the ready-queue sort is stable (closed form: priority blocks
in arrival order), and for dependency-free inputs the processing order is
exactly the stable descending priority sort of the input order. -/
theorem determinism_and_stable_tiebreak :
    (∀ (P : Project) (ts : List Task) (U : List User) (G : List Task)
        (d : Int), scheduleProject P ts U G d = scheduleProject P ts U G d) ∧
    (∀ (tm : Assoc Task) (l : List String), qsort tm l = qclasses tm l) ∧
    (∀ (P : Project) (ts : List Task) (U : List User) (G : List Task)
        (d : Int), (∀ t ∈ ts, depsOf t = []) →
      taskIds (scheduleProject P ts U G d).optimizedTasks =
        qsort (buildMaps ts).1 (taskIds ts)) := by
  refine ⟨fun P ts U G d => rfl, qsort_eq_qclasses, ?_⟩
  intro P ts U G d hnd
  have hde : addEdges (buildMaps ts).1 ((buildMaps ts).2.1, (buildMaps ts).2.2) ts
      = ((buildMaps ts).2.1, (buildMaps ts).2.2) := addEdges_no_deps _ _ _ hnd
  have hq0 : ts.filterMap (fun t =>
      if (mget (addEdges (buildMaps ts).1
          ((buildMaps ts).2.1, (buildMaps ts).2.2) ts).1 t.id).getD 0 = 0
      then some t.id else none) = taskIds ts := by
    rw [hde]
    exact filterMap_queue_all _ _
      (fun t ht => by rw [buildMaps_deg_lookup ts t ht]; rfl)
  rw [scheduleProject_optimizedTasks]
  rw [processLoop_ids_no_edges P U _ (initState P ts U G d) ?h1 ?h2 ?h3 ?hf]
  case h1 =>
    intro p hp
    obtain ⟨t, ht, rfl⟩ := buildMaps_pair_mem hp
    rfl
  case h2 =>
    intro i hi
    have hi2 : i ∈ ts.filterMap (fun t =>
        if (mget (addEdges (buildMaps ts).1
            ((buildMaps ts).2.1, (buildMaps ts).2.2) ts).1 t.id).getD 0 = 0
        then some t.id else none) := mem_qsort.mp hi
    obtain ⟨t, ht, hcond⟩ := List.mem_filterMap.mp hi2
    have htid : t.id = i := by
      by_cases hc : (mget (addEdges (buildMaps ts).1
          ((buildMaps ts).2.1, (buildMaps ts).2.2) ts).1 t.id).getD 0 = 0
      · simpa [hc] using hcond
      · simp [hc] at hcond
    show (mget (buildMaps ts).1 i).isSome
    rw [← htid]
    exact (buildMaps_lookup_isSome ts t ht).1
  case h3 =>
    intro i
    show (mget (addEdges (buildMaps ts).1
        ((buildMaps ts).2.1, (buildMaps ts).2.2) ts).2 i).getD [] = []
    rw [hde]
    cases hm : mget (buildMaps ts).2.2 i with
    | none => rfl
    | some v =>
      have := buildMaps_out_mem (mget_mem hm)
      simp at this
      simp [this]
  case hf =>
    show (qsort (buildMaps ts).1 (ts.filterMap (fun t =>
        if (mget (addEdges (buildMaps ts).1
            ((buildMaps ts).2.1, (buildMaps ts).2.2) ts).1 t.id).getD 0 = 0
        then some t.id else none))).length ≤ 2 * ts.length + 1
    rw [(qsort_perm _ _).length_eq, hq0]
    simp [taskIds]
    omega
  show taskIds ([] : List Task) ++ qsort (buildMaps ts).1 (ts.filterMap (fun t =>
      if (mget (addEdges (buildMaps ts).1
          ((buildMaps ts).2.1, (buildMaps ts).2.2) ts).1 t.id).getD 0 = 0
      then some t.id else none)) = qsort (buildMaps ts).1 (taskIds ts)
  rw [hq0]
  rfl

/-- Witness for the amended C9 on a dependency-free input. -/
theorem determinism_and_stable_tiebreak_witness :
    (∀ t ∈ [(⟨"x", "p", "X", 0, 1, none, none, none, Priority.media⟩ : Task),
            (⟨"y", "p", "Y", 0, 1, none, none, none, Priority.critica⟩ : Task),
            (⟨"z", "p", "Z", 0, 1, none, none, none, Priority.media⟩ : Task)],
        depsOf t = []) ∧
    taskIds (scheduleProject ⟨"p", 0⟩
        [⟨"x", "p", "X", 0, 1, none, none, none, Priority.media⟩,
         ⟨"y", "p", "Y", 0, 1, none, none, none, Priority.critica⟩,
         ⟨"z", "p", "Z", 0, 1, none, none, none, Priority.media⟩]
        [] [] 0).optimizedTasks =
      qsort (buildMaps
        [⟨"x", "p", "X", 0, 1, none, none, none, Priority.media⟩,
         ⟨"y", "p", "Y", 0, 1, none, none, none, Priority.critica⟩,
         ⟨"z", "p", "Z", 0, 1, none, none, none, Priority.media⟩]).1
        (taskIds
          [⟨"x", "p", "X", 0, 1, none, none, none, Priority.media⟩,
           ⟨"y", "p", "Y", 0, 1, none, none, none, Priority.critica⟩,
           ⟨"z", "p", "Z", 0, 1, none, none, none, Priority.media⟩]) :=
  ⟨by decide,
   determinism_and_stable_tiebreak.2.2 ⟨"p", 0⟩
     [⟨"x", "p", "X", 0, 1, none, none, none, Priority.media⟩,
      ⟨"y", "p", "Y", 0, 1, none, none, none, Priority.critica⟩,
      ⟨"z", "p", "Z", 0, 1, none, none, none, Priority.media⟩]
     [] [] 0 (by decide)⟩

/-! ### Frame property (C7): the heap model never writes caller objects -/

theorem get?_append_left {α : Type} (l1 l2 : List α) :
    ∀ n : Nat, n < l1.length → (l1 ++ l2).get? n = l1.get? n := by
  induction l1 with
  | nil => intro n h; simp at h
  | cons x l1 ih =>
    intro n h
    cases n with
    | zero => rfl
    | succ n => exact ih n (by simpa using h)

theorem get?_set_of_ne {α : Type} (l : List α) (v : α) :
    ∀ m n : Nat, m ≠ n → (l.set m v).get? n = l.get? n := by
  induction l with
  | nil => intro m n h; rfl
  | cons x l ih =>
    intro m n hmn
    cases m with
    | zero =>
      cases n with
      | zero => exact absurd rfl hmn
      | succ n => rfl
    | succ m =>
      cases n with
      | zero => rfl
      | succ n => exact ih m n (fun h => hmn (by rw [h]))

theorem buildMapsH_fold_inv (n0 : Nat) (inAddrs : List Nat) :
    ∀ acc : List Task × Assoc Nat × Assoc Int × Assoc (List String),
      n0 ≤ acc.1.length →
      (∀ p ∈ acc.2.1, n0 ≤ (Prod.snd p : Nat) ∧ (Prod.snd p : Nat) < acc.1.length) →
      (n0 ≤ (inAddrs.foldl
        (fun acc a =>
          let t := acc.1.getD a dummyTask
          (acc.1 ++ [t], mset acc.2.1 t.id acc.1.length,
           mset acc.2.2.1 t.id 0, mset acc.2.2.2 t.id [])) acc).1.length ∧
      (∀ a : Nat, a < n0 → (inAddrs.foldl
        (fun acc a =>
          let t := acc.1.getD a dummyTask
          (acc.1 ++ [t], mset acc.2.1 t.id acc.1.length,
           mset acc.2.2.1 t.id 0, mset acc.2.2.2 t.id [])) acc).1.get? a =
          acc.1.get? a) ∧
      (∀ p ∈ (inAddrs.foldl
        (fun acc a =>
          let t := acc.1.getD a dummyTask
          (acc.1 ++ [t], mset acc.2.1 t.id acc.1.length,
           mset acc.2.2.1 t.id 0, mset acc.2.2.2 t.id [])) acc).2.1,
        n0 ≤ (Prod.snd p : Nat) ∧ (Prod.snd p : Nat) < (inAddrs.foldl
        (fun acc a =>
          let t := acc.1.getD a dummyTask
          (acc.1 ++ [t], mset acc.2.1 t.id acc.1.length,
           mset acc.2.2.1 t.id 0, mset acc.2.2.2 t.id [])) acc).1.length)) := by
  induction inAddrs with
  | nil => intro acc h1 h2; exact ⟨h1, fun a ha => rfl, h2⟩
  | cons a0 rest ih =>
    intro acc h1 h2
    simp only [List.foldl_cons]
    have hlen : acc.1.length ≤ (acc.1 ++ [acc.1.getD a0 dummyTask]).length := by
      simp
    have hmaps : ∀ p ∈ mset acc.2.1 (acc.1.getD a0 dummyTask).id acc.1.length,
        n0 ≤ (Prod.snd p : Nat) ∧
          (Prod.snd p : Nat) < (acc.1 ++ [acc.1.getD a0 dummyTask]).length := by
      intro p hp
      rcases mem_mset hp with rfl | hp
      · exact ⟨h1, by simp⟩
      · obtain ⟨hp1, hp2⟩ := h2 p hp
        exact ⟨hp1, lt_of_lt_of_le hp2 hlen⟩
    obtain ⟨g1, g2, g3⟩ := ih
      (acc.1 ++ [acc.1.getD a0 dummyTask],
       mset acc.2.1 (acc.1.getD a0 dummyTask).id acc.1.length,
       mset acc.2.2.1 (acc.1.getD a0 dummyTask).id 0,
       mset acc.2.2.2 (acc.1.getD a0 dummyTask).id [])
      (le_trans h1 hlen) hmaps
    refine ⟨g1, ?_, g3⟩
    intro a ha
    rw [g2 a ha]
    exact get?_append_left _ _ a (lt_of_lt_of_le ha h1)

theorem stepStateH_heapInv (P : Project) (U : List User) (n0 : Nat)
    (h0 : List Task) (s : HeapState) (h : HeapInv n0 h0 s) :
    HeapInv n0 h0 (stepStateH P U s) := by
  obtain ⟨h1, h2, h3, h4⟩ := h
  cases hq : s.queue with
  | nil =>
    have he : stepStateH P U s = s := by simp only [stepStateH, hq]
    rw [he]
    exact ⟨h1, h2, h3, h4⟩
  | cons i rest =>
    cases hm : mget s.tma i with
    | none =>
      have he : stepStateH P U s = s := by simp only [stepStateH, hq, hm]
      rw [he]
      exact ⟨h1, h2, h3, h4⟩
    | some addr =>
      obtain ⟨haddr0, haddrlt⟩ := h2 _ (mget_mem hm)
      simp only [stepStateH, hq, hm]
      refine ⟨?_, ?_, ?_, ?_⟩
      · intro a ha
        rw [← h1 a ha]
        exact get?_set_of_ne _ _ addr a (by omega)
      · intro p hp
        obtain ⟨hp1, hp2⟩ := h2 p hp
        refine ⟨hp1, ?_⟩
        rw [List.length_set]
        exact hp2
      · intro a ha
        rcases List.mem_append.mp ha with ha | ha
        · exact h3 a ha
        · simp only [List.mem_singleton] at ha
          exact ha ▸ haddr0
      · rw [List.length_set]
        exact h4

theorem processLoopH_heapInv (P : Project) (U : List User) (n0 : Nat)
    (h0 : List Task) (fuel : Nat) (s : HeapState) (h : HeapInv n0 h0 s) :
    HeapInv n0 h0 (processLoopH P U fuel s) := by
  induction fuel generalizing s with
  | zero => exact h
  | succ fuel ih =>
    simp only [processLoopH]
    by_cases hq : s.queue.isEmpty
    · simp only [hq, if_pos]
      exact h
    · simp only [hq, if_neg, Bool.false_eq_true, not_false_eq_true]
      exact ih _ (stepStateH_heapInv P U n0 h0 s h)

/-- C7: running the heap-level engine on a heap whose every address the
caller owns leaves every caller-owned object byte-for-byte unchanged, and
every address the engine emits in `optimizedTasks` is a fresh clone
(allocated past the caller's heap), never an alias of a caller object.  All
`startDate`/`assignedTo` writes therefore land on the clones only. -/
theorem no_caller_mutation (P : Project) (h0 : List Task)
    (inAddrs : List Nat) (U : List User) (G : List Task) (today : Int) :
    (∀ a : Nat, a < h0.length →
      (scheduleProjectH P h0 inAddrs U G today).heap.get? a = h0.get? a) ∧
    (∀ a ∈ (scheduleProjectH P h0 inAddrs U G today).outAddrs,
      h0.length ≤ a) := by
  have hfold := buildMapsH_fold_inv h0.length inAddrs (h0, [], [], [])
    (le_refl _) (by intro p hp; simp at hp)
  obtain ⟨g1, g2, g3⟩ := hfold
  have hloop := processLoopH_heapInv P U h0.length h0
    (2 * inAddrs.length + 1)
    { heap := (buildMapsH h0 inAddrs).1
      tma := (buildMapsH h0 inAddrs).2.1
      deg := (addEdges (derefMap (buildMapsH h0 inAddrs).1 (buildMapsH h0 inAddrs).2.1)
        ((buildMapsH h0 inAddrs).2.2.1, (buildMapsH h0 inAddrs).2.2.2)
        (inAddrs.map (fun a => h0.getD a dummyTask))).1
      out := (addEdges (derefMap (buildMapsH h0 inAddrs).1 (buildMapsH h0 inAddrs).2.1)
        ((buildMapsH h0 inAddrs).2.2.1, (buildMapsH h0 inAddrs).2.2.2)
        (inAddrs.map (fun a => h0.getD a dummyTask))).2
      avail := prefillAvailability P G (seedAvailability today U)
      queue := qsort (derefMap (buildMapsH h0 inAddrs).1 (buildMapsH h0 inAddrs).2.1)
        ((inAddrs.map (fun a => h0.getD a dummyTask)).filterMap
          (fun t => if (mget (addEdges
              (derefMap (buildMapsH h0 inAddrs).1 (buildMapsH h0 inAddrs).2.1)
              ((buildMapsH h0 inAddrs).2.2.1, (buildMapsH h0 inAddrs).2.2.2)
              (inAddrs.map (fun a => h0.getD a dummyTask))).1 t.id).getD 0 = 0
            then some t.id else none))
      outAddrs := []
      conflicts := [] } ⟨?_, ?_, ?_, ?_⟩
  · exact ⟨fun a ha => hloop.1 a ha, fun a ha => hloop.2.2.1 a ha⟩
  · intro a ha
    exact g2 a ha
  · intro p hp
    exact g3 p hp
  · intro a ha
    simp at ha
  · exact g1

/-! ### Graph bookkeeping: supporting lemmas -/

theorem nodup_id_inj {ts : List Task} (h : (taskIds ts).Nodup) {a b : Task}
    (ha : a ∈ ts) (hb : b ∈ ts) (hid : a.id = b.id) : a = b :=
  List.inj_on_of_nodup_map h ha hb hid

theorem buildMaps_isSome_iff {ts : List Task} {i : String} :
    (mget (buildMaps ts).1 i).isSome ↔ i ∈ taskIds ts := by
  constructor
  · intro h
    obtain ⟨t0, ht0⟩ := Option.isSome_iff_exists.mp h
    obtain ⟨t, ht, heq⟩ := buildMaps_pair_mem (mget_mem ht0)
    have h2 : i = t.id := congrArg Prod.fst heq
    rw [h2]
    exact List.mem_map_of_mem _ ht
  · intro h
    obtain ⟨t, ht, rfl⟩ := List.mem_map.mp h
    exact (buildMaps_lookup_isSome ts t ht).1

theorem buildMaps_tm_lookup {ts : List Task} (hnodup : (taskIds ts).Nodup) :
    ∀ t ∈ ts, mget (buildMaps ts).1 t.id = some t := by
  intro t ht
  obtain ⟨t0, ht0⟩ := Option.isSome_iff_exists.mp
    (buildMaps_lookup_isSome ts t ht).1
  obtain ⟨t1, ht1, heq⟩ := buildMaps_pair_mem (mget_mem ht0)
  have hid : t.id = t1.id := congrArg Prod.fst heq
  have hval : t0 = t1 := congrArg Prod.snd heq
  rw [ht0, hval, nodup_id_inj hnodup ht1 ht hid.symm]

theorem buildMaps_fold_pres_out (ts : List Task)
    (acc : Assoc Task × Assoc Int × Assoc (List String)) (k : String)
    (h : (mget acc.2.2 k).isSome) :
    (mget ((ts.foldl
      (fun acc t => (mset acc.1 t.id t, mset acc.2.1 t.id 0, mset acc.2.2 t.id []))
      acc)).2.2 k).isSome := by
  induction ts generalizing acc with
  | nil => exact h
  | cons t ts ih => exact ih _ (mget_mset_isSome _ _ _ _ h)

theorem buildMaps_out_lookup (ts : List Task) :
    ∀ t ∈ ts, mget (buildMaps ts).2.2 t.id = some [] := by
  have hsome : ∀ t ∈ ts, (mget (buildMaps ts).2.2 t.id).isSome := by
    suffices h : ∀ acc : Assoc Task × Assoc Int × Assoc (List String), ∀ t ∈ ts,
        (mget ((ts.foldl
          (fun acc t => (mset acc.1 t.id t, mset acc.2.1 t.id 0, mset acc.2.2 t.id []))
          acc)).2.2 t.id).isSome by
      exact h ([], [], [])
    induction ts with
    | nil => intro acc t ht; simp at ht
    | cons t0 ts ih =>
      intro acc t ht
      rcases List.mem_cons.mp ht with rfl | ht
      · exact buildMaps_fold_pres_out ts _ t.id (by rw [mget_mset_self]; rfl)
      · exact ih _ t ht
  intro t ht
  obtain ⟨v, hv⟩ := Option.isSome_iff_exists.mp (hsome t ht)
  have := buildMaps_out_mem (mget_mem hv)
  simp only [Prod.snd] at this
  rw [hv, this]

theorem length_filter_impl {l : List String} {p q : String → Bool}
    (h : ∀ a, p a = true → q a = true) :
    (l.filter p).length ≤ (l.filter q).length := by
  induction l with
  | nil => exact le_refl _
  | cons a l ih =>
    by_cases hp : p a = true
    · rw [List.filter_cons_of_pos hp, List.filter_cons_of_pos (h a hp)]
      simpa using ih
    · rw [List.filter_cons_of_neg (by simpa using hp)]
      by_cases hq : q a = true
      · rw [List.filter_cons_of_pos hq]
        exact le_trans ih (by simp)
      · rw [List.filter_cons_of_neg (by simpa using hq)]
        exact ih

theorem presentUnmet_mono {ts : List Task} {dids dids2 : List String}
    (hsub : ∀ i, i ∈ dids → i ∈ dids2) (t : Task) :
    presentUnmet ts dids2 t ≤ presentUnmet ts dids t := by
  refine length_filter_impl ?_
  intro a ha
  simp only [Bool.and_eq_true, decide_eq_true_eq] at ha ⊢
  exact ⟨ha.1, fun hmem => ha.2 (hsub a hmem)⟩

theorem filter_length_flip (i : String) (pOld pNew : String → Bool)
    (hOld : pOld i = true) (hNew : pNew i = false)
    (hpoint : ∀ d, d ≠ i → pNew d = pOld d) :
    ∀ ds : List String, ds.Nodup →
      ((i ∈ ds → (ds.filter pOld).length = (ds.filter pNew).length + 1) ∧
       (i ∉ ds → (ds.filter pNew).length = (ds.filter pOld).length)) := by
  intro ds
  induction ds with
  | nil => intro hnd; simp
  | cons d ds ih =>
    intro hnd
    have hdnotin : d ∉ ds := (List.nodup_cons.mp hnd).1
    obtain ⟨ih1, ih2⟩ := ih (List.nodup_cons.mp hnd).2
    by_cases hd : d = i
    · subst hd
      refine ⟨?_, fun hmem => absurd (by simp) hmem⟩
      intro hmem
      have hnn : ¬ pNew d = true := by rw [hNew]; simp
      rw [List.filter_cons_of_pos hOld,
        List.filter_cons_of_neg hnn, ih2 hdnotin]
      simp
    · have hpd : pNew d = pOld d := hpoint d hd
      constructor
      · intro hmem
        have hmem2 : i ∈ ds := by
          rcases List.mem_cons.mp hmem with h | h
          · exact absurd h.symm hd
          · exact h
        cases hpo : pOld d with
        | true =>
          rw [List.filter_cons_of_pos hpo,
            List.filter_cons_of_pos (hpd.trans hpo)]
          simp only [List.length_cons]
          rw [ih1 hmem2]
        | false =>
          have hpn : pNew d = false := hpd.trans hpo
          have hno : ¬ pOld d = true := by rw [hpo]; simp
          have hnn : ¬ pNew d = true := by rw [hpn]; simp
          rw [List.filter_cons_of_neg hno, List.filter_cons_of_neg hnn]
          exact ih1 hmem2
      · intro hmem
        have hmem2 : i ∉ ds := fun h => hmem (List.mem_cons_of_mem _ h)
        cases hpo : pOld d with
        | true =>
          rw [List.filter_cons_of_pos hpo,
            List.filter_cons_of_pos (hpd.trans hpo)]
          simp only [List.length_cons]
          rw [ih2 hmem2]
        | false =>
          have hpn : pNew d = false := hpd.trans hpo
          have hno : ¬ pOld d = true := by rw [hpo]; simp
          have hnn : ¬ pNew d = true := by rw [hpn]; simp
          rw [List.filter_cons_of_neg hno, List.filter_cons_of_neg hnn]
          exact ih2 hmem2

theorem presentUnmet_insert {ts : List Task} {dids : List String} {t2 : Task}
    {i : String} (hnd : (depsOf t2).Nodup) (hi : i ∈ taskIds ts)
    (hni : i ∉ dids) :
    (i ∈ depsOf t2 →
      presentUnmet ts dids t2 = presentUnmet ts (dids ++ [i]) t2 + 1) ∧
    (i ∉ depsOf t2 →
      presentUnmet ts (dids ++ [i]) t2 = presentUnmet ts dids t2) :=
  filter_length_flip i
    (fun d => decide (d ∈ taskIds ts) && decide (d ∉ dids))
    (fun d => decide (d ∈ taskIds ts) && decide (d ∉ dids ++ [i]))
    (by simp [hi, hni]) (by simp)
    (by
      intro d hd
      have hiff : (d ∉ dids ++ [i]) ↔ (d ∉ dids) := by simp [hd]
      show (decide (d ∈ taskIds ts) && decide (d ∉ dids ++ [i])) =
        (decide (d ∈ taskIds ts) && decide (d ∉ dids))
      rw [decide_eq_decide.mpr hiff])
    (depsOf t2) hnd

theorem succList_nodup {ts : List Task} (hnodup : (taskIds ts).Nodup)
    (i : String) : (succList ts i).Nodup := by
  have hsub : List.Sublist (succList ts i) (taskIds ts) := by
    simp only [succList, taskIds]
    exact (List.filter_sublist ts).map (fun t => t.id)
  exact hnodup.sublist hsub

theorem mem_succList_elim {ts : List Task} {i j : String}
    (h : j ∈ succList ts i) :
    ∃ t3 ∈ ts, t3.id = j ∧ i ∈ depsOf t3 := by
  obtain ⟨t3, ht3, rfl⟩ := List.mem_map.mp h
  obtain ⟨hmem, hdep⟩ := List.mem_filter.mp ht3
  exact ⟨t3, hmem, rfl, of_decide_eq_true hdep⟩

theorem mem_succList_iff {ts : List Task} (hnodup : (taskIds ts).Nodup)
    {i : String} {t2 : Task} (ht2 : t2 ∈ ts) :
    t2.id ∈ succList ts i ↔ i ∈ depsOf t2 := by
  constructor
  · intro h
    obtain ⟨t3, ht3, hid, hdep⟩ := mem_succList_elim h
    rw [← nodup_id_inj hnodup ht3 ht2 hid]
    exact hdep
  · intro h
    exact List.mem_map_of_mem _ (List.mem_filter.mpr ⟨ht2, by simp [h]⟩)

theorem filterMap_queue_eq (m : Assoc Int) (l : List Task) :
    l.filterMap
      (fun t => if (mget m t.id).getD 0 = 0 then some t.id else none) =
      taskIds (l.filter (fun t => decide ((mget m t.id).getD 0 = 0))) := by
  induction l with
  | nil => rfl
  | cons t l ih =>
    rw [List.filterMap_cons]
    by_cases hc : (mget m t.id).getD 0 = 0
    · rw [if_pos hc, List.filter_cons_of_pos (by simp [hc])]
      rw [ih]
      rfl
    · rw [if_neg hc, List.filter_cons_of_neg (by simp [hc])]
      exact ih

/-! ### Exact effect of `addEdges` -/

theorem addEdges_inner_effect (tm : Assoc Task) (tid : String)
    (ds : List String) (hnd : ds.Nodup) :
    ∀ acc : Assoc Int × Assoc (List String),
      (∀ v : Int, mget acc.1 tid = some v →
        mget (ds.foldl
          (fun acc depId =>
            if mhas tm depId then
              (mset acc.1 tid ((mget acc.1 tid).getD 0 + 1),
               mset acc.2 depId ((mget acc.2 depId).getD [] ++ [tid]))
            else acc) acc).1 tid =
          some (v + ((ds.filter (fun d => mhas tm d)).length : Int))) ∧
      (∀ k : String, k ≠ tid →
        mget (ds.foldl
          (fun acc depId =>
            if mhas tm depId then
              (mset acc.1 tid ((mget acc.1 tid).getD 0 + 1),
               mset acc.2 depId ((mget acc.2 depId).getD [] ++ [tid]))
            else acc) acc).1 k = mget acc.1 k) ∧
      (∀ k : String, mhas tm k → k ∈ ds →
        mget (ds.foldl
          (fun acc depId =>
            if mhas tm depId then
              (mset acc.1 tid ((mget acc.1 tid).getD 0 + 1),
               mset acc.2 depId ((mget acc.2 depId).getD [] ++ [tid]))
            else acc) acc).2 k =
          some ((mget acc.2 k).getD [] ++ [tid])) ∧
      (∀ k : String, ¬(mhas tm k = true ∧ k ∈ ds) →
        mget (ds.foldl
          (fun acc depId =>
            if mhas tm depId then
              (mset acc.1 tid ((mget acc.1 tid).getD 0 + 1),
               mset acc.2 depId ((mget acc.2 depId).getD [] ++ [tid]))
            else acc) acc).2 k = mget acc.2 k) := by
  induction ds with
  | nil =>
    intro acc
    refine ⟨?_, fun k hk => rfl, ?_, fun k hk => rfl⟩
    · intro v hv
      simpa using hv
    · intro k hk hmem
      simp at hmem
  | cons d ds ih =>
    intro acc
    have hdnotin : d ∉ ds := (List.nodup_cons.mp hnd).1
    obtain ⟨ih1, ih2, ih3, ih4⟩ := ih (List.nodup_cons.mp hnd).2
      (if mhas tm d then
        (mset acc.1 tid ((mget acc.1 tid).getD 0 + 1),
         mset acc.2 d ((mget acc.2 d).getD [] ++ [tid]))
      else acc)
    by_cases hd : mhas tm d = true
    · refine ⟨?_, ?_, ?_, ?_⟩
      · intro v hv
        simp only [List.foldl_cons, if_pos hd]
        have hstep : mget (mset acc.1 tid ((mget acc.1 tid).getD 0 + 1)) tid =
            some (v + 1) := by
          rw [hv]
          simpa using mget_mset_self acc.1 tid (v + 1)
        have := ih1 (v + 1) (by simpa [if_pos hd] using hstep)
        rw [List.filter_cons_of_pos hd]
        simp only [if_pos hd] at this
        rw [this]
        congr 1
        simp only [List.length_cons]
        push_cast
        ring
      · intro k hk
        simp only [List.foldl_cons, if_pos hd]
        have := ih2 k hk
        simp only [if_pos hd] at this
        rw [this]
        exact mget_mset_ne _ _ _ _ hk
      · intro k hkhas hkmem
        simp only [List.foldl_cons, if_pos hd]
        rcases List.mem_cons.mp hkmem with rfl | hkmem2
        · have hknotin : ¬(mhas tm k = true ∧ k ∈ ds) :=
            fun hc => hdnotin hc.2
          have := ih4 k hknotin
          simp only [if_pos hd] at this
          rw [this]
          simpa using mget_mset_self acc.2 k ((mget acc.2 k).getD [] ++ [tid])
        · have := ih3 k hkhas hkmem2
          simp only [if_pos hd] at this
          rw [this]
          by_cases hkd : k = d
          · subst hkd
            exact absurd hkmem2 hdnotin
          · rw [mget_mset_ne _ _ _ _ hkd]
      · intro k hknot
        simp only [List.foldl_cons, if_pos hd]
        have hknotin : ¬(mhas tm k = true ∧ k ∈ ds) := by
          intro hc
          exact hknot ⟨hc.1, List.mem_cons_of_mem _ hc.2⟩
        have := ih4 k hknotin
        simp only [if_pos hd] at this
        rw [this]
        have hkd : k ≠ d := by
          intro hkd
          subst hkd
          exact hknot ⟨hd, by simp⟩
        exact mget_mset_ne _ _ _ _ hkd
    · have hdfalse : mhas tm d = false := by
        simpa using hd
      refine ⟨?_, ?_, ?_, ?_⟩
      · intro v hv
        simp only [List.foldl_cons, if_neg hd]
        have := ih1 v (by simpa [if_neg hd] using hv)
        simp only [if_neg hd] at this
        rw [this, List.filter_cons_of_neg (by simp [hdfalse])]
      · intro k hk
        simp only [List.foldl_cons, if_neg hd]
        have := ih2 k hk
        simpa only [if_neg hd] using this
      · intro k hkhas hkmem
        simp only [List.foldl_cons, if_neg hd]
        rcases List.mem_cons.mp hkmem with rfl | hkmem2
        · exact absurd hkhas (by simp [hdfalse])
        · have := ih3 k hkhas hkmem2
          simpa only [if_neg hd] using this
      · intro k hknot
        simp only [List.foldl_cons, if_neg hd]
        have hknotin : ¬(mhas tm k = true ∧ k ∈ ds) := by
          intro hc
          exact hknot ⟨hc.1, List.mem_cons_of_mem _ hc.2⟩
        have := ih4 k hknotin
        simpa only [if_neg hd] using this

theorem addEdges_deg_untouched (tm : Assoc Task) (l : List Task)
    (hdeps : ∀ t ∈ l, (depsOf t).Nodup) (k : String)
    (hk : k ∉ taskIds l) :
    ∀ st : Assoc Int × Assoc (List String),
      mget (addEdges tm st l).1 k = mget st.1 k := by
  induction l with
  | nil => intro st; rfl
  | cons t0 l ih =>
    intro st
    have hkne : k ≠ t0.id := by
      intro h
      exact hk (h ▸ List.mem_cons_self _ _)
    have hknotl : k ∉ taskIds l := fun h => hk (List.mem_cons_of_mem _ h)
    have hinner := (addEdges_inner_effect tm t0.id (depsOf t0)
      (hdeps t0 (by simp)) st).2.1 k hkne
    exact (ih (fun t ht => hdeps t (List.mem_cons_of_mem _ ht)) hknotl _).trans
      hinner

theorem addEdges_fold_deg (tm : Assoc Task) (l : List Task)
    (hids : (taskIds l).Nodup) (hdeps : ∀ t ∈ l, (depsOf t).Nodup) :
    ∀ st : Assoc Int × Assoc (List String), ∀ t ∈ l, ∀ v0 : Int,
      mget st.1 t.id = some v0 →
      mget (addEdges tm st l).1 t.id =
        some (v0 + (((depsOf t).filter (fun d => mhas tm d)).length : Int)) := by
  induction l with
  | nil => intro st t ht; simp at ht
  | cons t0 l ih =>
    intro st t ht v0 hv0
    have hh : t0.id ∉ taskIds l ∧ (taskIds l).Nodup := by
      simpa [taskIds] using hids
    rcases List.mem_cons.mp ht with rfl | ht
    · have hinner := (addEdges_inner_effect tm t.id (depsOf t)
        (hdeps t (by simp)) st).1 v0 hv0
      exact (addEdges_deg_untouched tm l
        (fun t2 ht2 => hdeps t2 (List.mem_cons_of_mem _ ht2)) t.id hh.1 _).trans
        hinner
    · have htne : t.id ≠ t0.id := by
        intro h
        exact hh.1 (h ▸ List.mem_map_of_mem (fun t2 => t2.id) ht)
      have hinner := (addEdges_inner_effect tm t0.id (depsOf t0)
        (hdeps t0 (by simp)) st).2.1 t.id htne
      exact ih hh.2 (fun t2 ht2 => hdeps t2 (List.mem_cons_of_mem _ ht2)) _
        t ht v0 (hinner.trans hv0)

theorem addEdges_fold_out (tm : Assoc Task) (i : String)
    (hi : mhas tm i = true) (l : List Task)
    (hdeps : ∀ t ∈ l, (depsOf t).Nodup) :
    ∀ st : Assoc Int × Assoc (List String), ∀ v0 : List String,
      mget st.2 i = some v0 →
      mget (addEdges tm st l).2 i = some (v0 ++ succList l i) := by
  induction l with
  | nil =>
    intro st v0 hv0
    simpa [succList, taskIds] using hv0
  | cons t0 l ih =>
    intro st v0 hv0
    by_cases hdep : i ∈ depsOf t0
    · have hinner := (addEdges_inner_effect tm t0.id (depsOf t0)
        (hdeps t0 (by simp)) st).2.2.1 i hi hdep
      rw [hv0] at hinner
      simp only [Option.getD_some] at hinner
      have hmain := ih (fun t2 ht2 => hdeps t2 (List.mem_cons_of_mem _ ht2)) _
        (v0 ++ [t0.id]) hinner
      have hsucc : succList (t0 :: l) i = t0.id :: succList l i := by
        simp only [succList, taskIds]
        rw [List.filter_cons_of_pos (by simp [hdep])]
        rfl
      rw [hsucc, show v0 ++ t0.id :: succList l i =
        (v0 ++ [t0.id]) ++ succList l i by simp]
      exact hmain
    · have hinner := (addEdges_inner_effect tm t0.id (depsOf t0)
        (hdeps t0 (by simp)) st).2.2.2 i (fun hc => hdep hc.2)
      have hmain := ih (fun t2 ht2 => hdeps t2 (List.mem_cons_of_mem _ ht2)) _
        v0 (hinner.trans hv0)
      have hsucc : succList (t0 :: l) i = succList l i := by
        simp only [succList, taskIds]
        rw [List.filter_cons_of_neg (by simp [hdep])]
      rw [hsucc]
      exact hmain

theorem initState_graphInv (P : Project) (ts : List Task) (U : List User)
    (G : List Task) (today : Int) (hnodup : (taskIds ts).Nodup)
    (hdeps : ∀ t ∈ ts, (depsOf t).Nodup) :
    GraphInv P ts (initState P ts U G today) := by
  have hbm : ∀ t ∈ ts, mhas (buildMaps ts).1 t.id = true := fun t ht =>
    buildMaps_isSome_iff.mpr (List.mem_map_of_mem _ ht)
  have hfcongr : ∀ t : Task,
      (depsOf t).filter (fun d => mhas (buildMaps ts).1 d) =
      (depsOf t).filter (fun d => decide (d ∈ taskIds ts) &&
        decide (d ∉ ([] : List String))) := by
    intro t
    apply List.filter_congr
    intro d hd
    by_cases hdm : d ∈ taskIds ts
    · have h1 : mhas (buildMaps ts).1 d = true := buildMaps_isSome_iff.mpr hdm
      simp [h1, hdm]
    · have h1 : mhas (buildMaps ts).1 d = false := by
        cases hb : mhas (buildMaps ts).1 d
        · rfl
        · exact absurd (buildMaps_isSome_iff.mp hb) hdm
      simp [h1, hdm]
  have hdegval : ∀ t ∈ ts,
      mget (addEdges (buildMaps ts).1
        ((buildMaps ts).2.1, (buildMaps ts).2.2) ts).1 t.id =
        some ((presentUnmet ts [] t : Int)) := by
    intro t ht
    have hfd := addEdges_fold_deg (buildMaps ts).1 ts hnodup hdeps
      ((buildMaps ts).2.1, (buildMaps ts).2.2) t ht 0
      (buildMaps_deg_lookup ts t ht)
    rw [hfd]
    have hlen : ((depsOf t).filter (fun d => mhas (buildMaps ts).1 d)).length =
        presentUnmet ts [] t := by
      unfold presentUnmet
      rw [hfcongr t]
    rw [zero_add, hlen]
  have hq : (initState P ts U G today).queue =
      qsort (buildMaps ts).1 (taskIds (ts.filter (fun t =>
        decide ((mget (addEdges (buildMaps ts).1
          ((buildMaps ts).2.1, (buildMaps ts).2.2) ts).1 t.id).getD 0 = 0)))) := by
    show qsort (buildMaps ts).1 (ts.filterMap (fun t =>
      if (mget (addEdges (buildMaps ts).1
        ((buildMaps ts).2.1, (buildMaps ts).2.2) ts).1 t.id).getD 0 = 0
      then some t.id else none)) = _
    rw [filterMap_queue_eq]
  refine ⟨?_, ?_, ?_, ?_, ?_, ?_, ?_, ?_, ?_, ?_⟩
  · intro t ht
    have h0 := buildMaps_out_lookup ts t ht
    have hout := addEdges_fold_out (buildMaps ts).1 t.id (hbm t ht) ts hdeps
      ((buildMaps ts).2.1, (buildMaps ts).2.2) [] h0
    show mget (addEdges (buildMaps ts).1
      ((buildMaps ts).2.1, (buildMaps ts).2.2) ts).2 t.id =
      some (succList ts t.id)
    simpa using hout
  · intro t2 ht2
    simp [initState] at ht2
  · intro t ht hnotin
    exact buildMaps_tm_lookup hnodup t ht
  · exact List.nodup_nil
  · intro i hi
    simp [initState, taskIds] at hi
  · intro t ht
    exact hdegval t ht
  · intro i
    rw [hq]
    constructor
    · intro hi
      obtain ⟨t, htf, hid⟩ := List.mem_map.mp (mem_qsort.mp hi)
      obtain ⟨ht, hcond⟩ := List.mem_filter.mp htf
      have hc2 : (mget (addEdges (buildMaps ts).1
          ((buildMaps ts).2.1, (buildMaps ts).2.2) ts).1 t.id).getD 0 = 0 :=
        of_decide_eq_true hcond
      rw [hdegval t ht] at hc2
      simp only [Option.getD_some] at hc2
      refine ⟨t, ht, hid, List.not_mem_nil i, ?_⟩
      exact_mod_cast hc2
    · rintro ⟨t, ht, rfl, hnotin, hpu⟩
      refine mem_qsort.mpr (List.mem_map_of_mem _ (List.mem_filter.mpr ⟨ht, ?_⟩))
      rw [hdegval t ht]
      have hpu2 : presentUnmet ts [] t = 0 := hpu
      simp [hpu2]
  · rw [hq]
    refine nodup_qsort ?_
    refine hnodup.sublist ?_
    simp only [taskIds]
    exact (List.filter_sublist ts).map (fun t => t.id)
  · intro t ht hmem
    exact absurd hmem (List.not_mem_nil _)
  · intro t2 ht2
    simp [initState] at ht2

theorem release_effect (tm : Assoc Task) (E : List String) :
    ∀ (deg : Assoc Int) (q : List String), E.Nodup →
      (∀ j ∈ E, (mget deg j).isSome) →
      ((∀ j : String, j ∉ E → mget (release tm E deg q).1 j = mget deg j) ∧
       (∀ j ∈ E, ∀ v : Int, mget deg j = some v →
          mget (release tm E deg q).1 j = some (v - 1)) ∧
       (∀ x : String, x ∈ (release tm E deg q).2 ↔
          x ∈ q ∨ (x ∈ E ∧ mget deg x = some 1)) ∧
       ((q.Nodup ∧ ∀ j ∈ E, mget deg j = some 1 → j ∉ q) →
          (release tm E deg q).2.Nodup)) := by
  induction E with
  | nil =>
    intro deg q hE hsome
    exact ⟨fun j hj => rfl, fun j hj => by simp at hj,
      fun x => by simp [release], fun h => h.1⟩
  | cons nb rest ih =>
    intro deg q hE hsome
    obtain ⟨v, hv⟩ := Option.isSome_iff_exists.mp (hsome nb (by simp))
    have hnbrest : nb ∉ rest := (List.nodup_cons.mp hE).1
    have hrestsome : ∀ j ∈ rest,
        (mget (mset deg nb (v - 1)) j).isSome := by
      intro j hj
      have hjnb : j ≠ nb := fun h => hnbrest (h ▸ hj)
      rw [mget_mset_ne _ _ _ _ hjnb]
      exact hsome j (List.mem_cons_of_mem _ hj)
    by_cases hz : v - 1 = 0
    · have hred : release tm (nb :: rest) deg q =
          release tm rest (mset deg nb (v - 1)) (qsort tm (q ++ [nb])) := by
        simp only [release, hv, Option.getD_some, if_pos hz]
      obtain ⟨i1, i2, i3, i4⟩ := ih (mset deg nb (v - 1))
        (qsort tm (q ++ [nb])) (List.nodup_cons.mp hE).2 hrestsome
      have hv1 : v = 1 := by omega
      rw [hred]
      refine ⟨?_, ?_, ?_, ?_⟩
      · intro j hj
        have hjnb : j ≠ nb := fun h => hj (h ▸ List.mem_cons_self _ _)
        have hjrest : j ∉ rest := fun h => hj (List.mem_cons_of_mem _ h)
        rw [i1 j hjrest, mget_mset_ne _ _ _ _ hjnb]
      · intro j hj v2 hv2
        rcases List.mem_cons.mp hj with rfl | hj
        · rw [hv] at hv2
          injection hv2 with hv2e
          subst hv2e
          rw [i1 j hnbrest]
          exact mget_mset_self _ _ _
        · have hjnb : j ≠ nb := fun h => hnbrest (h ▸ hj)
          refine i2 j hj v2 ?_
          rw [mget_mset_ne _ _ _ _ hjnb]
          exact hv2
      · intro x
        rw [i3 x]
        have hqmem : x ∈ qsort tm (q ++ [nb]) ↔ x ∈ q ∨ x = nb := by
          rw [mem_qsort, List.mem_append, List.mem_singleton]
        constructor
        · rintro (hx | ⟨hx1, hx2⟩)
          · rcases hqmem.mp hx with h | rfl
            · exact Or.inl h
            · exact Or.inr ⟨by simp, by rw [hv, hv1]⟩
          · have hxnb : x ≠ nb := fun h => hnbrest (h ▸ hx1)
            rw [mget_mset_ne _ _ _ _ hxnb] at hx2
            exact Or.inr ⟨List.mem_cons_of_mem _ hx1, hx2⟩
        · rintro (hx | ⟨hx1, hx2⟩)
          · exact Or.inl (hqmem.mpr (Or.inl hx))
          · rcases List.mem_cons.mp hx1 with rfl | hx1
            · exact Or.inl (hqmem.mpr (Or.inr rfl))
            · have hxnb : x ≠ nb := fun h => hnbrest (h ▸ hx1)
              refine Or.inr ⟨hx1, ?_⟩
              rw [mget_mset_ne _ _ _ _ hxnb]
              exact hx2
      · rintro ⟨hqn, hpush⟩
        refine i4 ⟨?_, ?_⟩
        · refine nodup_qsort ?_
          rw [List.nodup_append]
          refine ⟨hqn, List.nodup_singleton _, ?_⟩
          intro a ha hb
          simp only [List.mem_singleton] at hb
          subst hb
          exact hpush a (by simp) (by rw [hv, hv1]) ha
        · intro j hj hdj
          have hjnb : j ≠ nb := fun h => hnbrest (h ▸ hj)
          rw [mget_mset_ne _ _ _ _ hjnb] at hdj
          intro hjq
          have hjq2 : j ∈ q ∨ j = nb := by
            rw [mem_qsort, List.mem_append, List.mem_singleton] at hjq
            exact hjq
          rcases hjq2 with h | h
          · exact hpush j (List.mem_cons_of_mem _ hj) hdj h
          · exact hjnb h
    · have hred : release tm (nb :: rest) deg q =
          release tm rest (mset deg nb (v - 1)) q := by
        simp only [release, hv, Option.getD_some, if_neg hz]
      obtain ⟨i1, i2, i3, i4⟩ := ih (mset deg nb (v - 1)) q
        (List.nodup_cons.mp hE).2 hrestsome
      rw [hred]
      refine ⟨?_, ?_, ?_, ?_⟩
      · intro j hj
        have hjnb : j ≠ nb := fun h => hj (h ▸ List.mem_cons_self _ _)
        have hjrest : j ∉ rest := fun h => hj (List.mem_cons_of_mem _ h)
        rw [i1 j hjrest, mget_mset_ne _ _ _ _ hjnb]
      · intro j hj v2 hv2
        rcases List.mem_cons.mp hj with rfl | hj
        · rw [hv] at hv2
          injection hv2 with hv2e
          subst hv2e
          rw [i1 j hnbrest]
          exact mget_mset_self _ _ _
        · have hjnb : j ≠ nb := fun h => hnbrest (h ▸ hj)
          refine i2 j hj v2 ?_
          rw [mget_mset_ne _ _ _ _ hjnb]
          exact hv2
      · intro x
        rw [i3 x]
        constructor
        · rintro (hx | ⟨hx1, hx2⟩)
          · exact Or.inl hx
          · have hxnb : x ≠ nb := fun h => hnbrest (h ▸ hx1)
            rw [mget_mset_ne _ _ _ _ hxnb] at hx2
            exact Or.inr ⟨List.mem_cons_of_mem _ hx1, hx2⟩
        · rintro (hx | ⟨hx1, hx2⟩)
          · exact Or.inl hx
          · rcases List.mem_cons.mp hx1 with rfl | hx1
            · rw [hv] at hx2
              injection hx2 with hx2e
              exact absurd (by omega : v - 1 = 0) hz
            · have hxnb : x ≠ nb := fun h => hnbrest (h ▸ hx1)
              refine Or.inr ⟨hx1, ?_⟩
              rw [mget_mset_ne _ _ _ _ hxnb]
              exact hx2
      · rintro ⟨hqn, hpush⟩
        refine i4 ⟨hqn, ?_⟩
        intro j hj hdj
        have hjnb : j ≠ nb := fun h => hnbrest (h ▸ hj)
        rw [mget_mset_ne _ _ _ _ hjnb] at hdj
        exact hpush j (List.mem_cons_of_mem _ hj) hdj

theorem presentUnmet_pos {ts : List Task} {dids : List String} {t : Task}
    {i : String} (hdep : i ∈ depsOf t) (hi : i ∈ taskIds ts)
    (hni : i ∉ dids) : 0 < presentUnmet ts dids t := by
  have hmem : i ∈ (depsOf t).filter
      (fun d => decide (d ∈ taskIds ts) && decide (d ∉ dids)) :=
    List.mem_filter.mpr ⟨hdep, by simp [hi, hni]⟩
  exact List.length_pos.mpr (List.ne_nil_of_mem hmem)

theorem presentUnmet_zero_elim {ts : List Task} {dids : List String}
    {t : Task} (h : presentUnmet ts dids t = 0) :
    ∀ d ∈ depsOf t, d ∈ taskIds ts → d ∈ dids := by
  intro d hd hdid
  by_contra hnd
  exact (presentUnmet_pos hd hdid hnd).ne' h

theorem taskIds_append (a b : List Task) :
    taskIds (a ++ b) = taskIds a ++ taskIds b :=
  List.map_append _ a b

theorem stepState_graphInv (P : Project) (U : List User) (ts : List Task)
    (hnodup : (taskIds ts).Nodup) (hdeps : ∀ t ∈ ts, (depsOf t).Nodup)
    (s : LoopState) (hinv : GraphInv P ts s) :
    GraphInv P ts (stepState P U s) := by
  obtain ⟨hout, hproc, hunproc, hdnodup, hdsub, hdeg, hqmem, hqnodup, hpz,
    hdone⟩ := hinv
  cases hq : s.queue with
  | nil =>
    have he : stepState P U s = s := by simp only [stepState, hq]
    rw [he]
    exact ⟨hout, hproc, hunproc, hdnodup, hdsub, hdeg, hqmem, hqnodup, hpz,
      hdone⟩
  | cons i rest =>
    obtain ⟨t, ht, htid, hnotdone, hzero⟩ := (hqmem i).mp (by rw [hq]; simp)
    have hm : mget s.taskMap i = some t := by
      rw [← htid]
      exact hunproc t ht (htid ▸ hnotdone)
    have hiid : i ∈ taskIds ts := htid ▸ List.mem_map_of_mem _ ht
    have hirest : i ∉ rest := by
      have := hqnodup
      rw [hq] at this
      exact (List.nodup_cons.mp this).1
    have hrestnodup : rest.Nodup := by
      have := hqnodup
      rw [hq] at this
      exact (List.nodup_cons.mp this).2
    have hiE : i ∉ succList ts i := by
      intro hmem
      obtain ⟨t4, ht4, hid4, hdep4⟩ := mem_succList_elim hmem
      have ht4t : t4 = t := nodup_id_inj hnodup ht4 ht (hid4.trans htid.symm)
      subst ht4t
      exact (presentUnmet_pos hdep4 hiid hnotdone).ne' hzero
    have hE : (mget s.out i).getD [] = succList ts i := by
      rw [← htid, hout t ht]
      rfl
    have hEnodup : (succList ts i).Nodup := succList_nodup hnodup i
    have hEsome : ∀ j ∈ succList ts i, (mget s.deg j).isSome := by
      intro j hj
      obtain ⟨t3, ht3, hid3, -⟩ := mem_succList_elim hj
      rw [← hid3, hdeg t3 ht3]
      rfl
    have ht2id : (step P U s.taskMap s.avail s.conflicts t).1.id = i := by
      rw [step_clone]
      exact htid
    have ht2deps : depsOf (step P U s.taskMap s.avail s.conflicts t).1 =
        depsOf t := by
      rw [step_clone]
      rfl
    obtain ⟨r1, r2, r3, r4⟩ := release_effect
      (mset s.taskMap i (step P U s.taskMap s.avail s.conflicts t).1)
      (succList ts i) s.deg rest hEnodup hEsome
    have hdids2 : taskIds (s.optimizedTasks ++
        [(step P U s.taskMap s.avail s.conflicts t).1]) =
        taskIds s.optimizedTasks ++ [i] := by
      rw [taskIds_append]
      simp [taskIds, ht2id]
    simp only [stepState, hq, hm]
    rw [hE]
    refine ⟨?_, ?_, ?_, ?_, ?_, ?_, ?_, ?_, ?_, ?_⟩
    · exact hout
    · intro t3 ht3
      rcases List.mem_append.mp ht3 with ht3 | ht3
      · have hne : t3.id ≠ i := fun h =>
          hnotdone (h ▸ List.mem_map_of_mem (fun t4 => t4.id) ht3)
        rw [mget_mset_ne _ _ _ _ hne]
        exact hproc t3 ht3
      · have ht3e : t3 = (step P U s.taskMap s.avail s.conflicts t).1 := by
          simpa using ht3
        subst ht3e
        rw [ht2id]
        exact mget_mset_self _ _ _
    · intro t3 ht3 hnin
      rw [hdids2] at hnin
      have hne : t3.id ≠ i := fun h => hnin (by simp [h])
      have hnin2 : t3.id ∉ taskIds s.optimizedTasks := fun h =>
        hnin (List.mem_append.mpr (Or.inl h))
      rw [mget_mset_ne _ _ _ _ hne]
      exact hunproc t3 ht3 hnin2
    · rw [hdids2, List.nodup_append]
      exact ⟨hdnodup, List.nodup_singleton _,
        fun a ha hb => (by simp at hb; exact hnotdone (hb ▸ ha))⟩
    · rw [hdids2]
      intro x hx
      rcases List.mem_append.mp hx with hx | hx
      · exact hdsub hx
      · simp at hx
        exact hx ▸ hiid
    · intro t3 ht3
      rw [hdids2]
      by_cases hdep3 : i ∈ depsOf t3
      · have hmemE : t3.id ∈ succList ts i :=
          (mem_succList_iff hnodup ht3).mpr hdep3
        have := r2 t3.id hmemE _ (hdeg t3 ht3)
        rw [this]
        have hins := (presentUnmet_insert (hdeps t3 ht3) hiid hnotdone).1 hdep3
        congr 1
        rw [hins]
        push_cast
        ring
      · have hmemE : t3.id ∉ succList ts i := fun h =>
          hdep3 ((mem_succList_iff hnodup ht3).mp h)
        have := r1 t3.id hmemE
        rw [this, hdeg t3 ht3]
        have hins := (presentUnmet_insert (hdeps t3 ht3) hiid hnotdone).2 hdep3
        rw [hins]
    · intro x
      rw [hdids2]
      have hr3 := r3 x
      rw [hr3]
      constructor
      · rintro (hx | ⟨hxE, hxdeg⟩)
        · have hxq : x ∈ s.queue := by rw [hq]; exact List.mem_cons_of_mem _ hx
          obtain ⟨t3, ht3, hid3, hxnd, hpu0⟩ := (hqmem x).mp hxq
          have hxi : x ≠ i := fun h => hirest (h ▸ hx)
          have hdep3 : i ∉ depsOf t3 := by
            intro hdep3
            have := (presentUnmet_insert (hdeps t3 ht3) hiid hnotdone).1 hdep3
            omega
          have hpu2 := (presentUnmet_insert (hdeps t3 ht3) hiid hnotdone).2 hdep3
          refine ⟨t3, ht3, hid3, ?_, by rw [hpu2]; exact hpu0⟩
          intro hc
          rcases List.mem_append.mp hc with hc | hc
          · exact hxnd hc
          · simp at hc
            exact hxi hc
        · obtain ⟨t3, ht3, hid3, hdep3⟩ := mem_succList_elim hxE
          have hxnd : x ∉ taskIds s.optimizedTasks := by
            intro hc
            have := hpz t3 ht3 (hid3 ▸ hc)
            rw [← hid3] at hxdeg
            rw [hdeg t3 ht3] at hxdeg
            injection hxdeg with hxe
            omega
          have hxi : x ≠ i := fun h => hiE (h ▸ hxE)
          have hpuold : presentUnmet ts (taskIds s.optimizedTasks) t3 = 1 := by
            rw [← hid3] at hxdeg
            rw [hdeg t3 ht3] at hxdeg
            injection hxdeg with hxe
            omega
          have hins := (presentUnmet_insert (hdeps t3 ht3) hiid hnotdone).1 hdep3
          refine ⟨t3, ht3, hid3, ?_, by omega⟩
          intro hc
          rcases List.mem_append.mp hc with hc | hc
          · exact hxnd hc
          · simp at hc
            exact hxi hc
      · rintro ⟨t3, ht3, hid3, hxnd, hpu0⟩
        have hxi : x ≠ i := fun h => hxnd (by simp [h])
        have hxndold : x ∉ taskIds s.optimizedTasks := fun h =>
          hxnd (List.mem_append.mpr (Or.inl h))
        by_cases hdep3 : i ∈ depsOf t3
        · refine Or.inr ⟨hid3 ▸ (mem_succList_iff hnodup ht3).mpr hdep3, ?_⟩
          have hins := (presentUnmet_insert (hdeps t3 ht3) hiid hnotdone).1 hdep3
          rw [← hid3, hdeg t3 ht3]
          have : presentUnmet ts (taskIds s.optimizedTasks) t3 = 1 := by omega
          rw [this]
          rfl
        · have hins := (presentUnmet_insert (hdeps t3 ht3) hiid hnotdone).2 hdep3
          have hpuold : presentUnmet ts (taskIds s.optimizedTasks) t3 = 0 := by
            omega
          have hxq : x ∈ s.queue := (hqmem x).mpr ⟨t3, ht3, hid3, hxndold, hpuold⟩
          rw [hq] at hxq
          rcases List.mem_cons.mp hxq with h | h
          · exact absurd h hxi
          · exact Or.inl h
    · refine r4 ⟨hrestnodup, ?_⟩
      intro j hj hdj hjrest
      have hjq : j ∈ s.queue := by rw [hq]; exact List.mem_cons_of_mem _ hjrest
      obtain ⟨t3, ht3, hid3, hxnd, hpu0⟩ := (hqmem j).mp hjq
      rw [← hid3, hdeg t3 ht3, hpu0] at hdj
      injection hdj with hde
      exact absurd hde (by norm_num)
    · intro t3 ht3 hmem
      rw [hdids2] at hmem ⊢
      rcases List.mem_append.mp hmem with hmem | hmem
      · have h0 := hpz t3 ht3 hmem
        have := @presentUnmet_mono ts (taskIds s.optimizedTasks)
          (taskIds s.optimizedTasks ++ [i])
          (fun x hx => List.mem_append.mpr (Or.inl hx)) t3
        omega
      · simp at hmem
        have ht3t : t3 = t := nodup_id_inj hnodup ht3 ht (hmem.trans htid.symm)
        subst ht3t
        have := @presentUnmet_mono ts (taskIds s.optimizedTasks)
          (taskIds s.optimizedTasks ++ [i])
          (fun x hx => List.mem_append.mpr (Or.inl hx)) t3
        omega
    · intro t3 ht3
      rcases List.mem_append.mp ht3 with ht3 | ht3
      · obtain ⟨hfl, hdd, hcl⟩ := hdone t3 ht3
        refine ⟨hfl, ?_, hcl⟩
        intro d hd hdid
        obtain ⟨d2, hd2, hd2id, hd2le⟩ := hdd d hd hdid
        exact ⟨d2, List.mem_append.mpr (Or.inl hd2), hd2id, hd2le⟩
      · have ht3e : t3 = (step P U s.taskMap s.avail s.conflicts t).1 := by
          simpa using ht3
        subst ht3e
        refine ⟨step_start_ge_project P U s.taskMap s.avail s.conflicts t,
          ?_, ?_⟩
        · intro d hd hdid
          rw [ht2deps] at hd
          have hddone : d ∈ taskIds s.optimizedTasks :=
            presentUnmet_zero_elim hzero d hd hdid
          obtain ⟨d2, hd2, hd2id⟩ := List.mem_map.mp hddone
          have hd2get : mget s.taskMap d = some d2 := by
            rw [← hd2id]
            exact hproc d2 hd2
          refine ⟨d2, List.mem_append.mpr (Or.inl hd2), hd2id, ?_⟩
          exact le_trans (depFloor_dep P s.taskMap t d hd d2 hd2get)
            (step_start_ge_floor P U s.taskMap s.avail s.conflicts t)
        · refine ⟨t, ht, ?_, ?_⟩
          · rw [ht2id, htid]
          · exact step_clone P U s.taskMap s.avail s.conflicts t

theorem processLoop_graphInv (P : Project) (U : List User) (ts : List Task)
    (hnodup : (taskIds ts).Nodup) (hdeps : ∀ t ∈ ts, (depsOf t).Nodup) :
    ∀ (fuel : Nat) (s : LoopState), GraphInv P ts s →
      GraphInv P ts (processLoop P U fuel s)
  | 0, _, h => h
  | fuel + 1, s, h => by
    simp only [processLoop]
    by_cases hq : s.queue.isEmpty
    · rw [if_pos hq]
      exact h
    · rw [if_neg hq]
      exact processLoop_graphInv P U ts hnodup hdeps fuel _
        (stepState_graphInv P U ts hnodup hdeps s h)

theorem stepState_adds_one (P : Project) (U : List User) (ts : List Task)
    (s : LoopState) (hinv : GraphInv P ts s) (hne : s.queue ≠ []) :
    (stepState P U s).optimizedTasks.length = s.optimizedTasks.length + 1 := by
  obtain ⟨-, -, hunproc, -, -, -, hqmem, -, -, -⟩ := hinv
  cases hq : s.queue with
  | nil => exact absurd hq hne
  | cons i rest =>
    obtain ⟨t, ht, htid, hnotdone, -⟩ := (hqmem i).mp (by rw [hq]; simp)
    have hm : mget s.taskMap i = some t := by
      rw [← htid]
      exact hunproc t ht (htid ▸ hnotdone)
    simp [stepState, hq, hm]

theorem processLoop_empties (P : Project) (U : List User) (ts : List Task)
    (hnodup : (taskIds ts).Nodup) (hdeps : ∀ t ∈ ts, (depsOf t).Nodup) :
    ∀ (fuel : Nat) (s : LoopState), GraphInv P ts s →
      ts.length < fuel + s.optimizedTasks.length →
      (processLoop P U fuel s).queue = []
  | 0, s, hinv, hlt => by
    exfalso
    obtain ⟨-, -, -, hdnodup, hdsub, -, -, -, -, -⟩ := hinv
    have h1 : (taskIds s.optimizedTasks).length ≤ (taskIds ts).length :=
      (List.subperm_of_subset hdnodup hdsub).length_le
    simp only [taskIds, List.length_map] at h1
    omega
  | fuel + 1, s, hinv, hlt => by
    simp only [processLoop]
    by_cases hq : s.queue.isEmpty
    · rw [if_pos hq]
      exact List.isEmpty_iff.mp hq
    · rw [if_neg hq]
      have hne : s.queue ≠ [] := by
        intro h
        rw [h] at hq
        exact hq rfl
      refine processLoop_empties P U ts hnodup hdeps fuel _
        (stepState_graphInv P U ts hnodup hdeps s hinv) ?_
      rw [stepState_adds_one P U ts s hinv hne]
      omega

theorem graphInv_empty_complete (P : Project) (ts : List Task)
    (s : LoopState) (hinv : GraphInv P ts s) (hq : s.queue = [])
    (hacyc : Acyclic ts) :
    ∀ t ∈ ts, t.id ∈ taskIds s.optimizedTasks := by
  obtain ⟨rank, hrank⟩ := hacyc
  obtain ⟨-, -, -, -, -, -, hqmem, -, -, -⟩ := hinv
  have key : ∀ n : Nat, ∀ t ∈ ts, rank t.id = n →
      t.id ∈ taskIds s.optimizedTasks := by
    intro n
    induction n using Nat.strong_induction_on with
    | _ n ih =>
      intro t ht hr
      by_contra hnd
      have hpu : presentUnmet ts (taskIds s.optimizedTasks) t = 0 := by
        simp only [presentUnmet, List.length_eq_zero]
        rw [List.filter_eq_nil_iff]
        intro d hd
        simp only [Bool.and_eq_true, decide_eq_true_eq, not_and, not_not]
        intro hdid
        obtain ⟨t4, ht4, hid4⟩ := List.mem_map.mp hdid
        have hrlt : rank d < n := hr ▸ hrank t ht d hd hdid
        exact hid4 ▸ ih (rank d) hrlt t4 ht4 (by rw [hid4])
      have := (hqmem t.id).mpr ⟨t, ht, rfl, hnd, hpu⟩
      rw [hq] at this
      simp at this
  intro t ht
  exact key (rank t.id) t ht rfl

/-- C1: for every acyclic input (with the data model's unique ids, unique
per-task dependency lists and non-negative durations), every emitted task
starts no earlier than `project.startDate`, and no earlier than the computed
end (`startDate + duration`) of each of its dependencies present in the task
set (which is itself emitted); the ordering extends transitively along chains
of present dependencies among the emitted tasks. -/
theorem dependency_ordering (P : Project) (ts : List Task) (U : List User)
    (G : List Task) (today : Int)
    (hnodup : (taskIds ts).Nodup) (hdeps : ∀ t ∈ ts, (depsOf t).Nodup)
    (hdur : ∀ t ∈ ts, 0 ≤ t.duration) (_hacyc : Acyclic ts) :
    (∀ t2 ∈ (scheduleProject P ts U G today).optimizedTasks,
      P.startDate ≤ t2.startDate ∧
      ∀ d ∈ depsOf t2, d ∈ taskIds ts →
        ∃ d2 ∈ (scheduleProject P ts U G today).optimizedTasks,
          d2.id = d ∧ d2.startDate + d2.duration ≤ t2.startDate) ∧
    (∀ a b : Task,
      Relation.TransGen
        (DependsOn (scheduleProject P ts U G today).optimizedTasks) a b →
      a.startDate + a.duration ≤ b.startDate) := by
  have hinv := processLoop_graphInv P U ts hnodup hdeps (2 * ts.length + 1)
    (initState P ts U G today) (initState_graphInv P ts U G today hnodup hdeps)
  obtain ⟨-, -, -, hdnodup, hdsub, -, -, -, -, hdone⟩ := hinv
  have hred : (scheduleProject P ts U G today).optimizedTasks =
      (processLoop P U (2 * ts.length + 1)
        (initState P ts U G today)).optimizedTasks := rfl
  rw [hred]
  have hdur2 : ∀ t2 ∈ (processLoop P U (2 * ts.length + 1)
      (initState P ts U G today)).optimizedTasks, 0 ≤ t2.duration := by
    intro t2 ht2
    obtain ⟨-, -, t, ht, -, hcl⟩ := hdone t2 ht2
    have hd : t2.duration = t.duration := by rw [hcl]
    rw [hd]
    exact hdur t ht
  refine ⟨?_, ?_⟩
  · intro t2 ht2
    obtain ⟨hfl, hdd, -⟩ := hdone t2 ht2
    exact ⟨hfl, hdd⟩
  · intro a b hab
    induction hab with
    | single h =>
      obtain ⟨ha, hb, hdep⟩ := h
      obtain ⟨-, hdd, -⟩ := hdone _ hb
      obtain ⟨d2, hd2, hd2id, hle⟩ :=
        hdd _ hdep (hdsub (List.mem_map_of_mem _ ha))
      have he : d2 = a := nodup_id_inj hdnodup hd2 ha hd2id
      rw [← he]
      exact hle
    | tail hab2 h ih =>
      obtain ⟨hm, hc, hdep⟩ := h
      obtain ⟨-, hdd, -⟩ := hdone _ hc
      obtain ⟨d2, hd2, hd2id, hle⟩ :=
        hdd _ hdep (hdsub (List.mem_map_of_mem _ hm))
      have he : d2 = _ := nodup_id_inj hdnodup hd2 hm hd2id
      rw [he] at hle
      have hdm := hdur2 _ hm
      omega

/-- C1 witness: a two-task chain (B depends on A) with a project floor and
one user; all data-model hypotheses hold and the ordering conclusion is
produced by the theorem. -/
theorem dependency_ordering_witness :
    (taskIds [(⟨"a", "p", "A", 99, 2, none, some "u1", none, Priority.media⟩ : Task),
              (⟨"b", "p", "B", 99, 3, some ["a"], some "u1", none, Priority.media⟩ : Task)]).Nodup ∧
    (∀ t ∈ [(⟨"a", "p", "A", 99, 2, none, some "u1", none, Priority.media⟩ : Task),
            (⟨"b", "p", "B", 99, 3, some ["a"], some "u1", none, Priority.media⟩ : Task)],
      (depsOf t).Nodup) ∧
    (∀ t ∈ [(⟨"a", "p", "A", 99, 2, none, some "u1", none, Priority.media⟩ : Task),
            (⟨"b", "p", "B", 99, 3, some ["a"], some "u1", none, Priority.media⟩ : Task)],
      0 ≤ t.duration) ∧
    Acyclic [(⟨"a", "p", "A", 99, 2, none, some "u1", none, Priority.media⟩ : Task),
             (⟨"b", "p", "B", 99, 3, some ["a"], some "u1", none, Priority.media⟩ : Task)] ∧
    ((∀ t2 ∈ (scheduleProject ⟨"p", 0⟩
        [⟨"a", "p", "A", 99, 2, none, some "u1", none, Priority.media⟩,
         ⟨"b", "p", "B", 99, 3, some ["a"], some "u1", none, Priority.media⟩]
        [⟨"u1", [], "dev"⟩] [] 0).optimizedTasks,
      (⟨"p", 0⟩ : Project).startDate ≤ t2.startDate ∧
      ∀ d ∈ depsOf t2, d ∈ taskIds
          [(⟨"a", "p", "A", 99, 2, none, some "u1", none, Priority.media⟩ : Task),
           (⟨"b", "p", "B", 99, 3, some ["a"], some "u1", none, Priority.media⟩ : Task)] →
        ∃ d2 ∈ (scheduleProject ⟨"p", 0⟩
            [⟨"a", "p", "A", 99, 2, none, some "u1", none, Priority.media⟩,
             ⟨"b", "p", "B", 99, 3, some ["a"], some "u1", none, Priority.media⟩]
            [⟨"u1", [], "dev"⟩] [] 0).optimizedTasks,
          d2.id = d ∧ d2.startDate + d2.duration ≤ t2.startDate) ∧
    (∀ a b : Task,
      Relation.TransGen
        (DependsOn (scheduleProject ⟨"p", 0⟩
          [⟨"a", "p", "A", 99, 2, none, some "u1", none, Priority.media⟩,
           ⟨"b", "p", "B", 99, 3, some ["a"], some "u1", none, Priority.media⟩]
          [⟨"u1", [], "dev"⟩] [] 0).optimizedTasks) a b →
      a.startDate + a.duration ≤ b.startDate)) :=
  ⟨by decide, by decide, by decide,
   ⟨fun i => if i = "a" then 0 else 1, by decide⟩,
   dependency_ordering ⟨"p", 0⟩
     [⟨"a", "p", "A", 99, 2, none, some "u1", none, Priority.media⟩,
      ⟨"b", "p", "B", 99, 3, some ["a"], some "u1", none, Priority.media⟩]
     [⟨"u1", [], "dev"⟩] [] 0 (by decide) (by decide) (by decide)
     ⟨fun i => if i = "a" then 0 else 1, by decide⟩⟩

/-- C3: for every acyclic input (unique ids, per-task dependency lists
without duplicates), the emitted ids are a permutation of the input ids —
exactly N tasks, each input id exactly once.  Acyclicity only constrains
dependencies present in the task set, so dangling dependency ids neither
block scheduling nor drop a task. -/
theorem completeness_under_acyclicity (P : Project) (ts : List Task)
    (U : List User) (G : List Task) (today : Int)
    (hnodup : (taskIds ts).Nodup) (hdeps : ∀ t ∈ ts, (depsOf t).Nodup)
    (hacyc : Acyclic ts) :
    (taskIds (scheduleProject P ts U G today).optimizedTasks).Perm
      (taskIds ts) := by
  have hinv := processLoop_graphInv P U ts hnodup hdeps (2 * ts.length + 1)
    (initState P ts U G today) (initState_graphInv P ts U G today hnodup hdeps)
  have hq : (processLoop P U (2 * ts.length + 1)
      (initState P ts U G today)).queue = [] := by
    refine processLoop_empties P U ts hnodup hdeps (2 * ts.length + 1)
      (initState P ts U G today)
      (initState_graphInv P ts U G today hnodup hdeps) ?_
    have h0 : (initState P ts U G today).optimizedTasks = [] := rfl
    rw [h0]
    simp only [List.length_nil]
    omega
  have hcomp := graphInv_empty_complete P ts _ hinv hq hacyc
  obtain ⟨-, -, -, hdnodup, hdsub, -, -, -, -, -⟩ := hinv
  have hred : (scheduleProject P ts U G today).optimizedTasks =
      (processLoop P U (2 * ts.length + 1)
        (initState P ts U G today)).optimizedTasks := rfl
  rw [hred]
  have h2 : taskIds ts ⊆ taskIds (processLoop P U (2 * ts.length + 1)
      (initState P ts U G today)).optimizedTasks := by
    intro x hx
    obtain ⟨t, ht, rfl⟩ := List.mem_map.mp hx
    exact hcomp t ht
  exact (List.subperm_of_subset hdnodup hdsub).antisymm
    (List.subperm_of_subset hnodup h2)

/-- C3 witness: a three-task input — a two-task chain plus a task with a
dangling dependency id — is acyclic; the hypotheses hold and the theorem
yields the id permutation (the dangling id drops nothing). -/
theorem completeness_under_acyclicity_witness :
    (taskIds [(⟨"a", "p", "A", 99, 2, none, some "u1", none, Priority.media⟩ : Task),
              (⟨"b", "p", "B", 99, 3, some ["a"], some "u1", none, Priority.media⟩ : Task),
              (⟨"c", "p", "C", 99, 1, some ["zz"], none, none, Priority.alta⟩ : Task)]).Nodup ∧
    (∀ t ∈ [(⟨"a", "p", "A", 99, 2, none, some "u1", none, Priority.media⟩ : Task),
            (⟨"b", "p", "B", 99, 3, some ["a"], some "u1", none, Priority.media⟩ : Task),
            (⟨"c", "p", "C", 99, 1, some ["zz"], none, none, Priority.alta⟩ : Task)],
      (depsOf t).Nodup) ∧
    Acyclic [(⟨"a", "p", "A", 99, 2, none, some "u1", none, Priority.media⟩ : Task),
             (⟨"b", "p", "B", 99, 3, some ["a"], some "u1", none, Priority.media⟩ : Task),
             (⟨"c", "p", "C", 99, 1, some ["zz"], none, none, Priority.alta⟩ : Task)] ∧
    (taskIds (scheduleProject ⟨"p", 0⟩
        [⟨"a", "p", "A", 99, 2, none, some "u1", none, Priority.media⟩,
         ⟨"b", "p", "B", 99, 3, some ["a"], some "u1", none, Priority.media⟩,
         ⟨"c", "p", "C", 99, 1, some ["zz"], none, none, Priority.alta⟩]
        [⟨"u1", [], "dev"⟩] [] 0).optimizedTasks).Perm
      (taskIds [(⟨"a", "p", "A", 99, 2, none, some "u1", none, Priority.media⟩ : Task),
                (⟨"b", "p", "B", 99, 3, some ["a"], some "u1", none, Priority.media⟩ : Task),
                (⟨"c", "p", "C", 99, 1, some ["zz"], none, none, Priority.alta⟩ : Task)]) :=
  ⟨by decide, by decide,
   ⟨fun i => if i = "a" then 0 else 1, by decide⟩,
   completeness_under_acyclicity ⟨"p", 0⟩
     [⟨"a", "p", "A", 99, 2, none, some "u1", none, Priority.media⟩,
      ⟨"b", "p", "B", 99, 3, some ["a"], some "u1", none, Priority.media⟩,
      ⟨"c", "p", "C", 99, 1, some ["zz"], none, none, Priority.alta⟩]
     [⟨"u1", [], "dev"⟩] [] 0 (by decide) (by decide)
     ⟨fun i => if i = "a" then 0 else 1, by decide⟩⟩

/-! ### Order-of-occurrence toolkit -/

theorem Before_prepend (A : List String) {l : List String} {x y : String}
    (h : Before l x y) : Before (A ++ l) x y := by
  obtain ⟨a, b, c, rfl⟩ := h
  exact ⟨A ++ a, b, c, by simp⟩

theorem Before_extend (C : List String) {l : List String} {x y : String}
    (h : Before l x y) : Before (l ++ C) x y := by
  obtain ⟨a, b, c, rfl⟩ := h
  exact ⟨a, b, c ++ C, by simp⟩

theorem Before_head (i y : String) (t : List String) (hy : y ∈ t) :
    Before (i :: t) i y := by
  obtain ⟨b, c, rfl⟩ := List.append_of_mem hy
  exact ⟨[], b, c, rfl⟩

theorem Before_strip {i x y : String} {t : List String}
    (h : Before (i :: t) x y) (hx : x ≠ i) : Before t x y := by
  obtain ⟨a, b, c, he⟩ := h
  cases a with
  | nil =>
    simp only [List.nil_append, List.cons.injEq] at he
    exact absurd he.1.symm hx
  | cons a0 a' =>
    simp only [List.cons_append, List.cons.injEq] at he
    exact ⟨a', b, c, he.2⟩

theorem Before_mem_left {l : List String} {x y : String}
    (h : Before l x y) : x ∈ l := by
  obtain ⟨a, b, c, rfl⟩ := h
  simp

theorem Before_mem_right {l : List String} {x y : String}
    (h : Before l x y) : y ∈ l := by
  obtain ⟨a, b, c, rfl⟩ := h
  simp

theorem Before_y_mem_tail {i x y : String} {t : List String}
    (h : Before (i :: t) x y) : y ∈ t := by
  obtain ⟨a, b, c, he⟩ := h
  cases a with
  | nil =>
    simp only [List.nil_append, List.cons.injEq] at he
    rw [he.2]
    simp
  | cons a0 a' =>
    simp only [List.cons_append, List.cons.injEq] at he
    rw [he.2]
    simp

theorem Before_ne_of_nodup {l : List String} {x y : String}
    (hnd : l.Nodup) (h : Before l x y) : x ≠ y := by
  obtain ⟨a, b, c, rfl⟩ := h
  intro he
  subst he
  have h2 : (x :: (b ++ x :: c)).Nodup := hnd.of_append_right
  exact (List.nodup_cons.mp h2).1 (by simp)

theorem Before_total {l : List String} {x y : String}
    (hx : x ∈ l) (hy : y ∈ l) (hne : x ≠ y) :
    Before l x y ∨ Before l y x := by
  induction l with
  | nil => simp at hx
  | cons z t ih =>
    rcases List.mem_cons.mp hx with rfl | hx2
    · have hyt : y ∈ t := by
        rcases List.mem_cons.mp hy with rfl | h2
        · exact absurd rfl hne
        · exact h2
      exact Or.inl (Before_head _ _ _ hyt)
    · rcases List.mem_cons.mp hy with rfl | hy2
      · exact Or.inr (Before_head _ _ _ hx2)
      · rcases ih hx2 hy2 with h2 | h2
        · exact Or.inl (Before_prepend [z] h2)
        · exact Or.inr (Before_prepend [z] h2)

theorem Before_asymm {l : List String} {x y : String}
    (hnd : l.Nodup) (h1 : Before l x y) (h2 : Before l y x) : False := by
  induction l with
  | nil =>
    obtain ⟨a, b, c, he⟩ := h1
    simp at he
  | cons z t ih =>
    by_cases hx : x = z
    · subst hx
      exact absurd (Before_y_mem_tail h2) (List.nodup_cons.mp hnd).1
    · by_cases hy : y = z
      · subst hy
        exact absurd (Before_y_mem_tail h1) (List.nodup_cons.mp hnd).1
      · exact ih (List.nodup_cons.mp hnd).2 (Before_strip h1 hx)
          (Before_strip h2 hy)

theorem Before_filter {l : List String} {x y : String} (p : String → Bool)
    (h : Before l x y) (hx : p x = true) (hy : p y = true) :
    Before (l.filter p) x y := by
  obtain ⟨a, b, c, rfl⟩ := h
  refine ⟨a.filter p, b.filter p, c.filter p, ?_⟩
  simp [List.filter_append, List.filter_cons, hx, hy]

theorem Before_sublist {S M : List String} {x y : String}
    (hsub : List.Sublist S M) (h : Before S x y) : Before M x y := by
  induction hsub with
  | slnil =>
    obtain ⟨a, b, c, he⟩ := h
    simp at he
  | cons z hsub2 ih => exact Before_prepend [z] (ih h)
  | cons₂ z hsub2 ih =>
    by_cases hx : x = z
    · subst hx
      exact Before_head _ _ _ (hsub2.subset (Before_y_mem_tail h))
    · exact Before_prepend [z] (ih (Before_strip h hx))

theorem list_order_eq : ∀ (l1 l2 : List String), l1.Nodup → l2.Nodup →
    (∀ x, x ∈ l1 ↔ x ∈ l2) → (∀ x y, Before l1 x y → Before l2 x y) →
    l1 = l2
  | [], l2, _, _, hmem, _ => by
    cases l2 with
    | nil => rfl
    | cons z t => exact absurd ((hmem z).mpr (by simp)) (by simp)
  | x :: t1, l2, hnd1, hnd2, hmem, hord => by
    cases l2 with
    | nil => exact absurd ((hmem x).mp (by simp)) (by simp)
    | cons z t2 =>
      have hxz : x = z := by
        by_contra hne
        have hz1 : z ∈ x :: t1 := (hmem z).mpr (by simp)
        have hzt : z ∈ t1 := by
          rcases List.mem_cons.mp hz1 with h | h
          · exact absurd h.symm hne
          · exact h
        have hb : Before (z :: t2) x z := hord x z (Before_head x z t1 hzt)
        exact absurd (Before_y_mem_tail hb) (List.nodup_cons.mp hnd2).1
      subst hxz
      have hrec : t1 = t2 := by
        refine list_order_eq t1 t2 (List.nodup_cons.mp hnd1).2
          (List.nodup_cons.mp hnd2).2 ?_ ?_
        · intro w
          constructor
          · intro hw
            have h2 : w ∈ x :: t2 := (hmem w).mp (List.mem_cons_of_mem _ hw)
            rcases List.mem_cons.mp h2 with rfl | h3
            · exact absurd hw (List.nodup_cons.mp hnd1).1
            · exact h3
          · intro hw
            have h2 : w ∈ x :: t1 := (hmem w).mpr (List.mem_cons_of_mem _ hw)
            rcases List.mem_cons.mp h2 with rfl | h3
            · exact absurd hw (List.nodup_cons.mp hnd2).1
            · exact h3
        · intro a b hab
          have h1 : Before (x :: t1) a b := Before_prepend [x] hab
          have h2 := hord a b h1
          refine Before_strip h2 ?_
          intro he
          subst he
          exact (List.nodup_cons.mp hnd1).1 (Before_mem_left hab)
      rw [hrec]

/-! ### Priority-class algebra of the queue sort -/

theorem filter_qclasses_eq (tm : Assoc Task) (X : List String) (k : Int)
    (hk1 : 1 ≤ k) (hk4 : k ≤ 4) :
    (qclasses tm X).filter (fun i => decide (qweight tm i = k)) =
      X.filter (fun i => decide (qweight tm i = k)) := by
  have hdisj : ∀ (j : Int), j ≠ k →
      (X.filter (fun i => decide (qweight tm i = j))).filter
        (fun i => decide (qweight tm i = k)) = [] := by
    intro j hj
    refine List.filter_eq_nil_iff.mpr ?_
    intro a ha
    have h2 := (List.mem_filter.mp ha).2
    simp only [decide_eq_true_eq] at h2 ⊢
    rw [h2]
    exact hj
  have hle : (X.filter (fun i => decide (qweight tm i ≤ 0))).filter
      (fun i => decide (qweight tm i = k)) = [] := by
    refine List.filter_eq_nil_iff.mpr ?_
    intro a ha
    have h2 := (List.mem_filter.mp ha).2
    simp only [decide_eq_true_eq] at h2 ⊢
    omega
  have hself : (X.filter (fun i => decide (qweight tm i = k))).filter
      (fun i => decide (qweight tm i = k)) =
      X.filter (fun i => decide (qweight tm i = k)) := by
    refine List.filter_eq_self.mpr ?_
    intro a ha
    exact (List.mem_filter.mp ha).2
  interval_cases k
  · simp only [qclasses, List.filter_append]
    rw [hdisj 4 (by norm_num), hdisj 3 (by norm_num), hdisj 2 (by norm_num),
      hself, hle]
    simp
  · simp only [qclasses, List.filter_append]
    rw [hdisj 4 (by norm_num), hdisj 3 (by norm_num), hself,
      hdisj 1 (by norm_num), hle]
    simp
  · simp only [qclasses, List.filter_append]
    rw [hdisj 4 (by norm_num), hself, hdisj 2 (by norm_num),
      hdisj 1 (by norm_num), hle]
    simp
  · simp only [qclasses, List.filter_append]
    rw [hself, hdisj 3 (by norm_num), hdisj 2 (by norm_num),
      hdisj 1 (by norm_num), hle]
    simp

theorem filter_qclasses_le0 (tm : Assoc Task) (X : List String) :
    (qclasses tm X).filter (fun i => decide (qweight tm i ≤ 0)) =
      X.filter (fun i => decide (qweight tm i ≤ 0)) := by
  have hdisj : ∀ (j : Int), 1 ≤ j →
      (X.filter (fun i => decide (qweight tm i = j))).filter
        (fun i => decide (qweight tm i ≤ 0)) = [] := by
    intro j hj
    refine List.filter_eq_nil_iff.mpr ?_
    intro a ha
    have h2 := (List.mem_filter.mp ha).2
    simp only [decide_eq_true_eq] at h2 ⊢
    omega
  have hself : (X.filter (fun i => decide (qweight tm i ≤ 0))).filter
      (fun i => decide (qweight tm i ≤ 0)) =
      X.filter (fun i => decide (qweight tm i ≤ 0)) := by
    refine List.filter_eq_self.mpr ?_
    intro a ha
    exact (List.mem_filter.mp ha).2
  simp only [qclasses, List.filter_append]
  rw [hdisj 4 (by norm_num), hdisj 3 (by norm_num), hdisj 2 (by norm_num),
    hdisj 1 (by norm_num), hself]
  simp

theorem qclasses_congr_filters (tm : Assoc Task) {l1 l2 : List String}
    (h4 : l1.filter (fun i => decide (qweight tm i = 4)) =
      l2.filter (fun i => decide (qweight tm i = 4)))
    (h3 : l1.filter (fun i => decide (qweight tm i = 3)) =
      l2.filter (fun i => decide (qweight tm i = 3)))
    (h2 : l1.filter (fun i => decide (qweight tm i = 2)) =
      l2.filter (fun i => decide (qweight tm i = 2)))
    (h1 : l1.filter (fun i => decide (qweight tm i = 1)) =
      l2.filter (fun i => decide (qweight tm i = 1)))
    (h0 : l1.filter (fun i => decide (qweight tm i ≤ 0)) =
      l2.filter (fun i => decide (qweight tm i ≤ 0))) :
    qclasses tm l1 = qclasses tm l2 := by
  simp only [qclasses]
  rw [h4, h3, h2, h1, h0]

theorem qclasses_collapse (tm : Assoc Task) (X Y : List String) :
    qclasses tm (qclasses tm X ++ Y) = qclasses tm (X ++ Y) := by
  refine qclasses_congr_filters tm ?_ ?_ ?_ ?_ ?_
  · rw [List.filter_append, List.filter_append,
      filter_qclasses_eq tm X 4 (by norm_num) (by norm_num)]
  · rw [List.filter_append, List.filter_append,
      filter_qclasses_eq tm X 3 (by norm_num) (by norm_num)]
  · rw [List.filter_append, List.filter_append,
      filter_qclasses_eq tm X 2 (by norm_num) (by norm_num)]
  · rw [List.filter_append, List.filter_append,
      filter_qclasses_eq tm X 1 (by norm_num) (by norm_num)]
  · rw [List.filter_append, List.filter_append, filter_qclasses_le0 tm X]

theorem qclasses_congr_weights (tm1 tm2 : Assoc Task) (l : List String)
    (h : ∀ i ∈ l, qweight tm2 i = qweight tm1 i) :
    qclasses tm2 l = qclasses tm1 l := by
  have e4 : l.filter (fun i => decide (qweight tm2 i = 4)) =
      l.filter (fun i => decide (qweight tm1 i = 4)) :=
    List.filter_congr (fun i hi => by rw [h i hi])
  have e3 : l.filter (fun i => decide (qweight tm2 i = 3)) =
      l.filter (fun i => decide (qweight tm1 i = 3)) :=
    List.filter_congr (fun i hi => by rw [h i hi])
  have e2 : l.filter (fun i => decide (qweight tm2 i = 2)) =
      l.filter (fun i => decide (qweight tm1 i = 2)) :=
    List.filter_congr (fun i hi => by rw [h i hi])
  have e1 : l.filter (fun i => decide (qweight tm2 i = 1)) =
      l.filter (fun i => decide (qweight tm1 i = 1)) :=
    List.filter_congr (fun i hi => by rw [h i hi])
  have e0 : l.filter (fun i => decide (qweight tm2 i ≤ 0)) =
      l.filter (fun i => decide (qweight tm1 i ≤ 0)) :=
    List.filter_congr (fun i hi => by rw [h i hi])
  simp only [qclasses]
  rw [e4, e3, e2, e1, e0]

theorem Before_qclasses (tm : Assoc Task) {l : List String} {x y : String}
    (h : Before l x y) (hw : qweight tm x = qweight tm y) :
    Before (qclasses tm l) x y := by
  simp only [qclasses]
  rcases qweight_cases tm x with hx | hx | hx | hx | hx
  · exact Before_extend _ (Before_filter _ h (by simp [hx]) (by simp [← hw, hx]))
  · exact Before_prepend _
      (Before_extend _ (Before_filter _ h (by simp [hx]) (by simp [← hw, hx])))
  · exact Before_prepend _ (Before_prepend _
      (Before_extend _ (Before_filter _ h (by simp [hx]) (by simp [← hw, hx]))))
  · exact Before_prepend _ (Before_prepend _ (Before_prepend _
      (Before_extend _
        (Before_filter _ h (by simp [hx]) (by simp [← hw, hx])))))
  · exact Before_prepend _ (Before_prepend _ (Before_prepend _
      (Before_prepend _
        (Before_filter _ h (by simp [hx]) (by simp [← hw, hx])))))

/-- Canonical form of the queue produced by a successor-release pass: either
no neighbor reached in-degree zero and the queue is untouched, or the queue
is the stable priority re-sort of the old queue followed by the newly-ready
neighbors in release order. -/
theorem release_order (tm : Assoc Task) :
    ∀ (E : List String) (deg : Assoc Int) (q : List String), E.Nodup →
      (release tm E deg q).2 =
        (if E.filter (fun j => (mget deg j).getD 0 = 1) = [] then q
         else qclasses tm (q ++ E.filter (fun j => (mget deg j).getD 0 = 1)))
  | [], deg, q, _ => by simp [release]
  | nb :: E', deg, q, hnd => by
    have hnb : nb ∉ E' := (List.nodup_cons.mp hnd).1
    have hnd' : E'.Nodup := (List.nodup_cons.mp hnd).2
    have hfe : E'.filter
        (fun j => (mget (mset deg nb ((mget deg nb).getD 0 - 1)) j).getD 0 = 1) =
        E'.filter (fun j => (mget deg j).getD 0 = 1) :=
      List.filter_congr (fun j hj => by
        rw [mget_mset_ne _ _ _ _ (fun he : j = nb => hnb (he ▸ hj))])
    by_cases hone : (mget deg nb).getD 0 = 1
    · have hd0 : (mget deg nb).getD 0 - 1 = 0 := by omega
      have hrec := release_order tm E'
        (mset deg nb ((mget deg nb).getD 0 - 1)) (qsort tm (q ++ [nb])) hnd'
      rw [hfe] at hrec
      simp only [release]
      rw [if_pos hd0, hrec]
      have hcons : (nb :: E').filter (fun j => (mget deg j).getD 0 = 1) =
          nb :: E'.filter (fun j => (mget deg j).getD 0 = 1) := by
        rw [List.filter_cons_of_pos (by simp [hone])]
      rw [hcons]
      by_cases hfe2 : E'.filter (fun j => (mget deg j).getD 0 = 1) = []
      · rw [if_pos hfe2, hfe2]
        rw [if_neg (List.cons_ne_nil nb []), qsort_eq_qclasses]
      · rw [if_neg hfe2, if_neg (List.cons_ne_nil nb _)]
        rw [qsort_eq_qclasses, qclasses_collapse]
        rw [List.append_assoc]
        rfl
    · have hd0 : ¬ ((mget deg nb).getD 0 - 1 = 0) := by omega
      have hrec := release_order tm E'
        (mset deg nb ((mget deg nb).getD 0 - 1)) q hnd'
      rw [hfe] at hrec
      simp only [release]
      rw [if_neg hd0, hrec]
      have hcons : (nb :: E').filter (fun j => (mget deg j).getD 0 = 1) =
          E'.filter (fun j => (mget deg j).getD 0 = 1) := by
        rw [List.filter_cons_of_neg (by simp [hone])]
      rw [hcons]

/-! ### Step-level fixed point -/

theorem depFloorAux_congr (tm1 tm2 : Assoc Task) :
    ∀ (ds : List String) (acc : Int), (∀ d ∈ ds, mget tm2 d = mget tm1 d) →
      depFloorAux tm2 ds acc = depFloorAux tm1 ds acc
  | [], _, _ => rfl
  | d :: ds, acc, h => by
    simp only [depFloorAux]
    rw [h d (by simp)]
    exact depFloorAux_congr tm1 tm2 ds _ (fun d2 hd2 => h d2 (by simp [hd2]))

theorem depFloor_congr (P : Project) (tm1 tm2 : Assoc Task) (t t2 : Task)
    (hd : depsOf t2 = depsOf t)
    (h : ∀ d ∈ depsOf t, mget tm2 d = mget tm1 d) :
    depFloor P tm2 t2 = depFloor P tm1 t := by
  unfold depFloor
  rw [hd]
  exact depFloorAux_congr tm1 tm2 (depsOf t) P.startDate h

theorem step_assignedTo (P : Project) (U : List User) (tm : Assoc Task)
    (avail : Assoc Int) (cf : List String) (t : Task) :
    (step P U tm avail cf t).1.assignedTo =
      (chooseUser U avail cf (depFloor P tm t) t).1 := by
  cases h : (chooseUser U avail cf (depFloor P tm t) t).1 with
  | none => simp [step, h, chooseUser_none_assignedTo h]
  | some u => simp [step, h]

theorem chooseUser_idem (U : List User) (avail : Assoc Int)
    (cf1 cf2 : List String) (floor : Int) (t t2 : Task)
    (hspec : t2.requiredSpecialty = t.requiredSpecialty)
    (hass : t2.assignedTo = (chooseUser U avail cf1 floor t).1) :
    (chooseUser U avail cf2 floor t2).1 = t2.assignedTo := by
  unfold chooseUser
  rw [hspec]
  cases hs : t.requiredSpecialty with
  | none => rfl
  | some spec =>
    cases husort : usort avail (U.filter (satisfies spec)) with
    | nil => simp [husort]
    | cons best bs =>
      unfold chooseUser at hass
      rw [hs] at hass
      simp only [husort] at hass
      simp only [husort]
      cases ha : t.assignedTo with
      | none =>
        rw [ha] at hass
        simp at hass
        rw [hass]
        simp
      | some a =>
        rw [ha] at hass
        have hass3 : t2.assignedTo =
            (if (((List.filter (satisfies spec) U).find?
                  (fun c : User => c.id == a)).isSome &&
                decide ((mget avail a).getD 0 ≤ floor)) = true
              then ((some a : Option String), cf1)
              else (some best.id, cf1)).1 := hass
        by_cases hk1 : (((List.filter (satisfies spec) U).find?
            (fun c : User => c.id == a)).isSome &&
            decide ((mget avail a).getD 0 ≤ floor)) = true
        · rw [if_pos hk1] at hass3
          have hass2 : t2.assignedTo = some a := hass3
          have hgoal : (if (((List.filter (satisfies spec) U).find?
                (fun c : User => c.id == a)).isSome &&
                decide ((mget avail a).getD 0 ≤ floor)) = true
              then ((some a : Option String), cf2)
              else (some best.id, cf2)).1 = some a := by
            rw [if_pos hk1]
          rw [hass2]
          exact hgoal
        · rw [if_neg hk1] at hass3
          have hass2 : t2.assignedTo = some best.id := hass3
          rw [hass2]
          simp

theorem step_idem (P : Project) (U : List User) (tm1 tm2 : Assoc Task)
    (avail : Assoc Int) (cf1 cf2 : List String) (t : Task)
    (hfloor : depFloor P tm2 (step P U tm1 avail cf1 t).1 =
      depFloor P tm1 t) :
    (step P U tm2 avail cf2 (step P U tm1 avail cf1 t).1).1 =
        (step P U tm1 avail cf1 t).1 ∧
    (step P U tm2 avail cf2 (step P U tm1 avail cf1 t).1).2.1 =
        (step P U tm1 avail cf1 t).2.1 := by
  have hspec : (step P U tm1 avail cf1 t).1.requiredSpecialty =
      t.requiredSpecialty := by rw [step_clone]
  have hdur : (step P U tm1 avail cf1 t).1.duration = t.duration := by
    rw [step_clone]
  have hass := step_assignedTo P U tm1 avail cf1 t
  have hchoice := chooseUser_idem U avail cf1 cf2 (depFloor P tm1 t) t
    (step P U tm1 avail cf1 t).1 hspec hass
  rcases step_assign P U tm1 avail cf1 t with
    ⟨u, hu, hstart, havail⟩ | ⟨hnone, hstart, havail⟩
  · have hch2 : (chooseUser U avail cf2
        (depFloor P tm2 (step P U tm1 avail cf1 t).1)
        (step P U tm1 avail cf1 t).1).1 = some u := by
      rw [hfloor, hchoice, hu]
    constructor
    · generalize hT : (step P U tm1 avail cf1 t).1 = T at hch2 hfloor hu hstart
      simp only [step, hch2]
      rw [hfloor, ← hstart, ← hu]
    · rw [havail]
      generalize hT : (step P U tm1 avail cf1 t).1 = T at hch2 hfloor hu hstart hdur ⊢
      simp only [step, hch2]
      rw [hfloor, ← hstart, hdur]
  · have hch2 : (chooseUser U avail cf2
        (depFloor P tm2 (step P U tm1 avail cf1 t).1)
        (step P U tm1 avail cf1 t).1).1 = none := by
      rw [hfloor, hchoice, hnone]
    constructor
    · generalize hT : (step P U tm1 avail cf1 t).1 = T at hch2 hfloor hstart
      simp only [step, hch2]
      rw [hfloor, ← hstart]
    · rw [havail]
      generalize hT : (step P U tm1 avail cf1 t).1 = T at hch2 hfloor ⊢
      simp only [step, hch2]

/-! ### Emission-order (FIFO within a priority class) -/

theorem processLoop_cons (P : Project) (U : List User) (fuel : Nat)
    (s : LoopState) (h : ¬ s.queue.isEmpty) :
    processLoop P U (fuel + 1) s = processLoop P U fuel (stepState P U s) := by
  simp only [processLoop]
  rw [if_neg h]

theorem processLoop_empty_queue (P : Project) (U : List User) :
    ∀ (fuel : Nat) (s : LoopState), s.queue = [] → processLoop P U fuel s = s
  | 0, _, _ => rfl
  | fuel + 1, s, h => by
    simp only [processLoop]
    rw [if_pos (by rw [h]; rfl)]

theorem stepState_opt_extend (P : Project) (U : List User) (s : LoopState) :
    ∃ app, (stepState P U s).optimizedTasks = s.optimizedTasks ++ app := by
  cases hq : s.queue with
  | nil => exact ⟨[], by simp [stepState, hq]⟩
  | cons i rest =>
    cases hm : mget s.taskMap i with
    | none => exact ⟨[], by simp [stepState, hq, hm]⟩
    | some t =>
      exact ⟨[(step P U s.taskMap s.avail s.conflicts t).1],
        by simp [stepState, hq, hm]⟩

theorem processLoop_prefix (P : Project) (U : List User) :
    ∀ (fuel : Nat) (s : LoopState),
      ∃ suf, (processLoop P U fuel s).optimizedTasks =
        s.optimizedTasks ++ suf
  | 0, s => ⟨[], by simp [processLoop]⟩
  | fuel + 1, s => by
    by_cases h : s.queue.isEmpty
    · exact ⟨[], by simp only [processLoop]; rw [if_pos h]; simp⟩
    · obtain ⟨suf, hsuf⟩ := processLoop_prefix P U fuel (stepState P U s)
      obtain ⟨app, happ⟩ := stepState_opt_extend P U s
      refine ⟨app ++ suf, ?_⟩
      rw [processLoop_cons P U fuel s h, hsuf, happ, List.append_assoc]

theorem Future_cons (P : Project) (U : List User) (fuel : Nat)
    (s : LoopState) (i : String) (rest : List String) (t : Task)
    (hq : s.queue = i :: rest) (hm : mget s.taskMap i = some t)
    (hid : t.id = i) :
    Future P U (fuel + 1) s = i :: Future P U fuel (stepState P U s) := by
  have hne : ¬ s.queue.isEmpty := by rw [hq]; simp
  have hopt : (stepState P U s).optimizedTasks =
      s.optimizedTasks ++ [(step P U s.taskMap s.avail s.conflicts t).1] := by
    simp [stepState, hq, hm]
  have h1 : taskIds [(step P U s.taskMap s.avail s.conflicts t).1] = [i] := by
    simp only [taskIds, List.map]
    rw [step_clone]
    simp [hid]
  unfold Future
  rw [processLoop_cons P U fuel s hne]
  obtain ⟨suf, hsuf⟩ := processLoop_prefix P U fuel (stepState P U s)
  rw [hsuf, hopt, taskIds_append, taskIds_append, h1, List.drop_left,
    List.append_assoc, List.drop_left]
  rfl

theorem qweight_mset_ne (tm : Assoc Task) (i j : String) (v : Task)
    (h : j ≠ i) : qweight (mset tm i v) j = qweight tm j := by
  unfold qweight
  rw [mget_mset_ne _ _ _ _ h]

theorem Before_nil_elim {x y : String} (h : Before [] x y) : False := by
  obtain ⟨a, b, c, he⟩ := h
  have := congrArg List.length he
  simp at this
  omega

theorem popAll (P : Project) (U : List User) (ts : List Task)
    (hnodup : (taskIds ts).Nodup) (hdeps : ∀ t ∈ ts, (depsOf t).Nodup) :
    ∀ (fuel : Nat) (s : LoopState), GraphInv P ts s →
      (processLoop P U fuel s).queue = [] →
      ∀ x ∈ s.queue, x ∈ Future P U fuel s
  | 0, s, _, hq, x, hx => by
    have h0 : processLoop P U 0 s = s := rfl
    rw [h0] at hq
    rw [hq] at hx
    simp at hx
  | fuel + 1, s, hinv, hq, x, hx => by
    cases hqs : s.queue with
    | nil =>
      rw [hqs] at hx
      simp at hx
    | cons i rest =>
      have hinv' := hinv
      obtain ⟨hout, hproc, hunproc, hdnodup, hdsub, hdeg, hqmem, hqnodup,
        hpz, hdone⟩ := hinv'
      obtain ⟨t, ht, htid, hnd, hzero⟩ := (hqmem i).mp (by rw [hqs]; simp)
      have hm : mget s.taskMap i = some t := by
        rw [← htid]
        exact hunproc t ht (htid ▸ hnd)
      have hFut := Future_cons P U fuel s i rest t hqs hm htid
      have hne : ¬ s.queue.isEmpty := by rw [hqs]; simp
      have hloop := processLoop_cons P U fuel s hne
      rw [hloop] at hq
      rw [hFut]
      rw [hqs] at hx
      rw [hqs] at hqnodup
      rcases List.mem_cons.mp hx with rfl | hx2
      · exact List.mem_cons_self _ _
      · obtain ⟨t3, ht3, hid3, hnd3, hpu3⟩ := (hqmem x).mp
          (by rw [hqs]; exact List.mem_cons_of_mem _ hx2)
        have hxi : x ≠ i := by
          intro he
          subst he
          exact (List.nodup_cons.mp hqnodup).1 hx2
        have hinv2 := stepState_graphInv P U ts hnodup hdeps s hinv
        have hinv2' := hinv2
        obtain ⟨-, -, -, -, -, -, hqmem2, -, -, -⟩ := hinv2'
        have hopt : (stepState P U s).optimizedTasks = s.optimizedTasks ++
            [(step P U s.taskMap s.avail s.conflicts t).1] := by
          simp [stepState, hqs, hm]
        have hstid : (step P U s.taskMap s.avail s.conflicts t).1.id = i := by
          rw [step_clone]
          exact htid
        have hdids2 : taskIds (stepState P U s).optimizedTasks =
            taskIds s.optimizedTasks ++ [i] := by
          rw [hopt, taskIds_append]
          simp [taskIds, hstid]
        have hx2mem : x ∈ (stepState P U s).queue := by
          refine (hqmem2 x).mpr ⟨t3, ht3, hid3, ?_, ?_⟩
          · rw [hdids2]
            intro hc
            rcases List.mem_append.mp hc with hc | hc
            · exact hnd3 hc
            · simp at hc
              exact hxi hc
          · rw [hdids2]
            have := @presentUnmet_mono ts (taskIds s.optimizedTasks)
              (taskIds s.optimizedTasks ++ [i])
              (fun z hz => List.mem_append.mpr (Or.inl hz)) t3
            omega
        exact List.mem_cons_of_mem _
          (popAll P U ts hnodup hdeps fuel (stepState P U s) hinv2 hq x hx2mem)

theorem fifo (P : Project) (U : List User) (ts : List Task)
    (hnodup : (taskIds ts).Nodup) (hdeps : ∀ t ∈ ts, (depsOf t).Nodup) :
    ∀ (fuel : Nat) (s : LoopState), GraphInv P ts s →
      (processLoop P U fuel s).queue = [] →
      ∀ x y : String, qweight s.taskMap x = qweight s.taskMap y →
      Before s.queue x y → Before (Future P U fuel s) x y
  | 0, s, _, hq, x, y, _, hb => by
    have h0 : processLoop P U 0 s = s := rfl
    rw [h0] at hq
    rw [hq] at hb
    exact absurd hb (fun h => Before_nil_elim h)
  | fuel + 1, s, hinv, hq, x, y, hw, hb => by
    cases hqs : s.queue with
    | nil =>
      rw [hqs] at hb
      exact absurd hb (fun h => Before_nil_elim h)
    | cons i rest =>
      have hinv' := hinv
      obtain ⟨hout, hproc, hunproc, hdnodup, hdsub, hdeg, hqmem, hqnodup,
        hpz, hdone⟩ := hinv'
      obtain ⟨t, ht, htid, hnd, hzero⟩ := (hqmem i).mp (by rw [hqs]; simp)
      have hm : mget s.taskMap i = some t := by
        rw [← htid]
        exact hunproc t ht (htid ▸ hnd)
      have hFut := Future_cons P U fuel s i rest t hqs hm htid
      have hne : ¬ s.queue.isEmpty := by rw [hqs]; simp
      have hloop := processLoop_cons P U fuel s hne
      rw [hloop] at hq
      rw [hFut]
      rw [hqs] at hb
      rw [hqs] at hqnodup
      have hinv2 := stepState_graphInv P U ts hnodup hdeps s hinv
      by_cases hxi : x = i
      · subst hxi
        have hymem : y ∈ rest := Before_y_mem_tail hb
        have hinv2' := hinv2
        obtain ⟨-, -, -, -, -, -, hqmem2, -, -, -⟩ := hinv2'
        obtain ⟨t3, ht3, hid3, hnd3, hpu3⟩ := (hqmem y).mp
          (by rw [hqs]; exact List.mem_cons_of_mem _ hymem)
        have hyi : y ≠ x := by
          intro he
          subst he
          exact (List.nodup_cons.mp hqnodup).1 hymem
        have hopt : (stepState P U s).optimizedTasks = s.optimizedTasks ++
            [(step P U s.taskMap s.avail s.conflicts t).1] := by
          simp [stepState, hqs, hm]
        have hstid : (step P U s.taskMap s.avail s.conflicts t).1.id = x := by
          rw [step_clone]
          exact htid
        have hdids2 : taskIds (stepState P U s).optimizedTasks =
            taskIds s.optimizedTasks ++ [x] := by
          rw [hopt, taskIds_append]
          simp [taskIds, hstid]
        have hymem2 : y ∈ (stepState P U s).queue := by
          refine (hqmem2 y).mpr ⟨t3, ht3, hid3, ?_, ?_⟩
          · rw [hdids2]
            intro hc
            rcases List.mem_append.mp hc with hc | hc
            · exact hnd3 hc
            · simp at hc
              exact hyi hc
          · rw [hdids2]
            have := @presentUnmet_mono ts (taskIds s.optimizedTasks)
              (taskIds s.optimizedTasks ++ [x])
              (fun z hz => List.mem_append.mpr (Or.inl hz)) t3
            omega
        exact Before_head _ _ _
          (popAll P U ts hnodup hdeps fuel (stepState P U s) hinv2 hq y hymem2)
      · have hbrest : Before rest x y := Before_strip hb hxi
        have hyi : y ≠ i := by
          intro he
          subst he
          exact (List.nodup_cons.mp hqnodup).1 (Before_mem_right hbrest)
        have hE : (mget s.out i).getD [] = succList ts i := by
          rw [← htid, hout t ht]
          rfl
        have hEnodup : (succList ts i).Nodup := succList_nodup hnodup i
        have hsq : (stepState P U s).queue =
            (release (mset s.taskMap i
                (step P U s.taskMap s.avail s.conflicts t).1)
              (succList ts i) s.deg rest).2 := by
          simp only [stepState, hqs, hm]
          rw [hE]
        rw [release_order _ _ _ _ hEnodup] at hsq
        have hbq2 : Before (stepState P U s).queue x y := by
          rw [hsq]
          by_cases hp : (succList ts i).filter
              (fun j => (mget s.deg j).getD 0 = 1) = []
          · rw [if_pos hp]
            exact hbrest
          · rw [if_neg hp]
            refine Before_qclasses _ (Before_extend _ hbrest) ?_
            rw [qweight_mset_ne _ _ _ _ hxi, qweight_mset_ne _ _ _ _ hyi]
            exact hw
        have hw2 : qweight (stepState P U s).taskMap x =
            qweight (stepState P U s).taskMap y := by
          have htm2 : (stepState P U s).taskMap = mset s.taskMap i
              (step P U s.taskMap s.avail s.conflicts t).1 := by
            simp only [stepState, hqs, hm]
          rw [htm2, qweight_mset_ne _ _ _ _ hxi, qweight_mset_ne _ _ _ _ hyi]
          exact hw
        exact Before_prepend [i]
          (fifo P U ts hnodup hdeps fuel (stepState P U s) hinv2 hq x y hw2 hbq2)

/-- If a batch of newly-ready ids sits at the end of its priority class in
the next queue, its relative order is its future emission order; the same
ids listed in final-output order therefore coincide with the batch order,
class by class. -/
theorem filter_class_eq (P : Project) (U : List User) (ts O : List Task)
    (hnodup : (taskIds ts).Nodup) (hdeps : ∀ t ∈ ts, (depsOf t).Nodup)
    (fuel : Nat) (s' : LoopState) (hinv' : GraphInv P ts s')
    (hdrain : (processLoop P U fuel s').queue = [])
    (q0 p1 p2 : List String) (pred : String → Bool)
    (hq' : s'.queue = qclasses s'.taskMap (q0 ++ p1))
    (hnd1 : p1.Nodup) (hnd2 : p2.Nodup) (hmem : ∀ j, j ∈ p1 ↔ j ∈ p2)
    (hwpred : ∀ x y : String, pred x = true → pred y = true →
      qweight s'.taskMap x = qweight s'.taskMap y)
    (hOsub : List.Sublist p2 (taskIds O)) (hOnd : (taskIds O).Nodup)
    (hOfut : ∀ x y : String, Before (Future P U fuel s') x y →
      Before (taskIds O) x y) :
    p1.filter pred = p2.filter pred := by
  refine list_order_eq _ _ (hnd1.filter _) (hnd2.filter _) ?_ ?_
  · intro j
    simp only [List.mem_filter]
    constructor
    · rintro ⟨h1, h2⟩
      exact ⟨(hmem j).mp h1, h2⟩
    · rintro ⟨h1, h2⟩
      exact ⟨(hmem j).mpr h1, h2⟩
  · intro x y hb
    have hx := List.mem_filter.mp (Before_mem_left hb)
    have hy := List.mem_filter.mp (Before_mem_right hb)
    have hxy : x ≠ y := Before_ne_of_nodup (hnd1.filter _) hb
    have hweq := hwpred x y hx.2 hy.2
    have hb1 : Before s'.queue x y := by
      rw [hq']
      exact Before_qclasses _
        (Before_prepend q0 (Before_sublist (List.filter_sublist p1) hb)) hweq
    have hfut := fifo P U ts hnodup hdeps fuel s' hinv' hdrain x y hweq hb1
    have hO : Before (taskIds O) x y := hOfut x y hfut
    have hx2 : x ∈ p2.filter pred := List.mem_filter.mpr ⟨(hmem x).mp hx.1, hx.2⟩
    have hy2 : y ∈ p2.filter pred := List.mem_filter.mpr ⟨(hmem y).mp hy.1, hy.2⟩
    rcases Before_total hx2 hy2 hxy with h | h
    · exact h
    · exact absurd (Before_sublist
        (List.Sublist.trans (List.filter_sublist p2) hOsub) h)
        (fun h2 => Before_asymm hOnd hO h2)

/-- One synchronized iteration: the lockstep relation between the first run
and the rerun on its output is preserved by the loop body. -/
theorem sim_step (P : Project) (U : List User) (ts O : List Task)
    (F : LoopState)
    (hnodup : (taskIds ts).Nodup) (hdeps : ∀ t ∈ ts, (depsOf t).Nodup)
    (hFinv : GraphInv P ts F) (hFq : F.queue = [])
    (hFO : F.optimizedTasks = O)
    (s1 s2 : LoopState) (hsim : Sim P U ts O F s1 s2)
    (hne : s1.queue ≠ []) :
    Sim P U ts O F (stepState P U s1) (stepState P U s2) := by
  obtain ⟨hinv1, hinv2, hqeq, haeq, hceq, hoeq, htm, hdom, m, hm⟩ := hsim
  have hF' := hFinv
  obtain ⟨-, -, -, hFnodupO, hFsub, -, -, -, -, hFdone⟩ := hF'
  rw [hFO] at hFnodupO hFsub hFdone
  have hOdeps : ∀ t2 ∈ O, (depsOf t2).Nodup := by
    intro t2 ht2
    obtain ⟨-, -, t, ht, -, hcl⟩ := hFdone t2 ht2
    have hde : depsOf t2 = depsOf t := by rw [hcl]; rfl
    rw [hde]
    exact hdeps t ht
  have hcloneOf : ∀ t2 ∈ O, ∀ t ∈ ts, t.id = t2.id →
      depsOf t2 = depsOf t ∧ t2.priority = t.priority := by
    intro t2 ht2 t ht hid
    obtain ⟨-, -, t', ht', hid', hcl⟩ := hFdone t2 ht2
    have he : t' = t := nodup_id_inj hnodup ht' ht (hid'.trans hid.symm)
    subst he
    exact ⟨by rw [hcl]; rfl, by rw [hcl]⟩
  have hpres : ∀ t2 ∈ O, ∀ d ∈ depsOf t2, (d ∈ taskIds ts ↔ d ∈ taskIds O) := by
    intro t2 ht2 d hd
    constructor
    · intro hdts
      obtain ⟨-, hdd, -⟩ := hFdone t2 ht2
      obtain ⟨d2, hd2, hd2id, -⟩ := hdd d hd hdts
      exact hd2id ▸ List.mem_map_of_mem _ hd2
    · intro h
      exact hFsub h
  have hpu_congr : ∀ t2 ∈ O, ∀ t ∈ ts, t.id = t2.id → ∀ dids : List String,
      presentUnmet O dids t2 = presentUnmet ts dids t := by
    intro t2 ht2 t ht hid dids
    have hde := (hcloneOf t2 ht2 t ht hid).1
    unfold presentUnmet
    refine congrArg List.length ?_
    rw [hde]
    refine List.filter_congr ?_
    intro d hd
    have hd2 : d ∈ depsOf t2 := by rw [hde]; exact hd
    have hiff := hpres t2 ht2 d hd2
    rw [decide_eq_decide.mpr hiff.symm]
  cases hqs : s1.queue with
  | nil => exact absurd hqs hne
  | cons i rest =>
    have hinv1' := hinv1
    obtain ⟨hout1, hproc1, hunproc1, hdnodup1, hdsub1, hdeg1, hqmem1,
      hqnodup1, hpz1, hdone1⟩ := hinv1'
    have hinv2' := hinv2
    obtain ⟨hout2, hproc2, hunproc2, hdnodup2, hdsub2, hdeg2, hqmem2,
      hqnodup2, hpz2, hdone2⟩ := hinv2'
    have hqs2 : s2.queue = i :: rest := by rw [hqeq, hqs]
    obtain ⟨t, ht, htid, hndone, hzero⟩ := (hqmem1 i).mp (by rw [hqs]; simp)
    obtain ⟨t2, ht2, ht2id, hndone2, hzero2⟩ :=
      (hqmem2 i).mp (by rw [hqs2]; simp)
    have hm1 : mget s1.taskMap i = some t := by
      rw [← htid]
      exact hunproc1 t ht (htid ▸ hndone)
    have hm2 : mget s2.taskMap i = some t2 := by
      rw [← ht2id]
      exact hunproc2 t2 ht2 (ht2id ▸ hndone2)
    have hiid : i ∈ taskIds ts := htid ▸ List.mem_map_of_mem _ ht
    have hiE : i ∉ succList ts i := by
      intro hmem
      obtain ⟨t4, ht4, hid4, hdep4⟩ := mem_succList_elim hmem
      have ht4t : t4 = t := nodup_id_inj hnodup ht4 ht (hid4.trans htid.symm)
      subst ht4t
      exact (presentUnmet_pos hdep4 hiid hndone).ne' hzero
    have hirest : i ∉ rest := by
      have hh := hqnodup1
      rw [hqs] at hh
      exact (List.nodup_cons.mp hh).1
    have hm0 : m ≠ 0 := by
      intro h
      subst h
      have he : s1 = F := hm
      rw [he, hFq] at hqs
      exact absurd hqs.symm (List.cons_ne_nil i rest)
    obtain ⟨m', rfl⟩ : ∃ m2, m = m2 + 1 := ⟨m - 1, by omega⟩
    have hne1 : ¬ s1.queue.isEmpty := by rw [hqs]; simp
    have hm' : processLoop P U m' (stepState P U s1) = F := by
      rw [← processLoop_cons P U m' s1 hne1]
      exact hm
    have hdrain' : (processLoop P U m' (stepState P U s1)).queue = [] := by
      rw [hm']
      exact hFq
    have hinv1n := stepState_graphInv P U ts hnodup hdeps s1 hinv1
    have hinv2n := stepState_graphInv P U O hFnodupO hOdeps s2 hinv2
    have hinv1n' := hinv1n
    obtain ⟨-, -, -, -, -, -, hqmem1n, -, -, -⟩ := hinv1n'
    have hopt1 : (stepState P U s1).optimizedTasks = s1.optimizedTasks ++
        [(step P U s1.taskMap s1.avail s1.conflicts t).1] := by
      simp [stepState, hqs, hm1]
    have hopt2 : (stepState P U s2).optimizedTasks = s2.optimizedTasks ++
        [(step P U s2.taskMap s2.avail s2.conflicts t2).1] := by
      simp [stepState, hqs2, hm2]
    have hstid : (step P U s1.taskMap s1.avail s1.conflicts t).1.id = i := by
      rw [step_clone]
      exact htid
    have hdids1n : taskIds (stepState P U s1).optimizedTasks =
        taskIds s1.optimizedTasks ++ [i] := by
      rw [hopt1, taskIds_append]
      simp [taskIds, hstid]
    have hstO : (step P U s1.taskMap s1.avail s1.conflicts t).1 ∈ O := by
      obtain ⟨suf, hsuf⟩ := processLoop_prefix P U m' (stepState P U s1)
      rw [hm', hFO] at hsuf
      rw [hsuf, hopt1]
      simp
    have hst_eq : (step P U s1.taskMap s1.avail s1.conflicts t).1 = t2 :=
      nodup_id_inj hFnodupO hstO ht2 (by rw [hstid, ht2id])
    have hdeps_t2_t : depsOf t2 = depsOf t := by
      rw [← hst_eq, step_clone]
      rfl
    have hfloor : depFloor P s2.taskMap t2 = depFloor P s1.taskMap t := by
      refine depFloor_congr P s1.taskMap s2.taskMap t t2 hdeps_t2_t ?_
      intro d hd
      by_cases hdts : d ∈ taskIds ts
      · exact htm d (presentUnmet_zero_elim hzero d hd hdts)
      · obtain ⟨h1, h2⟩ := hdom d hdts
        rw [h1, h2]
    have hST2a : step P U s2.taskMap s2.avail s2.conflicts t2 =
        step P U s2.taskMap s1.avail s2.conflicts t2 := by rw [haeq]
    have hIDE := step_idem P U s1.taskMap s2.taskMap s1.avail s1.conflicts
      s2.conflicts t (by rw [hst_eq]; exact hfloor)
    rw [hst_eq] at hIDE
    have hST2_1 : (step P U s2.taskMap s2.avail s2.conflicts t2).1 = t2 := by
      rw [hST2a]
      exact hIDE.1
    have hST2_avail : (step P U s2.taskMap s2.avail s2.conflicts t2).2.1 =
        (step P U s1.taskMap s1.avail s1.conflicts t).2.1 := by
      rw [hST2a]
      exact hIDE.2
    have hcfF : conflictFor U t2 = conflictFor U t := by
      rw [← hst_eq]
      exact conflictFor_step P U s1.taskMap s1.avail s1.conflicts t
    have c1tm : (stepState P U s1).taskMap = mset s1.taskMap i
        (step P U s1.taskMap s1.avail s1.conflicts t).1 := by
      simp only [stepState, hqs, hm1]
    have c2tm : (stepState P U s2).taskMap = mset s2.taskMap i
        (step P U s2.taskMap s2.avail s2.conflicts t2).1 := by
      simp only [stepState, hqs2, hm2]
    have c1tm2 : (stepState P U s1).taskMap = mset s1.taskMap i t2 := by
      rw [c1tm, hst_eq]
    have c2tm2 : (stepState P U s2).taskMap = mset s2.taskMap i t2 := by
      rw [c2tm, hST2_1]
    have hE1 : (mget s1.out i).getD [] = succList ts i := by
      rw [← htid, hout1 t ht]
      rfl
    have hE2 : (mget s2.out i).getD [] = succList O i := by
      rw [← ht2id, hout2 t2 ht2]
      rfl
    have hE1nodup : (succList ts i).Nodup := succList_nodup hnodup i
    have hE2nodup : (succList O i).Nodup := succList_nodup hFnodupO i
    have hq1c : (stepState P U s1).queue =
        (if (succList ts i).filter
            (fun j => (mget s1.deg j).getD 0 = 1) = [] then rest
         else qclasses (mset s1.taskMap i
            (step P U s1.taskMap s1.avail s1.conflicts t).1)
          (rest ++ (succList ts i).filter
            (fun j => (mget s1.deg j).getD 0 = 1))) := by
      have hh : (stepState P U s1).queue =
          (release (mset s1.taskMap i
              (step P U s1.taskMap s1.avail s1.conflicts t).1)
            (succList ts i) s1.deg rest).2 := by
        simp only [stepState, hqs, hm1]
        rw [hE1]
      rw [hh, release_order _ _ _ _ hE1nodup]
    have hq2c : (stepState P U s2).queue =
        (if (succList O i).filter
            (fun j => (mget s2.deg j).getD 0 = 1) = [] then rest
         else qclasses (mset s2.taskMap i
            (step P U s2.taskMap s2.avail s2.conflicts t2).1)
          (rest ++ (succList O i).filter
            (fun j => (mget s2.deg j).getD 0 = 1))) := by
      have hh : (stepState P U s2).queue =
          (release (mset s2.taskMap i
              (step P U s2.taskMap s2.avail s2.conflicts t2).1)
            (succList O i) s2.deg rest).2 := by
        simp only [stepState, hqs2, hm2]
        rw [hE2]
      rw [hh, release_order _ _ _ _ hE2nodup]
    have hp1fact : ∀ j ∈ (succList ts i).filter
        (fun j => (mget s1.deg j).getD 0 = 1),
        ∃ t3 ∈ ts, t3.id = j ∧ i ∈ depsOf t3 ∧
          presentUnmet ts (taskIds s1.optimizedTasks) t3 = 1 := by
      intro j hj
      obtain ⟨hjs, hjd⟩ := List.mem_filter.mp hj
      obtain ⟨t3, ht3, hid3, hdep3⟩ := mem_succList_elim hjs
      have hd := hdeg1 t3 ht3
      have hjd2 := of_decide_eq_true hjd
      rw [← hid3] at hjd2
      rw [hd] at hjd2
      simp at hjd2
      exact ⟨t3, ht3, hid3, hdep3, by exact_mod_cast hjd2⟩
    have hp2fact : ∀ j ∈ (succList O i).filter
        (fun j => (mget s2.deg j).getD 0 = 1),
        ∃ t4 ∈ O, t4.id = j ∧ i ∈ depsOf t4 ∧
          presentUnmet O (taskIds s2.optimizedTasks) t4 = 1 := by
      intro j hj
      obtain ⟨hjs, hjd⟩ := List.mem_filter.mp hj
      obtain ⟨t4, ht4, hid4, hdep4⟩ := mem_succList_elim hjs
      have hd := hdeg2 t4 ht4
      have hjd2 := of_decide_eq_true hjd
      rw [← hid4] at hjd2
      rw [hd] at hjd2
      simp at hjd2
      exact ⟨t4, ht4, hid4, hdep4, by exact_mod_cast hjd2⟩
    have hFutEq : Future P U m' (stepState P U s1) =
        (taskIds O).drop (taskIds (stepState P U s1).optimizedTasks).length := by
      unfold Future
      rw [hm', hFO]
    have hOfut : ∀ x y : String,
        Before (Future P U m' (stepState P U s1)) x y →
        Before (taskIds O) x y := by
      intro x y h
      rw [hFutEq] at h
      rw [← List.take_append_drop
        (taskIds (stepState P U s1).optimizedTasks).length (taskIds O)]
      exact Before_prepend _ h
    have hpm : ∀ j, j ∈ (succList ts i).filter
        (fun j => (mget s1.deg j).getD 0 = 1) ↔
        j ∈ (succList O i).filter (fun j => (mget s2.deg j).getD 0 = 1) := by
      intro j
      constructor
      · intro hj
        obtain ⟨t3, ht3, hid3, hdep3, hpu1⟩ := hp1fact j hj
        have hnd3 : t3.id ∉ taskIds s1.optimizedTasks := by
          intro hc
          rw [hpz1 t3 ht3 hc] at hpu1
          exact absurd hpu1 (by norm_num)
        have hji : j ≠ i := by
          intro he
          subst he
          exact hiE (List.mem_filter.mp hj).1
        have hins := (presentUnmet_insert (hdeps t3 ht3) hiid hndone).1 hdep3
        have hjq : j ∈ (stepState P U s1).queue := by
          refine (hqmem1n j).mpr ⟨t3, ht3, hid3, ?_, by rw [hdids1n]; omega⟩
          rw [hdids1n]
          intro hc
          rcases List.mem_append.mp hc with hc | hc
          · exact hnd3 (hid3 ▸ hc)
          · simp at hc
            exact hji hc
        have hjfut := popAll P U ts hnodup hdeps m' (stepState P U s1)
          hinv1n hdrain' j hjq
        rw [hFutEq] at hjfut
        have hjO : j ∈ taskIds O := List.mem_of_mem_drop hjfut
        obtain ⟨t4, ht4, hid4⟩ := List.mem_map.mp hjO
        have hide : t3.id = t4.id := by rw [hid3, hid4]
        have hcl := hcloneOf t4 ht4 t3 ht3 hide
        have hdep4 : i ∈ depsOf t4 := by
          rw [hcl.1]
          exact hdep3
        refine List.mem_filter.mpr ⟨?_, ?_⟩
        · rw [← hid4]
          exact (mem_succList_iff hFnodupO ht4).mpr hdep4
        · have hd := hdeg2 t4 ht4
          have hpu2 : presentUnmet O (taskIds s2.optimizedTasks) t4 = 1 := by
            rw [hpu_congr t4 ht4 t3 ht3 hide]
            rw [hoeq]
            exact hpu1
          rw [← hid4, hd, hpu2]
          simp
      · intro hj
        obtain ⟨t4, ht4, hid4, hdep4, hpu2⟩ := hp2fact j hj
        have hjO : j ∈ taskIds O := hid4 ▸ List.mem_map_of_mem _ ht4
        have hjts : j ∈ taskIds ts := hFsub hjO
        obtain ⟨t3, ht3, hid3⟩ := List.mem_map.mp hjts
        have hide : t3.id = t4.id := by rw [hid3, hid4]
        have hcl := hcloneOf t4 ht4 t3 ht3 hide
        have hdep3 : i ∈ depsOf t3 := by
          rw [← hcl.1]
          exact hdep4
        refine List.mem_filter.mpr ⟨?_, ?_⟩
        · rw [← hid3]
          exact (mem_succList_iff hnodup ht3).mpr hdep3
        · have hd := hdeg1 t3 ht3
          have hpu1 : presentUnmet ts (taskIds s1.optimizedTasks) t3 = 1 := by
            rw [← hpu_congr t4 ht4 t3 ht3 hide, ← hoeq]
            exact hpu2
          rw [← hid3, hd, hpu1]
          simp
    refine ⟨hinv1n, hinv2n, ?_, ?_, ?_, ?_, ?_, ?_, ⟨m', hm'⟩⟩
    · -- queues
      rw [hq1c, hq2c]
      by_cases hp1nil : (succList ts i).filter
          (fun j => (mget s1.deg j).getD 0 = 1) = []
      · have hp2nil : (succList O i).filter
            (fun j => (mget s2.deg j).getD 0 = 1) = [] := by
          refine List.eq_nil_iff_forall_not_mem.mpr ?_
          intro j hj
          exact List.eq_nil_iff_forall_not_mem.mp hp1nil j ((hpm j).mpr hj)
        rw [if_pos hp1nil, if_pos hp2nil]
      · have hp2nil : ¬ (succList O i).filter
            (fun j => (mget s2.deg j).getD 0 = 1) = [] := by
          intro h
          refine hp1nil (List.eq_nil_iff_forall_not_mem.mpr ?_)
          intro j hj
          exact List.eq_nil_iff_forall_not_mem.mp h j ((hpm j).mp hj)
        rw [if_neg hp1nil, if_neg hp2nil]
        rw [hST2_1, hst_eq, ← c1tm2]
        have hq1' : (stepState P U s1).queue =
            qclasses (stepState P U s1).taskMap
              (rest ++ (succList ts i).filter
                (fun j => (mget s1.deg j).getD 0 = 1)) := by
          rw [hq1c, if_neg hp1nil, hst_eq, ← c1tm2]
        have hwcong : ∀ j ∈ rest ++ (succList O i).filter
            (fun j => (mget s2.deg j).getD 0 = 1),
            qweight (mset s2.taskMap i t2) j =
              qweight (stepState P U s1).taskMap j := by
          rw [c1tm2]
          intro j hj
          by_cases hji : j = i
          · subst hji
            unfold qweight
            rw [mget_mset_self, mget_mset_self]
          · rw [qweight_mset_ne _ _ _ _ hji, qweight_mset_ne _ _ _ _ hji]
            rcases List.mem_append.mp hj with hjr | hjp
            · obtain ⟨t3, ht3, hid3, hnd3, -⟩ := (hqmem1 j).mp
                (by rw [hqs]; exact List.mem_cons_of_mem _ hjr)
              obtain ⟨t4, ht4, hid4, hnd4, -⟩ := (hqmem2 j).mp
                (by rw [hqs2]; exact List.mem_cons_of_mem _ hjr)
              have hg1 : mget s1.taskMap j = some t3 := by
                rw [← hid3]
                exact hunproc1 t3 ht3 (hid3 ▸ hnd3)
              have hg2 : mget s2.taskMap j = some t4 := by
                rw [← hid4]
                exact hunproc2 t4 ht4 (hid4 ▸ hnd4)
              have hide : t3.id = t4.id := by rw [hid3, hid4]
              simp only [qweight, hg1, hg2]
              rw [(hcloneOf t4 ht4 t3 ht3 hide).2]
            · obtain ⟨t4, ht4, hid4, hdep4, hpu2⟩ := hp2fact j hjp
              have hnd4 : t4.id ∉ taskIds s2.optimizedTasks := by
                intro hc
                rw [hpz2 t4 ht4 hc] at hpu2
                exact absurd hpu2 (by norm_num)
              have hg2 : mget s2.taskMap j = some t4 := by
                rw [← hid4]
                exact hunproc2 t4 ht4 hnd4
              have hjts : j ∈ taskIds ts :=
                hFsub (hid4 ▸ List.mem_map_of_mem _ ht4)
              obtain ⟨t3, ht3, hid3⟩ := List.mem_map.mp hjts
              have hide : t3.id = t4.id := by rw [hid3, hid4]
              have hpu1 : presentUnmet ts (taskIds s1.optimizedTasks) t3 = 1 := by
                rw [← hpu_congr t4 ht4 t3 ht3 hide, ← hoeq]
                exact hpu2
              have hnd3 : t3.id ∉ taskIds s1.optimizedTasks := by
                intro hc
                rw [hpz1 t3 ht3 hc] at hpu1
                exact absurd hpu1 (by norm_num)
              have hg1 : mget s1.taskMap j = some t3 := by
                rw [← hid3]
                exact hunproc1 t3 ht3 hnd3
              simp only [qweight, hg1, hg2]
              rw [(hcloneOf t4 ht4 t3 ht3 hide).2]
        rw [qclasses_congr_weights _ _ _ hwcong]
        have hOsub2 : List.Sublist ((succList O i).filter
            (fun j => (mget s2.deg j).getD 0 = 1)) (taskIds O) := by
          refine List.Sublist.trans (List.filter_sublist _) ?_
          simp only [succList, taskIds]
          exact (List.filter_sublist O).map (fun t => t.id)
        refine qclasses_congr_filters _ ?_ ?_ ?_ ?_ ?_ <;>
          rw [List.filter_append, List.filter_append]
        · rw [filter_class_eq P U ts O hnodup hdeps m' (stepState P U s1)
            hinv1n hdrain' rest _ _ _ hq1' (hE1nodup.filter _)
            (hE2nodup.filter _) hpm
            (fun x y hx hy => by
              rw [of_decide_eq_true hx, of_decide_eq_true hy])
            hOsub2 hFnodupO hOfut]
        · rw [filter_class_eq P U ts O hnodup hdeps m' (stepState P U s1)
            hinv1n hdrain' rest _ _ _ hq1' (hE1nodup.filter _)
            (hE2nodup.filter _) hpm
            (fun x y hx hy => by
              rw [of_decide_eq_true hx, of_decide_eq_true hy])
            hOsub2 hFnodupO hOfut]
        · rw [filter_class_eq P U ts O hnodup hdeps m' (stepState P U s1)
            hinv1n hdrain' rest _ _ _ hq1' (hE1nodup.filter _)
            (hE2nodup.filter _) hpm
            (fun x y hx hy => by
              rw [of_decide_eq_true hx, of_decide_eq_true hy])
            hOsub2 hFnodupO hOfut]
        · rw [filter_class_eq P U ts O hnodup hdeps m' (stepState P U s1)
            hinv1n hdrain' rest _ _ _ hq1' (hE1nodup.filter _)
            (hE2nodup.filter _) hpm
            (fun x y hx hy => by
              rw [of_decide_eq_true hx, of_decide_eq_true hy])
            hOsub2 hFnodupO hOfut]
        · rw [filter_class_eq P U ts O hnodup hdeps m' (stepState P U s1)
            hinv1n hdrain' rest _ _ _ hq1' (hE1nodup.filter _)
            (hE2nodup.filter _) hpm
            (fun x y hx hy => by
              have hx2 := of_decide_eq_true hx
              have hy2 := of_decide_eq_true hy
              rcases qweight_cases (stepState P U s1).taskMap x with
                h | h | h | h | h <;>
                rcases qweight_cases (stepState P U s1).taskMap y with
                  h2 | h2 | h2 | h2 | h2 <;> omega)
            hOsub2 hFnodupO hOfut]
    · -- avail
      have c1a : (stepState P U s1).avail =
          (step P U s1.taskMap s1.avail s1.conflicts t).2.1 := by
        simp only [stepState, hqs, hm1]
      have c2a : (stepState P U s2).avail =
          (step P U s2.taskMap s2.avail s2.conflicts t2).2.1 := by
        simp only [stepState, hqs2, hm2]
      rw [c1a, c2a, hST2_avail]
    · -- conflicts
      have c1c : (stepState P U s1).conflicts =
          (step P U s1.taskMap s1.avail s1.conflicts t).2.2 := by
        simp only [stepState, hqs, hm1]
      have c2c : (stepState P U s2).conflicts =
          (step P U s2.taskMap s2.avail s2.conflicts t2).2.2 := by
        simp only [stepState, hqs2, hm2]
      rw [c1c, c2c, step_conflicts, step_conflicts, hcfF, hceq]
    · -- optimizedTasks
      rw [hopt1, hopt2, hST2_1, hst_eq, hoeq]
    · -- task-map agreement on emitted ids
      intro j hj
      rw [hdids1n] at hj
      rw [c1tm2, c2tm2]
      rcases List.mem_append.mp hj with hj | hj
      · have hji : j ≠ i := by
          intro he
          exact hndone (he ▸ hj)
        rw [mget_mset_ne _ _ _ _ hji, mget_mset_ne _ _ _ _ hji]
        exact htm j hj
      · simp at hj
        subst hj
        rw [mget_mset_self, mget_mset_self]
    · -- empty off the input ids
      intro d hd
      have hdi : d ≠ i := by
        intro he
        subst he
        exact hd hiid
      rw [c1tm2, c2tm2, mget_mset_ne _ _ _ _ hdi, mget_mset_ne _ _ _ _ hdi]
      exact hdom d hd

theorem mem_qclasses {tm : Assoc Task} {l : List String} {j : String}
    (h : j ∈ l) : j ∈ qclasses tm l := by
  simp only [qclasses, List.mem_append, List.mem_filter]
  rcases qweight_cases tm j with hw | hw | hw | hw | hw
  · exact Or.inl ⟨h, by simp [hw]⟩
  · exact Or.inr (Or.inl ⟨h, by simp [hw]⟩)
  · exact Or.inr (Or.inr (Or.inl ⟨h, by simp [hw]⟩))
  · exact Or.inr (Or.inr (Or.inr (Or.inl ⟨h, by simp [hw]⟩)))
  · exact Or.inr (Or.inr (Or.inr (Or.inr ⟨h, by simp [hw]⟩)))

theorem filterMap_congr_tasks (l : List Task) (f g : Task → Option String)
    (h : ∀ t ∈ l, f t = g t) : l.filterMap f = l.filterMap g := by
  induction l with
  | nil => rfl
  | cons t l2 ih =>
    simp only [List.filterMap_cons, h t (by simp)]
    rw [ih (fun t2 ht2 => h t2 (by simp [ht2]))]

theorem filterMap_if_filter : ∀ (l : List Task) (q : Task → Bool),
    l.filterMap (fun t => if q t then some t.id else none) =
      taskIds (l.filter q)
  | [], _ => rfl
  | t :: l, q => by
    by_cases hq : q t
    · simp only [List.filterMap_cons, List.filter_cons, hq, if_true,
        taskIds, List.map]
      rw [filterMap_if_filter l q]
      rfl
    · simp only [List.filterMap_cons, List.filter_cons, hq,
        Bool.false_eq_true, if_false]
      rw [filterMap_if_filter l q]

theorem initState_queue (P : Project) (ts : List Task) (U : List User)
    (G : List Task) (today : Int) (hnodup : (taskIds ts).Nodup)
    (hdeps : ∀ t ∈ ts, (depsOf t).Nodup) :
    (initState P ts U G today).queue =
      qclasses (initState P ts U G today).taskMap
        (taskIds (ts.filter (fun t => decide (presentUnmet ts [] t = 0)))) := by
  have hgi := initState_graphInv P ts U G today hnodup hdeps
  obtain ⟨-, -, -, -, -, hdeg0, -, -, -, -⟩ := hgi
  have hdeg0' : ∀ t ∈ ts, mget (initState P ts U G today).deg t.id =
      some ((presentUnmet ts [] t : Int)) := hdeg0
  have hq0 : (initState P ts U G today).queue =
      qsort (initState P ts U G today).taskMap
        (ts.filterMap (fun t =>
          if (mget (initState P ts U G today).deg t.id).getD 0 = 0
          then some t.id else none)) := rfl
  have hc : ts.filterMap (fun t =>
        if (mget (initState P ts U G today).deg t.id).getD 0 = 0
        then some t.id else none) =
      ts.filterMap (fun t =>
        if decide (presentUnmet ts [] t = 0) then some t.id else none) := by
    refine filterMap_congr_tasks ts _ _ ?_
    intro t ht
    rw [hdeg0' t ht]
    by_cases hp : presentUnmet ts [] t = 0 <;> simp [hp]
  rw [hq0, hc, filterMap_if_filter, qsort_eq_qclasses]

/-- The lockstep relation holds between the two initial states: in
particular the initial ready queues coincide, because within each priority
class the first run pops the initially-ready ids in their input order, which
is therefore also their order in the first run's output. -/
theorem sim_init (P : Project) (U : List User) (G : List Task)
    (ts O : List Task) (F : LoopState) (today : Int)
    (hnodup : (taskIds ts).Nodup) (hdeps : ∀ t ∈ ts, (depsOf t).Nodup)
    (hFdef : processLoop P U (2 * ts.length + 1)
      (initState P ts U G today) = F)
    (hFinv : GraphInv P ts F) (hFq : F.queue = [])
    (hFO : F.optimizedTasks = O) :
    Sim P U ts O F (initState P ts U G today) (initState P O U G today) := by
  have hF' := hFinv
  obtain ⟨-, -, -, hFnodupO, hFsub, -, -, -, -, hFdone⟩ := hF'
  rw [hFO] at hFnodupO hFsub hFdone
  have hOdeps : ∀ t2 ∈ O, (depsOf t2).Nodup := by
    intro t2 ht2
    obtain ⟨-, -, t, ht, -, hcl⟩ := hFdone t2 ht2
    have hde : depsOf t2 = depsOf t := by rw [hcl]; rfl
    rw [hde]
    exact hdeps t ht
  have hcloneOf : ∀ t2 ∈ O, ∀ t ∈ ts, t.id = t2.id →
      depsOf t2 = depsOf t ∧ t2.priority = t.priority := by
    intro t2 ht2 t ht hid
    obtain ⟨-, -, t', ht', hid', hcl⟩ := hFdone t2 ht2
    have he : t' = t := nodup_id_inj hnodup ht' ht (hid'.trans hid.symm)
    subst he
    exact ⟨by rw [hcl]; rfl, by rw [hcl]⟩
  have hpres : ∀ t2 ∈ O, ∀ d ∈ depsOf t2, (d ∈ taskIds ts ↔ d ∈ taskIds O) := by
    intro t2 ht2 d hd
    constructor
    · intro hdts
      obtain ⟨-, hdd, -⟩ := hFdone t2 ht2
      obtain ⟨d2, hd2, hd2id, -⟩ := hdd d hd hdts
      exact hd2id ▸ List.mem_map_of_mem _ hd2
    · intro h
      exact hFsub h
  have hpu_congr : ∀ t2 ∈ O, ∀ t ∈ ts, t.id = t2.id → ∀ dids : List String,
      presentUnmet O dids t2 = presentUnmet ts dids t := by
    intro t2 ht2 t ht hid dids
    have hde := (hcloneOf t2 ht2 t ht hid).1
    unfold presentUnmet
    refine congrArg List.length ?_
    rw [hde]
    refine List.filter_congr ?_
    intro d hd
    have hd2 : d ∈ depsOf t2 := by rw [hde]; exact hd
    rw [decide_eq_decide.mpr (hpres t2 ht2 d hd2).symm]
  have hinv1 := initState_graphInv P ts U G today hnodup hdeps
  have hinv2 := initState_graphInv P O U G today hFnodupO hOdeps
  have hdrain : (processLoop P U (2 * ts.length + 1)
      (initState P ts U G today)).queue = [] := by
    rw [hFdef]
    exact hFq
  have hFutO : Future P U (2 * ts.length + 1)
      (initState P ts U G today) = taskIds O := by
    unfold Future
    rw [hFdef, hFO]
    rfl
  have hq1z := initState_queue P ts U G today hnodup hdeps
  have hq2z := initState_queue P O U G today hFnodupO hOdeps
  have hz1nd : (taskIds (ts.filter
      (fun t => decide (presentUnmet ts [] t = 0)))).Nodup := by
    refine hnodup.sublist ?_
    simp only [taskIds]
    exact (List.filter_sublist ts).map (fun t => t.id)
  have hz2nd : (taskIds (O.filter
      (fun t => decide (presentUnmet O [] t = 0)))).Nodup := by
    refine hFnodupO.sublist ?_
    simp only [taskIds]
    exact (List.filter_sublist O).map (fun t => t.id)
  have hpm : ∀ j, j ∈ taskIds (ts.filter
        (fun t => decide (presentUnmet ts [] t = 0))) ↔
      j ∈ taskIds (O.filter
        (fun t => decide (presentUnmet O [] t = 0))) := by
    intro j
    constructor
    · intro hj
      obtain ⟨t3, ht3f, hid3⟩ := List.mem_map.mp hj
      obtain ⟨ht3, hcond⟩ := List.mem_filter.mp ht3f
      have hpu3 : presentUnmet ts [] t3 = 0 := of_decide_eq_true hcond
      have hjq : j ∈ (initState P ts U G today).queue := by
        rw [hq1z]
        exact mem_qclasses hj
      have hjfut := popAll P U ts hnodup hdeps (2 * ts.length + 1)
        (initState P ts U G today) hinv1 hdrain j hjq
      rw [hFutO] at hjfut
      obtain ⟨t4, ht4, hid4⟩ := List.mem_map.mp hjfut
      have hide : t3.id = t4.id := by rw [hid3, hid4]
      have hpu4 : presentUnmet O [] t4 = 0 := by
        rw [hpu_congr t4 ht4 t3 ht3 hide]
        exact hpu3
      exact hid4 ▸ List.mem_map_of_mem _
        (List.mem_filter.mpr ⟨ht4, by simp [hpu4]⟩)
    · intro hj
      obtain ⟨t4, ht4f, hid4⟩ := List.mem_map.mp hj
      obtain ⟨ht4, hcond⟩ := List.mem_filter.mp ht4f
      have hpu4 : presentUnmet O [] t4 = 0 := of_decide_eq_true hcond
      have hjts : j ∈ taskIds ts := hFsub (hid4 ▸ List.mem_map_of_mem _ ht4)
      obtain ⟨t3, ht3, hid3⟩ := List.mem_map.mp hjts
      have hide : t3.id = t4.id := by rw [hid3, hid4]
      have hpu3 : presentUnmet ts [] t3 = 0 := by
        rw [← hpu_congr t4 ht4 t3 ht3 hide]
        exact hpu4
      exact hid3 ▸ List.mem_map_of_mem _
        (List.mem_filter.mpr ⟨ht3, by simp [hpu3]⟩)
  refine ⟨hinv1, hinv2, ?_, rfl, rfl, rfl, ?_, ?_,
    ⟨2 * ts.length + 1, hFdef⟩⟩
  · -- the initial queues coincide
    rw [hq1z, hq2z]
    have hwcong : ∀ j ∈ taskIds (O.filter
        (fun t => decide (presentUnmet O [] t = 0))),
        qweight (initState P O U G today).taskMap j =
          qweight (initState P ts U G today).taskMap j := by
      intro j hj
      obtain ⟨t4, ht4f, hid4⟩ := List.mem_map.mp hj
      have ht4 : t4 ∈ O := (List.mem_filter.mp ht4f).1
      have hjts : j ∈ taskIds ts := hFsub (hid4 ▸ List.mem_map_of_mem _ ht4)
      obtain ⟨t3, ht3, hid3⟩ := List.mem_map.mp hjts
      have hide : t3.id = t4.id := by rw [hid3, hid4]
      have hg2 : mget (initState P O U G today).taskMap j = some t4 := by
        rw [← hid4]
        exact buildMaps_tm_lookup hFnodupO t4 ht4
      have hg1 : mget (initState P ts U G today).taskMap j = some t3 := by
        rw [← hid3]
        exact buildMaps_tm_lookup hnodup t3 ht3
      simp only [qweight, hg1, hg2]
      rw [(hcloneOf t4 ht4 t3 ht3 hide).2]
    rw [qclasses_congr_weights _ _ _ hwcong]
    have hq1' : (initState P ts U G today).queue =
        qclasses (initState P ts U G today).taskMap
          ([] ++ taskIds (ts.filter
            (fun t => decide (presentUnmet ts [] t = 0)))) := by
      rw [hq1z, List.nil_append]
    have hOsub2 : List.Sublist (taskIds (O.filter
        (fun t => decide (presentUnmet O [] t = 0)))) (taskIds O) := by
      simp only [taskIds]
      exact (List.filter_sublist O).map (fun t => t.id)
    have hOfut : ∀ x y : String,
        Before (Future P U (2 * ts.length + 1)
          (initState P ts U G today)) x y →
        Before (taskIds O) x y := by
      intro x y h
      rw [hFutO] at h
      exact h
    refine qclasses_congr_filters _ ?_ ?_ ?_ ?_ ?_
    · exact (filter_class_eq P U ts O hnodup hdeps (2 * ts.length + 1)
        (initState P ts U G today) hinv1 hdrain [] _ _ _ hq1' hz1nd hz2nd hpm
        (fun x y hx hy => by
          rw [of_decide_eq_true hx, of_decide_eq_true hy])
        hOsub2 hFnodupO hOfut).symm
    · exact (filter_class_eq P U ts O hnodup hdeps (2 * ts.length + 1)
        (initState P ts U G today) hinv1 hdrain [] _ _ _ hq1' hz1nd hz2nd hpm
        (fun x y hx hy => by
          rw [of_decide_eq_true hx, of_decide_eq_true hy])
        hOsub2 hFnodupO hOfut).symm
    · exact (filter_class_eq P U ts O hnodup hdeps (2 * ts.length + 1)
        (initState P ts U G today) hinv1 hdrain [] _ _ _ hq1' hz1nd hz2nd hpm
        (fun x y hx hy => by
          rw [of_decide_eq_true hx, of_decide_eq_true hy])
        hOsub2 hFnodupO hOfut).symm
    · exact (filter_class_eq P U ts O hnodup hdeps (2 * ts.length + 1)
        (initState P ts U G today) hinv1 hdrain [] _ _ _ hq1' hz1nd hz2nd hpm
        (fun x y hx hy => by
          rw [of_decide_eq_true hx, of_decide_eq_true hy])
        hOsub2 hFnodupO hOfut).symm
    · exact (filter_class_eq P U ts O hnodup hdeps (2 * ts.length + 1)
        (initState P ts U G today) hinv1 hdrain [] _ _ _ hq1' hz1nd hz2nd hpm
        (fun x y hx hy => by
          have hx2 := of_decide_eq_true hx
          have hy2 := of_decide_eq_true hy
          rcases qweight_cases (initState P ts U G today).taskMap x with
            h | h | h | h | h <;>
            rcases qweight_cases (initState P ts U G today).taskMap y with
              h2 | h2 | h2 | h2 | h2 <;> omega)
        hOsub2 hFnodupO hOfut).symm
  · intro j hj
    exact absurd hj (List.not_mem_nil j)
  · intro d hd
    have hd2 : d ∉ taskIds O := fun h => hd (hFsub h)
    constructor
    · have hns : ¬ (mget (buildMaps ts).1 d).isSome := fun h =>
        hd (buildMaps_isSome_iff.mp h)
      exact Option.not_isSome_iff_eq_none.mp hns
    · have hns : ¬ (mget (buildMaps O).1 d).isSome := fun h =>
        hd2 (buildMaps_isSome_iff.mp h)
      exact Option.not_isSome_iff_eq_none.mp hns

theorem sim_run (P : Project) (U : List User) (ts O : List Task)
    (F : LoopState)
    (hnodup : (taskIds ts).Nodup) (hdeps : ∀ t ∈ ts, (depsOf t).Nodup)
    (hFinv : GraphInv P ts F) (hFq : F.queue = [])
    (hFO : F.optimizedTasks = O) :
    ∀ (f1 f2 : Nat) (s1 s2 : LoopState), Sim P U ts O F s1 s2 →
      (processLoop P U f1 s1).queue = [] →
      (processLoop P U f2 s2).queue = [] →
      (processLoop P U f2 s2).optimizedTasks =
        (processLoop P U f1 s1).optimizedTasks
  | 0, f2, s1, s2, hsim, hq1, hq2 => by
    have h0 : processLoop P U 0 s1 = s1 := rfl
    rw [h0] at hq1 ⊢
    have hq2e : s2.queue = [] := by rw [hsim.2.2.1, hq1]
    rw [processLoop_empty_queue P U f2 s2 hq2e]
    exact hsim.2.2.2.2.2.1
  | f1 + 1, f2, s1, s2, hsim, hq1, hq2 => by
    by_cases hqe : s1.queue = []
    · rw [processLoop_empty_queue P U (f1 + 1) s1 hqe] at hq1 ⊢
      have hq2e : s2.queue = [] := by rw [hsim.2.2.1, hqe]
      rw [processLoop_empty_queue P U f2 s2 hq2e]
      exact hsim.2.2.2.2.2.1
    · cases f2 with
      | zero =>
        exfalso
        have h0 : processLoop P U 0 s2 = s2 := rfl
        rw [h0] at hq2
        exact hqe (by rw [← hsim.2.2.1, hq2])
      | succ f2b =>
        have hne1 : ¬ s1.queue.isEmpty := by
          cases hq : s1.queue with
          | nil => exact absurd hq hqe
          | cons a b => simp
        have hne2 : ¬ s2.queue.isEmpty := by
          rw [hsim.2.2.1]
          exact hne1
        rw [processLoop_cons P U f1 s1 hne1] at hq1 ⊢
        rw [processLoop_cons P U f2b s2 hne2] at hq2 ⊢
        exact sim_run P U ts O F hnodup hdeps hFinv hFq hFO f1 f2b
          (stepState P U s1) (stepState P U s2)
          (sim_step P U ts O F hnodup hdeps hFinv hFq hFO s1 s2 hsim hqe)
          hq1 hq2

/-- C8: re-running the engine on its own output (same project, users, other
projects' tasks and current date; the data model's unique-id and
unique-dependency rules) reproduces the output exactly — in particular every
task keeps its `startDate` and `assignedTo`: the schedule is a fixed point. -/
theorem idempotence_fixed_point (P : Project) (ts : List Task)
    (U : List User) (G : List Task) (today : Int)
    (hnodup : (taskIds ts).Nodup) (hdeps : ∀ t ∈ ts, (depsOf t).Nodup) :
    (scheduleProject P (scheduleProject P ts U G today).optimizedTasks
        U G today).optimizedTasks =
      (scheduleProject P ts U G today).optimizedTasks := by
  have hFinv : GraphInv P ts (processLoop P U (2 * ts.length + 1)
      (initState P ts U G today)) :=
    processLoop_graphInv P U ts hnodup hdeps _ _
      (initState_graphInv P ts U G today hnodup hdeps)
  have hFq : (processLoop P U (2 * ts.length + 1)
      (initState P ts U G today)).queue = [] := by
    refine processLoop_empties P U ts hnodup hdeps _ _
      (initState_graphInv P ts U G today hnodup hdeps) ?_
    have h0 : (initState P ts U G today).optimizedTasks = [] := rfl
    rw [h0]
    simp only [List.length_nil]
    omega
  have hF' := hFinv
  obtain ⟨-, -, -, hOnodup, -, -, -, -, -, hFdone⟩ := hF'
  have hOdeps : ∀ t2 ∈ (processLoop P U (2 * ts.length + 1)
      (initState P ts U G today)).optimizedTasks, (depsOf t2).Nodup := by
    intro t2 ht2
    obtain ⟨-, -, t, ht, -, hcl⟩ := hFdone t2 ht2
    have hde : depsOf t2 = depsOf t := by rw [hcl]; rfl
    rw [hde]
    exact hdeps t ht
  have hinv2i := initState_graphInv P
    (processLoop P U (2 * ts.length + 1)
      (initState P ts U G today)).optimizedTasks U G today hOnodup hOdeps
  have hq2 : (processLoop P U (2 * (processLoop P U (2 * ts.length + 1)
        (initState P ts U G today)).optimizedTasks.length + 1)
      (initState P (processLoop P U (2 * ts.length + 1)
        (initState P ts U G today)).optimizedTasks U G today)).queue = [] := by
    refine processLoop_empties P U _ hOnodup hOdeps _ _ hinv2i ?_
    have h0 : (initState P (processLoop P U (2 * ts.length + 1)
        (initState P ts U G today)).optimizedTasks U G today).optimizedTasks =
        [] := rfl
    rw [h0]
    simp only [List.length_nil]
    omega
  have hO : (scheduleProject P ts U G today).optimizedTasks =
      (processLoop P U (2 * ts.length + 1)
        (initState P ts U G today)).optimizedTasks := rfl
  rw [hO]
  have hr2 : (scheduleProject P (processLoop P U (2 * ts.length + 1)
        (initState P ts U G today)).optimizedTasks U G today).optimizedTasks =
      (processLoop P U (2 * (processLoop P U (2 * ts.length + 1)
          (initState P ts U G today)).optimizedTasks.length + 1)
        (initState P (processLoop P U (2 * ts.length + 1)
          (initState P ts U G today)).optimizedTasks U G today)).optimizedTasks :=
    rfl
  rw [hr2]
  exact sim_run P U ts _ _ hnodup hdeps hFinv hFq rfl _ _ _ _
    (sim_init P U G ts _ _ today hnodup hdeps rfl hFinv hFq rfl) hFq hq2

/-- C8 witness: a concrete project with a dependency chain, resource
contention on one user and a mid-run critical release is an exact fixed
point under a second run. -/
theorem idempotence_fixed_point_witness :
    (taskIds [(⟨"a", "p", "A", 9, 2, none, some "u1", some "dev", Priority.media⟩ : Task),
              (⟨"z", "p", "Z", 9, 4, some ["a"], none, some "dev", Priority.critica⟩ : Task),
              (⟨"b", "p", "B", 9, 3, none, some "u1", some "dev", Priority.media⟩ : Task),
              (⟨"c", "p", "C", 9, 1, none, some "u2", some "dev", Priority.media⟩ : Task)]).Nodup ∧
    (∀ t ∈ [(⟨"a", "p", "A", 9, 2, none, some "u1", some "dev", Priority.media⟩ : Task),
            (⟨"z", "p", "Z", 9, 4, some ["a"], none, some "dev", Priority.critica⟩ : Task),
            (⟨"b", "p", "B", 9, 3, none, some "u1", some "dev", Priority.media⟩ : Task),
            (⟨"c", "p", "C", 9, 1, none, some "u2", some "dev", Priority.media⟩ : Task)],
      (depsOf t).Nodup) ∧
    (scheduleProject ⟨"p", 0⟩
        (scheduleProject ⟨"p", 0⟩
          [⟨"a", "p", "A", 9, 2, none, some "u1", some "dev", Priority.media⟩,
           ⟨"z", "p", "Z", 9, 4, some ["a"], none, some "dev", Priority.critica⟩,
           ⟨"b", "p", "B", 9, 3, none, some "u1", some "dev", Priority.media⟩,
           ⟨"c", "p", "C", 9, 1, none, some "u2", some "dev", Priority.media⟩]
          [⟨"u1", ["dev"], "r1"⟩, ⟨"u2", ["dev"], "r2"⟩] [] 0).optimizedTasks
        [⟨"u1", ["dev"], "r1"⟩, ⟨"u2", ["dev"], "r2"⟩] [] 0).optimizedTasks =
      (scheduleProject ⟨"p", 0⟩
        [⟨"a", "p", "A", 9, 2, none, some "u1", some "dev", Priority.media⟩,
         ⟨"z", "p", "Z", 9, 4, some ["a"], none, some "dev", Priority.critica⟩,
         ⟨"b", "p", "B", 9, 3, none, some "u1", some "dev", Priority.media⟩,
         ⟨"c", "p", "C", 9, 1, none, some "u2", some "dev", Priority.media⟩]
        [⟨"u1", ["dev"], "r1"⟩, ⟨"u2", ["dev"], "r2"⟩] [] 0).optimizedTasks :=
  ⟨by decide, by decide,
   idempotence_fixed_point ⟨"p", 0⟩
     [⟨"a", "p", "A", 9, 2, none, some "u1", some "dev", Priority.media⟩,
      ⟨"z", "p", "Z", 9, 4, some ["a"], none, some "dev", Priority.critica⟩,
      ⟨"b", "p", "B", 9, 3, none, some "u1", some "dev", Priority.media⟩,
      ⟨"c", "p", "C", 9, 1, none, some "u2", some "dev", Priority.media⟩]
     [⟨"u1", ["dev"], "r1"⟩, ⟨"u2", ["dev"], "r2"⟩] [] 0 (by decide) (by decide)⟩

end Scheduler
